import Mathlib

/-!
Verification of the cbor-patch library (RFC 6902 patch semantics over CBOR
documents).  The Go sources are shallowly embedded: Go byte strings become
`List Nat` (each element a byte value), Go's lazily parsed CBOR `Node`
becomes the value tree `Val`, CBOR map containers become association lists
keyed by the raw encoded key bytes (Go's `map[RawKey]*Node` with an explicit
representation order standing in for the unspecified hash-map iteration
order), and fallible Go functions become `Option`/`Except` valued functions.
-/

set_option maxHeartbeats 1000000

namespace CborPatch

/-- A Go byte string: a list of byte values. -/
abbrev Bytes := List Nat

/-- A raw encoded CBOR map key (Go type RawKey, a raw encoded CBOR value). -/
abbrev RawKey := Bytes

/-! ## CBOR heads and canonical integer / text encoding

The reference encoder (fxamacker/cbor with canonical options) emits the
shortest head form; the decoder accepts any well-formed head. -/

/-- Big-endian bytes of n, exactly `w` bytes wide. -/
def beBytes (w n : Nat) : Bytes :=
  (List.range w).reverse.map (fun i => n / 256 ^ i % 256)

/-- Canonical (shortest-form) CBOR head for major type `mt` (0..7) and
argument `n`, as emitted by the configured encoder. -/
def encodeHead (mt n : Nat) : Bytes :=
  if n < 24 then [mt * 32 + n]
  else if n < 256 then [mt * 32 + 24, n]
  else if n < 65536 then (mt * 32 + 25) :: beBytes 2 n
  else if n < 4294967296 then (mt * 32 + 26) :: beBytes 4 n
  else (mt * 32 + 27) :: beBytes 8 n

/-- Canonical CBOR encoding of a Go int (major type 0 for non-negative,
major type 1 for negative), as produced by cborMarshal on an int. -/
def encodeInt (i : Int) : Bytes :=
  if 0 ≤ i then encodeHead 0 i.toNat else encodeHead 1 (-1 - i).toNat

/-- Canonical CBOR encoding of a text string given by its UTF-8 bytes
(major type 3), as produced by cborMarshal on a Go string. -/
def encodeText (s : Bytes) : Bytes :=
  encodeHead 3 s.length ++ s

/-- ReadCBORType: the major-type byte of a raw encoded CBOR value
(first byte AND 0xe0); empty input yields the invalid sentinel 0xff. -/
def readCBORType (b : Bytes) : Nat :=
  match b with
  | [] => 0xff
  | x :: _ => x / 32 * 32

/-- The distinguished array-append key: the encoded text string "-". -/
def minusKey : RawKey := [0x61, 0x2d]

/-! ## Go strconv.Atoi (on byte strings) -/

/-- Is the byte an ASCII decimal digit? -/
def isDigit (c : Nat) : Bool := 0x30 ≤ c && c ≤ 0x39

/-- Parse a non-empty all-digit byte string as a natural number
(Go strconv's digit loop, without any overflow cutoff). -/
def digitsToNat? (l : Bytes) : Option Nat :=
  if l = [] then none
  else if l.all isDigit then some (l.foldl (fun a c => a * 10 + (c - 0x30)) 0)
  else none

/-- The digits of an Atoi input after the optional sign, together with
the sign. -/
def atoiCore (neg : Bool) (ds : Bytes) : Option Int :=
  match digitsToNat? ds with
  | none => none
  | some n =>
    if neg then (if n ≤ 2 ^ 63 then some (-(n : Int)) else none)
    else (if n < 2 ^ 63 then some (n : Int) else none)

/-- Go strconv.Atoi on a byte string: optional single sign, then decimal
digits; the value must fit a 64-bit signed int, otherwise an error. -/
def goAtoi (s : Bytes) : Option Int :=
  match s with
  | [] => none
  | c :: rest =>
    if c = 0x2b then atoiCore false rest
    else if c = 0x2d then atoiCore true rest
    else atoiCore false (c :: rest)

/-! ## JSON Pointer parsing (PathFromJSON, src/unnamed/part_007) -/

/-- rfc6901Decoder: single left-to-right pass replacing "~1" by "/" and
"~0" by "~" (Go strings.NewReplacer semantics). -/
def rfc6901Unescape : Bytes → Bytes
  | [] => []
  | 0x7e :: 0x31 :: rest => 0x2f :: rfc6901Unescape rest
  | 0x7e :: 0x30 :: rest => 0x7e :: rfc6901Unescape rest
  | c :: rest => c :: rfc6901Unescape rest

/-- Go strings.Split on the byte 0x2f; the empty string splits into one
empty segment. -/
def splitOnSlash : Bytes → List Bytes
  | [] => [[]]
  | 0x2f :: rest => [] :: splitOnSlash rest
  | c :: rest =>
    match splitOnSlash rest with
    | h :: t => (c :: h) :: t
    | [] => [[c]]

/-- Does the token start with '-' or an ASCII digit (the switch guard in
PathFromJSON)? -/
def startsIndexLike (token : Bytes) : Bool :=
  match token.head? with
  | some c => c = 0x2d || (0x30 ≤ c && c ≤ 0x39)
  | none => false

/-- The per-segment encoding step of PathFromJSON: if the unescaped token
starts with '-' or a digit and strconv.Atoi succeeds, the assigned key is
the CBOR encoding of that int; otherwise it is the CBOR text-string
encoding of the token. -/
def encodeSegment (token : Bytes) : RawKey :=
  if startsIndexLike token then
    match goAtoi token with
    | some v => encodeInt v
    | none => encodeText token
  else encodeText token

/-- PathFromJSON: empty pointer is the empty path; the pointer must start
with '/'; split the remainder on '/', unescape each segment, and encode it
with encodeSegment. -/
def pathFromJSON (s : Bytes) : Option (List RawKey) :=
  match s with
  | [] => some []
  | 0x2f :: rest =>
    some ((splitOnSlash rest).map (fun p => encodeSegment (rfc6901Unescape p)))
  | _ => none

/-! Spec-side characterization used for the amended claim C1: a token
matching -?[0-9]+ and its integer value. -/

/-- Modelled from the spec: the integer value of a token matching the
regular expression -?[0-9]+ (none when the token does not match). -/
def tokenIntValue? (t : Bytes) : Option Int :=
  if t.head? = some 0x2d then (digitsToNat? t.tail).map (fun n => -(n : Int))
  else (digitsToNat? t).map (fun n => (n : Int))

/-! ## The JSON-number conversion (convertNumber, src/unnamed/part_007)

The classification result of convertNumber.  The float64 value itself is
irrelevant to the claims; jfloat records that a CBOR float is produced. -/

inductive JNum
  | juint (n : Nat)
  | jint (i : Int)
  | jbig (i : Int)
  | jfloat
  | jerror
deriving DecidableEq

/-- Result of math/big Float.SetString followed by IsInt/Int on a decimal
string: the string parsed to an integer value (after big.Float's 64-bit
mantissa rounding), parsed to a non-integer, or failed to parse. -/
inductive BigFloatRes
  | intVal (i : Int)
  | notInt
  | parseFail

/-- External library behavior that convertNumber depends on but that this
repository does not implement: math/big Float parsing (only consulted for
strings containing an exponent) and whether strconv.ParseFloat by way of
json.Number.Float64 succeeds (it fails only on over/underflow). -/
structure FloatOracle where
  bigFloat : Bytes → BigFloatRes
  floatParse : Bytes → Bool

/-- maybeFloat's scanning loop: mf is set by '.', and 'e'/'E' sets both
flags and stops the scan. -/
def maybeFloatAux : Bytes → Bool → Bool × Bool
  | [], mf => (mf, false)
  | c :: rest, mf =>
    if c = 0x65 ∨ c = 0x45 then (true, true)
    else maybeFloatAux rest (mf || c = 0x2e)

/-- maybeFloat: (mf, mbf) as in the source. -/
def maybeFloat (s : Bytes) : Bool × Bool := maybeFloatAux s false

/-- Result of Go strconv.ParseUint(s, 10, 64): the value, a range error
carrying the mathematical value of the digits, or a syntax error. -/
inductive ParseUintRes
  | ok (n : Nat)
  | rangeErr (n : Nat)
  | synErr

/-- Go strconv.ParseUint(s, 10, 64) on a byte string. -/
def goParseUint64 (s : Bytes) : ParseUintRes :=
  match digitsToNat? s with
  | none => .synErr
  | some n => if n < 2 ^ 64 then .ok n else .rangeErr n

/-- The signed integer path of convertNumber: strip the sign, parse the
digits as uint64, fall back to big.Int on range overflow. -/
def convertIntPath (s : Bytes) : JNum :=
  let neg := s.head? = some 0x2d
  let s1 := if neg then s.tail else s
  match goParseUint64 s1 with
  | .ok u =>
    if ¬neg then .juint u
    else if u ≤ 2 ^ 63 then .jint (-(u : Int))
    else .jbig (-(u : Int))
  | .rangeErr n => if neg then .jbig (-(n : Int)) else .jbig (n : Int)
  | .synErr => .jerror

/-- convertNumber: classify a JSON number string.  Mirrors the source:
the exponent branch consults big.Float; a string with '.' or exponent
that was not returned as an integer becomes a float (or an error if
Float64 fails); otherwise the sign is stripped and the digits parsed as
uint64, falling back to big.Int on range overflow. -/
def convertNumber (o : FloatOracle) (s : Bytes) : JNum :=
  let mfp := maybeFloat s
  let rest : JNum :=
    if mfp.1 then (if o.floatParse s then .jfloat else .jerror)
    else convertIntPath s
  if mfp.2 then
    match o.bigFloat s with
    | .intVal i =>
      if 0 ≤ i ∧ i < 2 ^ 64 then .juint i.toNat
      else if -(2 ^ 63) ≤ i ∧ i < 2 ^ 63 then .jint i
      else rest
    | _ => rest
  else rest

/-- Modelled from the spec: the claimed classification of an
integer-valued (no '.', no exponent) JSON number: unsigned 64-bit numbers
become a CBOR positive int, numbers down to -(2^63) a CBOR negative int,
anything beyond a CBOR big integer. -/
def intClassify (t : Bytes) : JNum :=
  match tokenIntValue? t with
  | some v =>
    if 0 ≤ v then (if v < 2 ^ 64 then .juint v.toNat else .jbig v)
    else (if -(2 ^ 63) ≤ v then .jint v else .jbig v)
  | none => .jerror

/-! ## The document model

`Val` is the parsed CBOR value tree underlying Go's lazily parsed `Node`:
a `map` is a `partialDoc` (association list standing in for the unordered
Go map, keyed by raw encoded key bytes), an `arr` is a `partialArray`, and
`other` is a raw buffer that is neither map nor array (scalar, tag or
primitive).  Laziness is invisible to the verified behaviors, so raw
unparsed nodes are represented by their parsed form. -/

inductive Val
  | map : List (RawKey × Val) → Val
  | arr : List Val → Val
  | other : Bytes → Val

/-- The CBOR null node (NewNode(nil)). -/
def nullVal : Val := .other [0xf6]

/-- Node.isNull: raw bytes empty, 0xf6 or 0xf7; parsed containers are
never null. -/
def Val.isNull : Val → Bool
  | .other b => b == [] || b == [0xf6] || b == [0xf7]
  | _ => false

/-- Whether intoContainer succeeds (the node is a map or an array). -/
def Val.isContainer : Val → Bool
  | .map _ => true
  | .arr _ => true
  | .other _ => false

/-- NewNode(op.Value): an absent raw value decodes to the CBOR null node. -/
def valOfOpt (v : Option Val) : Val := v.getD nullVal

/-- isNull(op.Value) on the raw operation value: nil bytes are null. -/
def optIsNull (v : Option Val) : Bool :=
  match v with
  | none => true
  | some w => w.isNull

/-! ## Keys -/

/-- decode the argument of a CBOR head with additional info `ai` and
following bytes `rest` (the decoder accepts non-minimal forms). -/
def decodeArg (ai : Nat) (rest : Bytes) : Option (Nat × Bytes) :=
  if ai < 24 then some (ai, rest)
  else if ai = 24 then
    match rest with
    | b :: r => some (b, r)
    | [] => none
  else if ai = 25 then
    match rest with
    | b1 :: b2 :: r => some (b1 * 256 + b2, r)
    | _ => none
  else if ai = 26 then
    match rest with
    | b1 :: b2 :: b3 :: b4 :: r => some (((b1 * 256 + b2) * 256 + b3) * 256 + b4, r)
    | _ => none
  else if ai = 27 then
    match rest with
    | b1 :: b2 :: b3 :: b4 :: b5 :: b6 :: b7 :: b8 :: r =>
      some (((((((b1 * 256 + b2) * 256 + b3) * 256 + b4) * 256 + b5) * 256 + b6) * 256 + b7)
          * 256 + b8, r)
    | _ => none
  else none

/-- cborUnmarshal of a single CBOR integer item into a Go int: positive
and negative integers within the 64-bit signed range. -/
def decodeIntKey (b : Bytes) : Option Int :=
  match b with
  | [] => none
  | x :: rest =>
    let mt := x / 32
    let ai := x % 32
    match decodeArg ai rest with
    | none => none
    | some (n, r) =>
      if r ≠ [] then none
      else if mt = 0 then (if n < 2 ^ 63 then some (n : Int) else none)
      else if mt = 1 then (if n < 2 ^ 63 then some (-1 - (n : Int)) else none)
      else none

/-- RawKey.toInt: the "-" key is the sentinel -1; otherwise CBOR-decode
the key as an int (failing on non-integer keys and 64-bit overflow). -/
def toIntKey (k : RawKey) : Option Int :=
  if k = minusKey then some (-1) else decodeIntKey k

/-- RawKey.isIndex: "-" or an integer-typed key. -/
def isIndexKeyB (k : RawKey) : Bool :=
  k == minusKey || readCBORType k == 0 || readCBORType k == 0x20

/-! ## Options and errors -/

structure Options where
  supportNegativeIndices : Bool
  accumulatedCopySizeLimit : Int
  allowMissingPathOnRemove : Bool
  ensurePathExistsOnAdd : Bool
deriving DecidableEq

/-- NewOptions with the package-level defaults. -/
def newOptions : Options := ⟨true, 0, false, false⟩

inductive PErr
  | missing
  | invalidIndex
  | keyErr
  | unexpectedNode
  | impossibleCase
  | invalidOperation
  | testFailed
  | panicked
  | copySizeExceeded (limit acc : Int)
deriving DecidableEq

/-! ## Map container (partialDoc) -/

/-- Go map lookup keyed on raw key bytes. -/
def lookupKey (l : List (RawKey × Val)) (k : RawKey) : Option Val :=
  match l with
  | [] => none
  | (k', v) :: t => if k' = k then some v else lookupKey t k

/-- Go map assignment: replace in place if present, otherwise insert. -/
def mapSet (l : List (RawKey × Val)) (k : RawKey) (v : Val) : List (RawKey × Val) :=
  match l with
  | [] => [(k, v)]
  | (k', v') :: t => if k' = k then (k, v) :: t else (k', v') :: mapSet t k v

/-- Go map delete. -/
def mapDel (l : List (RawKey × Val)) (k : RawKey) : List (RawKey × Val) :=
  match l with
  | [] => []
  | (k', v') :: t => if k' = k then t else (k', v') :: mapDel t k

/-- partialDoc.get: a missing key is ErrMissing. -/
def mapGet (l : List (RawKey × Val)) (k : RawKey) : Except PErr Val :=
  match lookupKey l k with
  | none => .error .missing
  | some v => .ok v

/-- partialDoc.remove: missing key is ErrMissing unless
AllowMissingPathOnRemove. -/
def mapRemove (l : List (RawKey × Val)) (k : RawKey) (o : Options) :
    Except PErr (List (RawKey × Val)) :=
  match lookupKey l k with
  | none => if o.allowMissingPathOnRemove then .ok l else .error .missing
  | some _ => .ok (mapDel l k)

/-! ## Array container (partialArray) -/

/-- Insert at position n, shifting subsequent elements right. -/
def insertAt (d : List Val) (n : Nat) (v : Val) : List Val :=
  d.take n ++ v :: d.drop n

/-- Delete at position n, shifting subsequent elements left. -/
def removeAt (d : List Val) (n : Nat) : List Val :=
  d.take n ++ d.drop (n + 1)

/-- partialArray.get. -/
def arrGet (d : List Val) (k : RawKey) (o : Options) : Except PErr Val :=
  match toIntKey k with
  | none => .error .keyErr
  | some i0 =>
    let sz : Int := d.length
    let idxE : Except PErr Int :=
      if i0 < 0 then
        if ¬o.supportNegativeIndices ∨ i0 < -sz then .error .invalidIndex
        else .ok (i0 + sz)
      else .ok i0
    match idxE with
    | .error e => .error e
    | .ok idx =>
      if idx ≥ sz then .error .invalidIndex
      else match d.get? idx.toNat with
        | some v => .ok v
        | none => .error .invalidIndex

/-- partialArray.add: "-" appends; otherwise insert at the (possibly
negatively resolved) index with sz = length+1. -/
def arrAdd (d : List Val) (k : RawKey) (v : Val) (o : Options) :
    Except PErr (List Val) :=
  if k = minusKey then .ok (d ++ [v])
  else
    match toIntKey k with
    | none => .error .keyErr
    | some i0 =>
      let sz : Int := d.length + 1
      if i0 ≥ sz then .error .invalidIndex
      else if i0 < 0 then
        if ¬o.supportNegativeIndices ∨ i0 < -sz then .error .invalidIndex
        else .ok (insertAt d (i0 + sz).toNat v)
      else .ok (insertAt d i0.toNat v)

/-- partialArray.set (used only by replace after a successful get); a
positive index beyond the length would be a Go runtime panic. -/
def arrSet (d : List Val) (k : RawKey) (v : Val) (o : Options) :
    Except PErr (List Val) :=
  match toIntKey k with
  | none => .error .keyErr
  | some i0 =>
    let sz : Int := d.length
    if i0 < 0 then
      if ¬o.supportNegativeIndices ∨ i0 < -sz then .error .invalidIndex
      else .ok (d.set (i0 + sz).toNat v)
    else if i0 < sz then .ok (d.set i0.toNat v)
    else .error .panicked

/-- partialArray.remove. -/
def arrRemove (d : List Val) (k : RawKey) (o : Options) :
    Except PErr (List Val) :=
  match toIntKey k with
  | none => .error .keyErr
  | some i0 =>
    let sz : Int := d.length
    if i0 ≥ sz then
      if o.allowMissingPathOnRemove then .ok d else .error .invalidIndex
    else if i0 < 0 then
      if ¬o.supportNegativeIndices then .error .invalidIndex
      else if i0 < -sz then
        if o.allowMissingPathOnRemove then .ok d else .error .invalidIndex
      else .ok (removeAt d (i0 + sz).toNat)
    else .ok (removeAt d i0.toNat)

/-! ## Container dispatch -/

/-- container.get. -/
def conGet (c : Val) (k : RawKey) (o : Options) : Except PErr Val :=
  match c with
  | .map l => mapGet l k
  | .arr d => arrGet d k o
  | .other _ => .error .unexpectedNode

/-- container.add. -/
def conAdd (c : Val) (k : RawKey) (v : Val) (o : Options) : Except PErr Val :=
  match c with
  | .map l => .ok (.map (mapSet l k v))
  | .arr d => (arrAdd d k v o).map .arr
  | .other _ => .error .unexpectedNode

/-- container.set. -/
def conSet (c : Val) (k : RawKey) (v : Val) (o : Options) : Except PErr Val :=
  match c with
  | .map l => .ok (.map (mapSet l k v))
  | .arr d => (arrSet d k v o).map .arr
  | .other _ => .error .unexpectedNode

/-- container.remove. -/
def conRemove (c : Val) (k : RawKey) (o : Options) : Except PErr Val :=
  match c with
  | .map l => (mapRemove l k o).map .map
  | .arr d => (arrRemove d k o).map .arr
  | .other _ => .error .unexpectedNode

/-- container.len. -/
def conLen : Val → Nat
  | .map l => l.length
  | .arr d => d.length
  | .other _ => 0

/-- The in-place write-back of a mutated child obtained through a
successful container.get: Go mutates the child through its pointer, which
is equivalent to replacing the child at the position the get resolved. -/
def conSetBack (c : Val) (k : RawKey) (v : Val) (o : Options) : Except PErr Val :=
  match c with
  | .map l => .ok (.map (mapSet l k v))
  | .arr d =>
    match toIntKey k with
    | none => .error .keyErr
    | some i0 =>
      let sz : Int := d.length
      if i0 < 0 then
        if ¬o.supportNegativeIndices ∨ i0 < -sz then .error .invalidIndex
        else .ok (.arr (d.set (i0 + sz).toNat v))
      else .ok (.arr (d.set i0.toNat v))
  | .other _ => .error .unexpectedNode

/-! ## Path resolution (findObject) -/

/-- Walk the non-final path segments from a container, as findObject
does; any failure collapses to a nil container, reported as ErrMissing. -/
def resolveParts (c : Val) (parts : List RawKey) (o : Options) : Except PErr Val :=
  match parts with
  | [] => .ok c
  | k :: rest =>
    match conGet c k o with
    | .error _ => .error .missing
    | .ok child =>
      if child.isContainer then resolveParts child rest o else .error .missing

/-- findObject followed by the final container.get (the read-only resolve
used by move/copy sources and GetChild); the final get's own error is
propagated, walk failures are ErrMissing, and the empty path yields a nil
container (ErrMissing). -/
def getPath (c : Val) (path : List RawKey) (o : Options) : Except PErr Val :=
  match path.getLast? with
  | none => .error .missing
  | some key =>
    match resolveParts c path.dropLast o with
    | .error e => .error e
    | .ok con => conGet con key o

/-- Resolve the non-final segments and apply a mutation to the reached
container, writing the result back along the walked path (this is Go's
in-place mutation through container pointers). -/
def resolveMut (c : Val) (parts : List RawKey) (o : Options)
    (f : Val → Except PErr Val) : Except PErr Val :=
  match parts with
  | [] => f c
  | k :: rest =>
    match conGet c k o with
    | .error _ => .error .missing
    | .ok child =>
      if child.isContainer then
        match resolveMut child rest o f with
        | .error e => .error e
        | .ok child' => conSetBack c k child' o
      else .error .missing

/-! ## Well-formedness and structural equality -/

theorem sizeOf_lt_of_mem_val {x : Val} {xs : List Val} (h : x ∈ xs) :
    sizeOf x < sizeOf (Val.arr xs) := by
  have := List.sizeOf_lt_of_mem h
  simp only [Val.arr.sizeOf_spec]
  omega

theorem sizeOf_lt_of_mem_entry {k : RawKey} {v : Val} {l : List (RawKey × Val)}
    (h : (k, v) ∈ l) : sizeOf v < sizeOf (Val.map l) := by
  have h1 := List.sizeOf_lt_of_mem h
  have h2 : sizeOf v < sizeOf (k, v) := by
    simp only [Prod.mk.sizeOf_spec]
    omega
  simp only [Val.map.sizeOf_spec]
  omega

/-- Induction over the value tree with list-membership hypotheses. -/
theorem Val.inductionOn {motive : Val → Prop}
    (hother : ∀ b, motive (.other b))
    (harr : ∀ xs, (∀ x ∈ xs, motive x) → motive (.arr xs))
    (hmap : ∀ l, (∀ p ∈ l, motive p.2) → motive (.map l)) : ∀ v, motive v := by
  have key : ∀ n, ∀ v : Val, sizeOf v ≤ n → motive v := by
    intro n
    induction n with
    | zero =>
      intro v hv
      exfalso
      cases v <;> simp at hv
    | succ n ih =>
      intro v hv
      cases v with
      | other b => exact hother b
      | arr xs =>
        refine harr xs (fun x hx => ih x ?_)
        have := sizeOf_lt_of_mem_val hx
        omega
      | map l =>
        refine hmap l (fun p hp => ih p.2 ?_)
        have := sizeOf_lt_of_mem_entry hp
        omega
  exact fun v => key (sizeOf v) v (Nat.le_refl _)

mutual

/-- Well-formedness of a decoded document: every map in the tree has
pairwise distinct keys (the configured decoder rejects duplicate map
keys) and every array is shorter than 2^63 (a Go slice length is a
non-negative int). -/
def wf : Val → Bool
  | .other _ => true
  | .arr xs => decide (xs.length < 2 ^ 63) && wfList xs
  | .map l => decide (l.map Prod.fst).Nodup && wfEntries l
termination_by v => sizeOf v

def wfList : List Val → Bool
  | [] => true
  | x :: t => wf x && wfList t
termination_by xs => sizeOf xs

def wfEntries : List (RawKey × Val) → Bool
  | [] => true
  | (_, v) :: t => wf v && wfEntries t
termination_by l => sizeOf l

end

mutual

/-- Node.Equal: structural equality.  Null nodes equal exactly null
nodes; scalars compare by raw bytes; maps compare by size and per-key
lookup; arrays compare positionally. -/
def valEqual (n o : Val) : Bool :=
  if n.isNull then o.isNull
  else if o.isNull then false
  else
    match n, o with
    | .other b, .other b' => b == b'
    | .other _, _ => false
    | _, .other _ => false
    | .map l, .map l' => l.length == l'.length && valEqualEntries l' l
    | .map _, .arr _ => false
    | .arr _, .map _ => false
    | .arr xs, .arr ys => xs.length == ys.length && valEqualList xs ys
termination_by sizeOf n

/-- The per-key comparison loop of Node.Equal for maps: every entry of
the left map must be present and recursively equal in the right map. -/
def valEqualEntries (l' : List (RawKey × Val)) : List (RawKey × Val) → Bool
  | [] => true
  | (k, v) :: t =>
    (match lookupKey l' k with
     | some v' => valEqual v v'
     | none => false) && valEqualEntries l' t
termination_by l => sizeOf l

/-- The positional comparison loop of Node.Equal for arrays (lengths are
compared by the caller). -/
def valEqualList : List Val → List Val → Bool
  | [], _ => true
  | _ :: _, [] => true
  | x :: xs, y :: ys => valEqual x y && valEqualList xs ys
termination_by xs _ => sizeOf xs

end

/-! ## Serialization (the configured encoder: canonical heads, map keys
sorted bytewise-lexically on their encoded bytes) -/

/-- bytes.Compare a b <= 0: lexicographic byte order, a proper prefix
preceding its extensions. -/
def byteLe : Bytes → Bytes → Bool
  | [], _ => true
  | _ :: _, [] => false
  | a :: as, b :: bs => if a < b then true else if b < a then false else byteLe as bs

/-- Insert into a byteLe-sorted list of (encoded key, encoded value)
pairs, ordering on the key bytes. -/
def insortEntry (p : Bytes × Bytes) : List (Bytes × Bytes) → List (Bytes × Bytes)
  | [] => [p]
  | q :: t => if byteLe p.1 q.1 then p :: q :: t else q :: insortEntry p t

/-- Sort encoded map entries bytewise-lexically by encoded key
(cbor.SortBytewiseLexical). -/
def sortEntries : List (Bytes × Bytes) → List (Bytes × Bytes)
  | [] => []
  | p :: t => insortEntry p (sortEntries t)

mutual

/-- Node.MarshalCBOR under the configured encoder: raw scalars are
emitted verbatim, arrays in order, maps with entries sorted by encoded
key bytes. -/
def marshalVal : Val → Bytes
  | .other b => b
  | .arr xs => encodeHead 4 xs.length ++ marshalList xs
  | .map l =>
    encodeHead 5 l.length ++
      ((sortEntries (marshalEntries l)).map (fun q => q.1 ++ q.2)).flatten
termination_by v => sizeOf v

def marshalList : List Val → Bytes
  | [] => []
  | x :: t => marshalVal x ++ marshalList t
termination_by xs => sizeOf xs

def marshalEntries : List (RawKey × Val) → List (Bytes × Bytes)
  | [] => []
  | (k, v) :: t => (k, marshalVal v) :: marshalEntries t
termination_by l => sizeOf l

end

/-! ## Path auto-creation (ensurePathExists) -/

/-- If the current container is an array and the key is an index beyond
its length, pad it with nulls up to the index (the loop of appends in
ensurePathExists); a non-decodable index key is an error here. -/
def padArray (doc : Val) (k : RawKey) : Except PErr Val :=
  match doc with
  | .arr d =>
    if isIndexKeyB k then
      match toIntKey k with
      | none => .error .keyErr
      | some ai =>
        if (ai : Int) ≥ (d.length : Int) + 1 then
          .ok (.arr (d ++ List.replicate (ai.toNat - d.length) nullVal))
        else .ok doc
    else .ok doc
  | _ => .ok doc

/-- ensurePathExists: walk every non-final segment; descend through
existing containers, otherwise create a map or a (pre-padded) array as
dictated by the next segment, descending into the new child. -/
def ensureAux (doc : Val) : List RawKey → Options → Except PErr Val
  | [], _ => .ok doc
  | [_], _ => .ok doc
  | k :: k2 :: rest, o =>
    match conGet doc k o with
    | .ok target =>
      if target.isContainer then
        match ensureAux target (k2 :: rest) o with
        | .error e => .error e
        | .ok target' => conSetBack doc k target' o
      else .error .unexpectedNode
    | .error _ =>
      match padArray doc k with
      | .error e => .error e
      | .ok doc1 =>
        if isIndexKeyB k2 then
          match toIntKey k2 with
          | none => .error .keyErr
          | some ai =>
            match
              (if ai < 0 then
                if ¬o.supportNegativeIndices then Except.error PErr.invalidIndex
                else if ai < -1 then Except.error PErr.invalidIndex
                else Except.ok 0
              else Except.ok ai.toNat) with
            | .error e => .error e
            | .ok n =>
              match ensureAux (.arr (List.replicate n nullVal)) (k2 :: rest) o with
              | .error e => .error e
              | .ok child => conAdd doc1 k child o
        else
          match ensureAux (.map []) (k2 :: rest) o with
          | .error e => .error e
          | .ok child => conAdd doc1 k child o

/-! ## Operations (the executor in src/patch.go) -/

/-- Patch.add. -/
def opAdd (root : Val) (path : List RawKey) (v : Val) (o : Options) :
    Except PErr Val :=
  let run : Val → Except PErr Val := fun r =>
    match path.getLast? with
    | none => .error .missing
    | some key => resolveMut r path.dropLast o (fun con => conAdd con key v o)
  if o.ensurePathExistsOnAdd then
    match ensureAux root path o with
    | .error e => .error e
    | .ok r1 => run r1
  else run root

/-- Write a mutated container back along an already successfully walked
path (the trivial mutation view of resolveMut). -/
def writeBack (root : Val) (parts : List RawKey) (o : Options) (c' : Val) :
    Except PErr Val :=
  resolveMut root parts o (fun _ => .ok c')

/-- Patch.remove: a nil container (walk failure or empty path) is a no-op
under AllowMissingPathOnRemove, otherwise ErrMissing. -/
def opRemove (root : Val) (path : List RawKey) (o : Options) : Except PErr Val :=
  match path.getLast? with
  | none => if o.allowMissingPathOnRemove then .ok root else .error .missing
  | some key =>
    match resolveParts root path.dropLast o with
    | .error _ => if o.allowMissingPathOnRemove then .ok root else .error .missing
    | .ok con =>
      match conRemove con key o with
      | .error e => .error e
      | .ok con' => writeBack root path.dropLast o con'

/-- Patch.replace: an empty path reinterprets the operation value as the
new root container (a scalar is the impossible case); otherwise the final
key must exist and is set. -/
def opReplace (root : Val) (path : List RawKey) (vOpt : Option Val) (o : Options) :
    Except PErr Val :=
  if path.isEmpty then
    match valOfOpt vOpt with
    | .map l => .ok (.map l)
    | .arr d => .ok (.arr d)
    | .other _ => .error .impossibleCase
  else
    match path.getLast? with
    | none => .error .missing
    | some key =>
      resolveMut root path.dropLast o (fun con =>
        match conGet con key o with
        | .error _ => .error .missing
        | .ok _ => conSet con key (valOfOpt vOpt) o)

/-- Patch.move: get the source, remove it, then add it at the target
path (strict remove-then-add sequencing). -/
def opMove (root : Val) (fromP path : List RawKey) (o : Options) :
    Except PErr Val :=
  match getPath root fromP o with
  | .error e => .error e
  | .ok v =>
    match fromP.getLast? with
    | none => .error .missing
    | some fkey =>
      match resolveMut root fromP.dropLast o (fun con => conRemove con fkey o) with
      | .error e => .error e
      | .ok root1 =>
        match path.getLast? with
        | none => .error .missing
        | some key =>
          resolveMut root1 path.dropLast o (fun con => conAdd con key v o)

/-- Patch.test: an empty path compares the whole root; otherwise the
resolved value (a missing final get is coerced to null) is compared with
the operation value under structural equality, nulls matching exactly
absent-or-null expectations. -/
def opTest (root : Val) (path : List RawKey) (vOpt : Option Val) (o : Options) :
    Except PErr Unit :=
  if path.isEmpty then
    if valEqual root (valOfOpt vOpt) then .ok () else .error .testFailed
  else
    match path.getLast? with
    | none => .error .testFailed
    | some key =>
      match resolveParts root path.dropLast o with
      | .error _ => .error .testFailed
      | .ok con =>
        match conGet con key o with
        | .error .missing =>
          if optIsNull vOpt then .ok () else .error .testFailed
        | .error e => .error e
        | .ok v =>
          if v.isNull then
            if optIsNull vOpt then .ok () else .error .testFailed
          else
            match vOpt with
            | none => .error .testFailed
            | some w => if valEqual v w then .ok () else .error .testFailed

/-- Patch.copy: resolve the source and the destination container, deep
copy the source by re-serialization (its size is the serialized byte
length), enforce the accumulated copy size limit, then add. -/
def opCopy (root : Val) (fromP path : List RawKey) (acc : Int) (o : Options) :
    Except PErr (Val × Int) :=
  match getPath root fromP o with
  | .error e => .error e
  | .ok v =>
    match path.getLast? with
    | none => .error .missing
    | some key =>
      match resolveParts root path.dropLast o with
      | .error _ => .error .missing
      | .ok _ =>
        let sz : Int := (marshalVal v).length
        let acc' := acc + sz
        if o.accumulatedCopySizeLimit > 0 ∧ acc' > o.accumulatedCopySizeLimit then
          .error (.copySizeExceeded o.accumulatedCopySizeLimit acc')
        else
          (resolveMut root path.dropLast o (fun con => conAdd con key v o)).map
            (fun r => (r, acc'))

/-! ## Operations as records, validation, and the patch loop -/

inductive Op
  | reserved
  | add
  | remove
  | replace
  | move
  | copy
  | test
deriving DecidableEq

/-- A single CBOR-Patch step; From and Path distinguish a nil slice
(absent field) from a present one, and Value is the optional raw value. -/
structure Operation where
  op : Op
  fromPath : Option (List RawKey)
  path : Option (List RawKey)
  value : Option Val

/-- Operation.Valid (src/json.go): add, replace and test require an
absent from; remove additionally an absent value; move and copy require
from and path present and an absent value; any other op code is
invalid. -/
def operationValid (x : Operation) : Bool :=
  match x.op with
  | .reserved => false
  | .add => x.fromPath.isNone
  | .remove => x.fromPath.isNone && x.value.isNone
  | .replace => x.fromPath.isNone
  | .move => x.fromPath.isSome && x.path.isSome && x.value.isNone
  | .copy => x.fromPath.isSome && x.path.isSome && x.value.isNone
  | .test => x.fromPath.isNone

/-- Dispatch one already validated operation. -/
def applyOp (root : Val) (x : Operation) (acc : Int) (o : Options) :
    Except PErr (Val × Int) :=
  let p := x.path.getD []
  match x.op with
  | .reserved => .error .invalidOperation
  | .add => (opAdd root p (valOfOpt x.value) o).map (fun r => (r, acc))
  | .remove => (opRemove root p o).map (fun r => (r, acc))
  | .replace => (opReplace root p x.value o).map (fun r => (r, acc))
  | .move => (opMove root (x.fromPath.getD []) p o).map (fun r => (r, acc))
  | .copy => opCopy root (x.fromPath.getD []) p acc o
  | .test => (opTest root p x.value o).map (fun _ => (root, acc))

/-- The loop of Node.Patch: validate then execute each operation in
order, threading the accumulated copy size; the first failure aborts. -/
def applyOps (root : Val) (ops : List Operation) (acc : Int) (o : Options) :
    Except PErr Val :=
  match ops with
  | [] => .ok root
  | x :: rest =>
    if operationValid x then
      match applyOp root x acc o with
      | .error e => .error e
      | .ok ra => applyOps ra.1 rest ra.2 o
    else .error .invalidOperation

/-- Node.Patch: the root must materialize as a container before any
operation executes. -/
def nodePatch (root : Val) (ops : List Operation) (o : Options) :
    Except PErr Val :=
  if root.isContainer then applyOps root ops 0 o else .error .unexpectedNode

/-- Patch.ApplyWithOptions: patch the root node, then marshal it. -/
def applyWithOptions (root : Val) (ops : List Operation) (o : Options) :
    Except PErr Bytes :=
  (nodePatch root ops o).map marshalVal

/-! ## Queries (src/unnamed/part_003) -/

/-- Node.GetChild: the root must be a container; findObject plus the
final container.get (an empty path has no final key and is ErrMissing). -/
def nodeGetChild (n : Val) (path : List RawKey) (o : Options) : Except PErr Val :=
  if n.isContainer then getPath n path o else .error .unexpectedNode

/-- The walking loop of assertObject over a non-empty subpath; an
exhausted subpath (the loop falling through) is false. -/
def assertWalk (o : Options) (value : Val) : Val → List RawKey → Bool
  | _, [] => false
  | doc, [k] =>
    match conGet doc k o with
    | .error _ => false
    | .ok next => valEqual next value
  | doc, k :: k2 :: rest =>
    match conGet doc k o with
    | .error _ => false
    | .ok next => if next.isContainer then assertWalk o value next (k2 :: rest) else false

/-- assertObject: the node must be a container, then walk the subpath;
the final resolved value must equal the expected value (a null expected
value matching a missing-get null). -/
def assertObject (node : Val) (subpath : List RawKey) (value : Val) (o : Options) : Bool :=
  if node.isContainer then assertWalk o value node subpath else false

/-- A returned (path, value) pair of FindChildren; the value is the
node's raw serialized form, represented structurally. -/
structure PV where
  path : List RawKey
  value : Val

/-- A test predicate of FindChildren: a subpath and an optional raw
expected value. -/
structure TestPV where
  path : List RawKey
  value : Option Val

mutual

/-- findChildNodes: pre-order traversal recording each container node
that satisfies the first predicate, with the path from the root. -/
def findChildNodes (node value : Val) (parentpath subpath : List RawKey)
    (o : Options) : List PV :=
  match node with
  | .other _ => []
  | .map l =>
    (if assertObject node subpath value o then [⟨parentpath, node⟩] else []) ++
      findChildMap value parentpath subpath o l
  | .arr xs =>
    (if assertObject node subpath value o then [⟨parentpath, node⟩] else []) ++
      findChildArr value parentpath subpath o 0 xs

/-- Traversal of a map's entries in representation order, extending the
path with each key. -/
def findChildMap (value : Val) (parentpath subpath : List RawKey) (o : Options) :
    List (RawKey × Val) → List PV
  | [] => []
  | (k, v) :: t =>
    findChildNodes v value (parentpath ++ [k]) subpath o ++
      findChildMap value parentpath subpath o t

/-- Traversal of an array's elements from index 0, extending the path
with the canonical encoding of each index (Path.withIndex). -/
def findChildArr (value : Val) (parentpath subpath : List RawKey) (o : Options) :
    Nat → List Val → List PV
  | _, [] => []
  | i, x :: t =>
    findChildNodes x value (parentpath ++ [encodeInt i]) subpath o ++
      findChildArr value parentpath subpath o (i + 1) t

end

/-- Node.FindChildren: seed with the nodes matching the first predicate,
then filter by each remaining predicate in order. -/
def findChildren (n : Val) (tests : List TestPV) (o : Options) : List PV :=
  match tests with
  | [] => []
  | t0 :: trest =>
    trest.foldl
      (fun res t => res.filter (fun r => assertObject r.value t.path (valOfOpt t.value) o))
      (findChildNodes n (valOfOpt t0.value) [] t0.path o)

/-! ## Lemmas on the JSON Pointer segment encoding -/

theorem atoiCore_true (ds : Bytes) : atoiCore true ds =
    (match digitsToNat? ds with
     | none => none
     | some n => if n ≤ 2 ^ 63 then some (-(n : Int)) else none) := rfl

theorem atoiCore_false (ds : Bytes) : atoiCore false ds =
    (match digitsToNat? ds with
     | none => none
     | some n => if n < 2 ^ 63 then some ((n : Int)) else none) := rfl

/-- The segment encoding, characterized without Atoi: a token matching
-?[0-9]+ whose value fits a signed 64-bit int gets the canonical CBOR
integer key; every other token gets the CBOR text-string key. -/
theorem encodeSegment_eq (t : Bytes) :
    encodeSegment t =
      match tokenIntValue? t with
      | some v => if -(2 ^ 63) ≤ v ∧ v < 2 ^ 63 then encodeInt v else encodeText t
      | none => encodeText t := by
  match t with
  | [] => simp [encodeSegment, startsIndexLike, tokenIntValue?, digitsToNat?]
  | c :: rest =>
    by_cases hc : c = 0x2d
    · subst hc
      have ht : tokenIntValue? (0x2d :: rest) =
          (digitsToNat? rest).map (fun n => -(n : Int)) := by
        simp [tokenIntValue?]
      have hg : goAtoi (0x2d :: rest) = atoiCore true rest := by
        simp [goAtoi]
      rw [ht, encodeSegment, if_pos (by simp [startsIndexLike]), hg, atoiCore_true]
      cases hd : digitsToNat? rest with
      | none => simp
      | some n =>
        by_cases hn : n ≤ 2 ^ 63
        · simp
          rw [if_pos (show n ≤ 9223372036854775808 by omega)]
          rw [if_pos (show n ≤ 9223372036854775808 ∧ -(n : Int) < 9223372036854775808 by
            constructor <;> omega)]
        · simp
          rw [if_neg (show ¬n ≤ 9223372036854775808 by omega)]
          rw [if_neg (show ¬(n ≤ 9223372036854775808 ∧ -(n : Int) < 9223372036854775808) by
            intro h
            omega)]
    · by_cases hdig : 0x30 ≤ c ∧ c ≤ 0x39
      · have ht : tokenIntValue? (c :: rest) =
            (digitsToNat? (c :: rest)).map (fun n => (n : Int)) := by
          simp [tokenIntValue?, hc]
        have hg : goAtoi (c :: rest) = atoiCore false (c :: rest) := by
          have hcb : ¬(c = 0x2b) := by omega
          simp [goAtoi, hcb, hc]
        have hs : startsIndexLike (c :: rest) = true := by
          simp [startsIndexLike]
          omega
        rw [ht, encodeSegment, if_pos hs, hg, atoiCore_false]
        cases hd : digitsToNat? (c :: rest) with
        | none => simp
        | some n =>
          by_cases hn : n < 2 ^ 63
          · simp
            rw [if_pos (show n < 9223372036854775808 by omega)]
            rw [if_pos
              (show -(9223372036854775808 : Int) ≤ (n : Int) ∧ n < 9223372036854775808 by
                constructor <;> omega)]
          · simp
            rw [if_neg (show ¬n < 9223372036854775808 by omega)]
            rw [if_neg
              (show ¬(-(9223372036854775808 : Int) ≤ (n : Int) ∧ n < 9223372036854775808) by
                intro h
                omega)]
      · have hs : startsIndexLike (c :: rest) = false := by
          simp [startsIndexLike, hc]
          omega
        have ht : tokenIntValue? (c :: rest) = none := by
          have hdg : digitsToNat? (c :: rest) = none := by
            have hcd : isDigit c = false := by
              simp [isDigit]
              omega
            simp [digitsToNat?, hcd]
          simp [tokenIntValue?, hc, hdg]
        rw [ht, encodeSegment, if_neg (by simp [hs])]

/-- The first byte of a canonical CBOR head is below the next major
type's range. -/
theorem encodeHead_first (mt n : Nat) :
    ∃ b r, encodeHead mt n = b :: r ∧ b < mt * 32 + 32 := by
  unfold encodeHead
  split
  · exact ⟨_, _, rfl, by omega⟩
  · split
    · exact ⟨_, _, rfl, by omega⟩
    · split
      · exact ⟨_, _, rfl, by omega⟩
      · split
        · exact ⟨_, _, rfl, by omega⟩
        · exact ⟨_, _, rfl, by omega⟩

/-- A CBOR integer key never equals the text-string key "-" (its first
byte stays below the byte-string range). -/
theorem encodeInt_ne_minus (i : Int) : encodeInt i ≠ minusKey := by
  have h : ∃ b r, encodeInt i = b :: r ∧ b < 64 := by
    unfold encodeInt
    split
    · rcases encodeHead_first 0 i.toNat with ⟨b, r, he, hb⟩
      exact ⟨b, r, he, by omega⟩
    · rcases encodeHead_first 1 (-1 - i).toNat with ⟨b, r, he, hb⟩
      exact ⟨b, r, he, by omega⟩
  rcases h with ⟨b, r, he, hb⟩
  rw [he, minusKey]
  intro hcontra
  have : b = 0x61 := (List.cons.injEq _ _ _ _ ▸ hcontra).1
  omega

/-! ## Association-list and container round-trip lemmas -/

theorem set_get_self {α : Type} (l : List α) (n : Nat) (a : α) (h : l.get? n = some a) :
    l.set n a = l := by
  induction l generalizing n with
  | nil => simp at h
  | cons x t ih =>
    cases n with
    | zero =>
      simp at h
      simp [h]
    | succ m =>
      simp only [List.get?_cons_succ] at h
      simp only [List.set_cons_succ]
      rw [ih m h]

theorem lookupKey_mapSet_self (l : List (RawKey × Val)) (k : RawKey) (v : Val) :
    lookupKey (mapSet l k v) k = some v := by
  induction l with
  | nil => simp [mapSet, lookupKey]
  | cons p t ih =>
    obtain ⟨k', v'⟩ := p
    rw [mapSet]
    by_cases h : k' = k
    · rw [if_pos h, lookupKey, if_pos rfl]
    · rw [if_neg h, lookupKey, if_neg h]
      exact ih

theorem mapSet_lookup_self (l : List (RawKey × Val)) (k : RawKey) (v : Val)
    (h : lookupKey l k = some v) : mapSet l k v = l := by
  induction l with
  | nil => simp [lookupKey] at h
  | cons p t ih =>
    obtain ⟨k', v'⟩ := p
    rw [lookupKey] at h
    rw [mapSet]
    by_cases hk : k' = k
    · rw [if_pos hk] at h
      rw [if_pos hk]
      have hv : v' = v := by simpa using h
      rw [← hv, ← hk]
    · rw [if_neg hk] at h
      rw [if_neg hk, ih h]

theorem mapDel_mapSet (l : List (RawKey × Val)) (k : RawKey) (v : Val)
    (h : lookupKey l k = none) : mapDel (mapSet l k v) k = l := by
  induction l with
  | nil => simp [mapSet, mapDel]
  | cons p t ih =>
    obtain ⟨k', v'⟩ := p
    rw [lookupKey] at h
    by_cases hk : k' = k
    · rw [if_pos hk] at h
      simp at h
    · rw [if_neg hk] at h
      rw [mapSet, if_neg hk, mapDel, if_neg hk, ih h]

theorem mapSet_mapSet (l : List (RawKey × Val)) (k : RawKey) (v1 v2 : Val) :
    mapSet (mapSet l k v1) k v2 = mapSet l k v2 := by
  induction l with
  | nil => simp [mapSet]
  | cons p t ih =>
    obtain ⟨k', v'⟩ := p
    rw [mapSet]
    by_cases hk : k' = k
    · rw [if_pos hk]
      rw [mapSet, if_pos rfl, mapSet, if_pos hk]
    · rw [if_neg hk]
      rw [mapSet, if_neg hk, mapSet, if_neg hk, ih]

/-- Everything the round-trip argument needs about writing back through a
container position obtained from a successful get: writing back the read
value is the identity, and after any write the position reads back the
written value, keeps the container shape, and later writes collapse. -/
theorem conSetBack_props (c ch : Val) (k : RawKey) (o : Options)
    (h : conGet c k o = .ok ch) :
    conSetBack c k ch o = .ok c ∧
    ∀ v, ∃ c', conSetBack c k v o = .ok c' ∧
      c'.isContainer = c.isContainer ∧
      conGet c' k o = .ok v ∧
      (∀ w, conSetBack c' k w o = conSetBack c k w o) := by
  match c with
  | .other b => rw [conGet] at h; simp at h
  | .map l =>
    rw [conGet, mapGet] at h
    cases hl : lookupKey l k with
    | none => rw [hl] at h; simp at h
    | some u =>
      rw [hl] at h
      have hu : u = ch := by simpa using h
      subst hu
      constructor
      · rw [conSetBack, mapSet_lookup_self l k u hl]
      · intro v
        refine ⟨.map (mapSet l k v), rfl, rfl, ?_, ?_⟩
        · rw [conGet, mapGet, lookupKey_mapSet_self]
        · intro w
          rw [conSetBack, conSetBack, mapSet_mapSet]
  | .arr d =>
    rw [conGet, arrGet] at h
    cases hk : toIntKey k with
    | none => rw [hk] at h; simp at h
    | some i0 =>
      rw [hk] at h
      simp only at h
      by_cases hneg : i0 < 0
      · rw [if_pos hneg] at h
        by_cases hbad : ¬o.supportNegativeIndices ∨ i0 < -(d.length : Int)
        · rw [if_pos hbad] at h
          simp at h
        · rw [if_neg hbad] at h
          simp only at h
          by_cases hge : i0 + (d.length : Int) ≥ (d.length : Int)
          · rw [if_pos hge] at h
            simp at h
          · rw [if_neg hge] at h
            cases hget : d.get? (i0 + (d.length : Int)).toNat with
            | none => rw [hget] at h; simp at h
            | some u =>
              rw [hget] at h
              have hu : u = ch := by simpa using h
              subst hu
              constructor
              · rw [conSetBack, hk]
                simp only
                rw [if_pos hneg, if_neg hbad, set_get_self d _ u hget]
              · intro v
                refine ⟨.arr (d.set (i0 + (d.length : Int)).toNat v), ?_, rfl, ?_, ?_⟩
                · rw [conSetBack, hk]
                  simp only
                  rw [if_pos hneg, if_neg hbad]
                · rw [conGet, arrGet, hk]
                  simp only
                  rw [if_pos hneg]
                  rw [if_neg (by simpa using hbad)]
                  simp only [List.length_set]
                  rw [if_neg (by simpa using hge)]
                  rw [List.get?_eq_getElem?, List.getElem?_set_self']
                  have hlt : (i0 + (d.length : Int)).toNat < d.length := by
                    have := List.get?_eq_some.mp hget
                    omega
                  simp [hlt]
                · intro w
                  rw [conSetBack, conSetBack, hk]
                  simp only
                  rw [if_pos hneg]
                  rw [if_neg (by simpa using hbad), if_neg hbad]
                  simp only [List.length_set]
                  rw [List.set_set, if_pos hneg]
      · rw [if_neg hneg] at h
        simp only at h
        by_cases hge : i0 ≥ (d.length : Int)
        · rw [if_pos hge] at h
          simp at h
        · rw [if_neg hge] at h
          cases hget : d.get? i0.toNat with
          | none => rw [hget] at h; simp at h
          | some u =>
            rw [hget] at h
            have hu : u = ch := by simpa using h
            subst hu
            constructor
            · rw [conSetBack, hk]
              simp only
              rw [if_neg hneg, set_get_self d _ u hget]
            · intro v
              refine ⟨.arr (d.set i0.toNat v), ?_, rfl, ?_, ?_⟩
              · rw [conSetBack, hk]
                simp only
                rw [if_neg hneg]
              · rw [conGet, arrGet, hk]
                simp only
                rw [if_neg hneg]
                simp only [List.length_set]
                rw [if_neg hge]
                rw [List.get?_eq_getElem?, List.getElem?_set_self']
                have hlt : i0.toNat < d.length := by
                  have := List.get?_eq_some.mp hget
                  omega
                simp [hlt]
              · intro w
                rw [conSetBack, conSetBack, hk]
                simp only
                rw [if_neg hneg, if_neg hneg]
                rw [List.set_set]

/-- The round trip through resolveMut: if the walk reaches container C
and the mutation sends C to a container C2, then the mutation succeeds,
the walk in the mutated document reaches C2, and re-mutating back to C
restores the original document. -/
theorem resolveMut_roundtrip (parts : List RawKey) (D C C2 : Val) (o : Options)
    (f : Val → Except PErr Val)
    (hres : resolveParts D parts o = .ok C)
    (hf : f C = .ok C2)
    (hC2 : C2.isContainer = true) :
    ∃ D2, resolveMut D parts o f = .ok D2 ∧ D2.isContainer = true ∧
      resolveParts D2 parts o = .ok C2 ∧
      ∀ g, g C2 = .ok C → resolveMut D2 parts o g = .ok D := by
  induction parts generalizing D with
  | nil =>
    rw [resolveParts] at hres
    have hC : C = D := by simpa using hres.symm
    subst hC
    refine ⟨C2, ?_, hC2, ?_, ?_⟩
    · rw [resolveMut, hf]
    · rw [resolveParts]
    · intro g hg
      rw [resolveMut, hg]
  | cons k rest ih =>
    cases hget : conGet D k o with
    | error e =>
      simp [resolveParts, hget] at hres
    | ok child =>
      simp only [resolveParts, hget] at hres
      by_cases hcc : child.isContainer = true
      · rw [if_pos hcc] at hres
        rcases ih child hres with ⟨child2, hmut, hshape, hres2, hinv⟩
        rcases conSetBack_props D child k o hget with ⟨hid, hall⟩
        rcases hall child2 with ⟨D2, hsb, hshapeD, hget2, hcollapse⟩
        have hDcon : D.isContainer = true := by
          cases D with
          | other b => rw [conGet] at hget; exact absurd hget (by simp)
          | map l => rfl
          | arr d => rfl
        refine ⟨D2, ?_, by rw [hshapeD]; exact hDcon, ?_, ?_⟩
        · simp only [resolveMut, hget, hcc, if_true, hmut]
          exact hsb
        · simp only [resolveParts, hget2, hshape, if_true]
          exact hres2
        · intro g hg
          simp only [resolveMut, hget2, hshape, if_true, hinv g hg]
          rw [hcollapse child]
          exact hid
      · rw [if_neg hcc] at hres
        exact absurd hres (by simp)

/-! ## Reflexivity of structural equality on well-formed values -/

theorem wfList_mem {xs : List Val} {x : Val} (h : wfList xs = true) (hm : x ∈ xs) :
    wf x = true := by
  induction xs with
  | nil => simp at hm
  | cons y t ih =>
    rw [wfList, Bool.and_eq_true] at h
    rcases List.mem_cons.mp hm with hx | hx
    · rw [hx]
      exact h.1
    · exact ih h.2 hx

theorem wfEntries_mem {l : List (RawKey × Val)} {p : RawKey × Val}
    (h : wfEntries l = true) (hm : p ∈ l) : wf p.2 = true := by
  induction l with
  | nil => simp at hm
  | cons q t ih =>
    obtain ⟨k, v⟩ := q
    rw [wfEntries, Bool.and_eq_true] at h
    rcases List.mem_cons.mp hm with hx | hx
    · rw [hx]
      exact h.1
    · exact ih h.2 hx

theorem lookupKey_of_mem {l : List (RawKey × Val)} {k : RawKey} {v : Val}
    (hnd : (l.map Prod.fst).Nodup) (hm : (k, v) ∈ l) : lookupKey l k = some v := by
  induction l with
  | nil => simp at hm
  | cons q t ih =>
    obtain ⟨k', v'⟩ := q
    rw [List.map_cons, List.nodup_cons] at hnd
    rcases List.mem_cons.mp hm with hx | hx
    · injection hx with hk hv
      subst hk
      subst hv
      rw [lookupKey, if_pos rfl]
    · rw [lookupKey]
      by_cases hk : k' = k
      · exfalso
        apply hnd.1
        subst hk
        exact List.mem_map.mpr ⟨(k', v), hx, rfl⟩
      · rw [if_neg hk]
        exact ih hnd.2 hx

theorem valEqualList_refl (xs : List Val) (h : ∀ x ∈ xs, valEqual x x = true) :
    valEqualList xs xs = true := by
  induction xs with
  | nil => rw [valEqualList]
  | cons x t ih =>
    rw [valEqualList, Bool.and_eq_true]
    exact ⟨h x (List.mem_cons_self x t), ih (fun y hy => h y (List.mem_cons_of_mem x hy))⟩

theorem valEqualEntries_refl (l t : List (RawKey × Val))
    (hsub : ∀ p ∈ t, lookupKey l p.1 = some p.2 ∧ valEqual p.2 p.2 = true) :
    valEqualEntries l t = true := by
  induction t with
  | nil => rw [valEqualEntries]
  | cons q r ih =>
    obtain ⟨k, v⟩ := q
    rw [valEqualEntries, Bool.and_eq_true]
    rcases hsub (k, v) (List.mem_cons_self _ _) with ⟨hl, hv⟩
    constructor
    · rw [hl]
      exact hv
    · exact ih (fun p hp => hsub p (List.mem_cons_of_mem _ hp))

/-- Node.Equal is reflexive on well-formed documents. -/
theorem valEqual_refl (v : Val) (h : wf v = true) : valEqual v v = true := by
  induction v using Val.inductionOn with
  | hother b =>
    rw [valEqual]
    by_cases hn : (Val.other b).isNull = true
    · rw [if_pos hn]
      exact hn
    · rw [if_neg hn, if_neg hn]
      simp
  | harr xs ihm =>
    rw [wf, Bool.and_eq_true] at h
    rw [valEqual]
    have hn : (Val.arr xs).isNull = false := rfl
    rw [hn]
    simp only [Bool.false_eq_true, if_false]
    rw [Bool.and_eq_true]
    refine ⟨by simp, valEqualList_refl xs (fun x hx => ihm x hx (wfList_mem h.2 hx))⟩
  | hmap l ihm =>
    rw [wf, Bool.and_eq_true] at h
    rw [valEqual]
    have hn : (Val.map l).isNull = false := rfl
    rw [hn]
    simp only [Bool.false_eq_true, if_false]
    rw [Bool.and_eq_true]
    refine ⟨by simp, valEqualEntries_refl l l (fun p hp => ?_)⟩
    have hnd : (l.map Prod.fst).Nodup := by simpa using h.1
    refine ⟨?_, ihm p hp (wfEntries_mem h.2 hp)⟩
    obtain ⟨k, v⟩ := p
    exact lookupKey_of_mem hnd hp

/-! ## Round trip of canonically encoded integer keys -/

theorem beBytes_two (n : Nat) : beBytes 2 n = [n / 256 % 256, n % 256] := by
  simp [beBytes, List.range_succ]

theorem beBytes_four (n : Nat) :
    beBytes 4 n = [n / 256 ^ 3 % 256, n / 256 ^ 2 % 256, n / 256 % 256, n % 256] := by
  simp [beBytes, List.range_succ, pow_succ]

theorem beBytes_eight (n : Nat) :
    beBytes 8 n = [n / 256 ^ 7 % 256, n / 256 ^ 6 % 256, n / 256 ^ 5 % 256,
      n / 256 ^ 4 % 256, n / 256 ^ 3 % 256, n / 256 ^ 2 % 256, n / 256 % 256, n % 256] := by
  simp [beBytes, List.range_succ, pow_succ]

/-- Decoding the canonical head of a 63-bit unsigned integer recovers it. -/
theorem decodeIntKey_encodeHead0 (n : Nat) (h : n < 2 ^ 63) :
    decodeIntKey (encodeHead 0 n) = some (n : Int) := by
  rw [encodeHead]
  by_cases h1 : n < 24
  · rw [if_pos h1, (by omega : 0 * 32 + n = n)]
    simp only [decodeIntKey, decodeArg]
    rw [(by omega : n % 32 = n), (by omega : n / 32 = 0)]
    simp [h1]
    all_goals omega
  · rw [if_neg h1]
    by_cases h2 : n < 256
    · rw [if_pos h2, (by omega : 0 * 32 + 24 = 24)]
      simp only [decodeIntKey, decodeArg]
      simp
      all_goals omega
    · rw [if_neg h2]
      by_cases h3 : n < 65536
      · rw [if_pos h3, beBytes_two, (by omega : 0 * 32 + 25 = 25)]
        simp only [decodeIntKey, decodeArg]
        simp
        all_goals omega
      · rw [if_neg h3]
        by_cases h4 : n < 4294967296
        · rw [if_pos h4, beBytes_four, (by omega : 0 * 32 + 26 = 26)]
          simp only [decodeIntKey, decodeArg]
          simp
          all_goals omega
        · rw [if_neg h4, beBytes_eight, (by omega : 0 * 32 + 27 = 27)]
          simp only [decodeIntKey, decodeArg]
          simp
          all_goals omega

/-- RawKey.toInt on the canonical encoding of a 63-bit natural index. -/
theorem toIntKey_encodeNat (i : Nat) (h : i < 2 ^ 63) :
    toIntKey (encodeInt (i : Int)) = some (i : Int) := by
  rw [toIntKey, if_neg (encodeInt_ne_minus i), encodeInt,
    if_pos (by positivity : (0 : Int) ≤ (i : Int))]
  rw [(by simp : ((i : Int)).toNat = i)]
  exact decodeIntKey_encodeHead0 i h

/-- partialArray.get on the canonical encoding of an in-range index
returns that element (the array length bound comes from well-formedness). -/
theorem arrGet_encodeInt (d : List Val) (i : Nat) (x : Val) (o : Options)
    (hlen : d.length < 2 ^ 63) (hx : d.get? i = some x) :
    arrGet d (encodeInt (i : Int)) o = .ok x := by
  have hi : i < d.length := by
    by_contra hc
    rw [List.get?_eq_none.mpr (by omega)] at hx
    exact Option.noConfusion hx
  simp only [arrGet, toIntKey_encodeNat i (by omega)]
  rw [if_neg (by omega : ¬((i : Int) < 0))]
  simp only
  rw [if_neg (by
    simp only [not_le]
    omega : ¬((i : Int) ≥ (d.length : Int)))]
  rw [(by simp : ((i : Int)).toNat = i), hx]

/-- Appending one key to a findObject walk: resolve the prefix, get the
key, and require the child to be a container. -/
theorem resolveParts_append_one (D : Val) (p : List RawKey) (k : RawKey)
    (o : Options) :
    resolveParts D (p ++ [k]) o =
      match resolveParts D p o with
      | .error e => .error e
      | .ok c =>
        match conGet c k o with
        | .error _ => .error .missing
        | .ok child => if child.isContainer then .ok child else .error .missing := by
  induction p generalizing D with
  | nil =>
    simp only [List.nil_append, resolveParts]
  | cons k2 rest ih =>
    simp only [List.cons_append, resolveParts]
    cases hg : conGet D k2 o with
    | error e => simp
    | ok child =>
      by_cases hc : child.isContainer = true
      · simp [hc, ih]
      · simp [hc]

/-- Node.GetChild on a path with final key k: resolve the prefix, then
container.get. -/
theorem getPath_snoc (D : Val) (p : List RawKey) (k : RawKey) (o : Options) :
    getPath D (p ++ [k]) o =
      match resolveParts D p o with
      | .error e => .error e
      | .ok c => conGet c k o := by
  simp only [getPath, List.getLast?_concat, List.dropLast_concat]

/-- Walking one step further to a map entry that is itself a container. -/
theorem resolveParts_child_map (D : Val) (p : List RawKey) (o : Options)
    (l : List (RawKey × Val)) (k : RawKey) (v : Val)
    (hres : resolveParts D p o = .ok (.map l))
    (hnd : (l.map Prod.fst).Nodup) (hm : (k, v) ∈ l)
    (hvc : v.isContainer = true) :
    resolveParts D (p ++ [k]) o = .ok v := by
  rw [resolveParts_append_one]
  simp only [hres]
  have hg : conGet (.map l) k o = .ok v := by
    simp only [conGet, mapGet, lookupKey_of_mem hnd hm]
  simp only [hg, hvc, if_true]

/-- Walking one step further to an array element that is itself a
container, via the canonical index key. -/
theorem resolveParts_child_arr (D : Val) (p : List RawKey) (o : Options)
    (xs : List Val) (i : Nat) (x : Val)
    (hres : resolveParts D p o = .ok (.arr xs))
    (hlen : xs.length < 2 ^ 63) (hx : xs.get? i = some x)
    (hvc : x.isContainer = true) :
    resolveParts D (p ++ [encodeInt (i : Int)]) o = .ok x := by
  rw [resolveParts_append_one]
  simp only [hres]
  have hg : conGet (.arr xs) (encodeInt (i : Int)) o = .ok x :=
    arrGet_encodeInt xs i x o hlen hx
  simp only [hg, hvc, if_true]

/-- Soundness of the findChildNodes traversal: every recorded pair either
is the root of the traversal (empty path, the document itself) or is
addressable by Node.GetChild at its recorded path, and each recorded node
passed the seeding assertObject test. -/
theorem findChildNodes_sound (D : Val) (o : Options) :
    ∀ node : Val, ∀ (value : Val) (p subpath : List RawKey),
      wf node = true → resolveParts D p o = .ok node →
      ∀ pv ∈ findChildNodes node value p subpath o,
        assertObject pv.value subpath value o = true ∧
        (pv.path = [] → pv.value = D) ∧
        (pv.path ≠ [] → getPath D pv.path o = .ok pv.value) := by
  intro node
  induction node using Val.inductionOn with
  | hother b =>
    intro value p subpath hwf hres pv hpv
    simp only [findChildNodes] at hpv
    exact absurd hpv (List.not_mem_nil pv)
  | hmap l ihm =>
    intro value p subpath hwf hres pv hpv
    simp only [findChildNodes] at hpv
    rcases List.mem_append.mp hpv with h1 | h2
    · by_cases ha : assertObject (.map l) subpath value o = true
      · rw [if_pos ha] at h1
        have hpveq : pv = ⟨p, .map l⟩ := List.mem_singleton.mp h1
        subst hpveq
        refine ⟨ha, ?_, ?_⟩
        · intro hp
          subst hp
          rw [resolveParts] at hres
          injection hres with hres
          exact hres.symm
        · intro hp
          rcases List.eq_nil_or_concat p with hnil | ⟨q, k, hqk⟩
          · exact absurd hnil hp
          · rw [List.concat_eq_append] at hqk
            subst hqk
            rw [getPath_snoc]
            rw [resolveParts_append_one] at hres
            cases hq : resolveParts D q o with
            | error e => simp only [hq] at hres; exact absurd hres (by simp)
            | ok c =>
              simp only [hq] at hres
              cases hg : conGet c k o with
              | error e => simp only [hg] at hres; exact absurd hres (by simp)
              | ok child =>
                simp only [hg] at hres
                by_cases hc : child.isContainer = true
                · rw [if_pos hc] at hres
                  injection hres with hres
                  subst hres
                  exact hg
                · rw [if_neg hc] at hres
                  exact absurd hres (by simp)
      · rw [if_neg ha] at h1
        exact absurd h1 (List.not_mem_nil pv)
    · rw [wf, Bool.and_eq_true] at hwf
      have hnd : (l.map Prod.fst).Nodup := by simpa using hwf.1
      have hwfE := hwf.2
      have inner : ∀ t : List (RawKey × Val), (∀ q ∈ t, q ∈ l) →
          ∀ pv ∈ findChildMap value p subpath o t,
            assertObject pv.value subpath value o = true ∧
            (pv.path = [] → pv.value = D) ∧
            (pv.path ≠ [] → getPath D pv.path o = .ok pv.value) := by
        intro t
        induction t with
        | nil =>
          intro _ pv hpv
          simp only [findChildMap] at hpv
          exact absurd hpv (List.not_mem_nil pv)
        | cons q t2 iht =>
          intro hsub pv hpv
          obtain ⟨k, v⟩ := q
          simp only [findChildMap] at hpv
          rcases List.mem_append.mp hpv with hm1 | hm2
          · have hmem : (k, v) ∈ l := hsub (k, v) (List.mem_cons_self _ _)
            by_cases hvc : v.isContainer = true
            · have hres2 : resolveParts D (p ++ [k]) o = .ok v :=
                resolveParts_child_map D p o l k v hres hnd hmem hvc
              have hwfv : wf v = true := wfEntries_mem hwfE hmem
              exact ihm (k, v) hmem value (p ++ [k]) subpath hwfv hres2 pv hm1
            · cases v with
              | other b =>
                simp only [findChildNodes] at hm1
                exact absurd hm1 (List.not_mem_nil pv)
              | map l2 => exact absurd rfl hvc
              | arr ys => exact absurd rfl hvc
          · exact iht (fun q2 hq2 => hsub q2 (List.mem_cons_of_mem _ hq2)) pv hm2
      exact inner l (fun q hq => hq) pv h2
  | harr xs ihm =>
    intro value p subpath hwf hres pv hpv
    simp only [findChildNodes] at hpv
    rcases List.mem_append.mp hpv with h1 | h2
    · by_cases ha : assertObject (.arr xs) subpath value o = true
      · rw [if_pos ha] at h1
        have hpveq : pv = ⟨p, .arr xs⟩ := List.mem_singleton.mp h1
        subst hpveq
        refine ⟨ha, ?_, ?_⟩
        · intro hp
          subst hp
          rw [resolveParts] at hres
          injection hres with hres
          exact hres.symm
        · intro hp
          rcases List.eq_nil_or_concat p with hnil | ⟨q, k, hqk⟩
          · exact absurd hnil hp
          · rw [List.concat_eq_append] at hqk
            subst hqk
            rw [getPath_snoc]
            rw [resolveParts_append_one] at hres
            cases hq : resolveParts D q o with
            | error e => simp only [hq] at hres; exact absurd hres (by simp)
            | ok c =>
              simp only [hq] at hres
              cases hg : conGet c k o with
              | error e => simp only [hg] at hres; exact absurd hres (by simp)
              | ok child =>
                simp only [hg] at hres
                by_cases hc : child.isContainer = true
                · rw [if_pos hc] at hres
                  injection hres with hres
                  subst hres
                  exact hg
                · rw [if_neg hc] at hres
                  exact absurd hres (by simp)
      · rw [if_neg ha] at h1
        exact absurd h1 (List.not_mem_nil pv)
    · rw [wf, Bool.and_eq_true] at hwf
      have hlen : xs.length < 2 ^ 63 := by simpa using hwf.1
      have hwfL := hwf.2
      have inner : ∀ (t : List Val) (i : Nat), (∀ j, t.get? j = xs.get? (i + j)) →
          ∀ pv ∈ findChildArr value p subpath o i t,
            assertObject pv.value subpath value o = true ∧
            (pv.path = [] → pv.value = D) ∧
            (pv.path ≠ [] → getPath D pv.path o = .ok pv.value) := by
        intro t
        induction t with
        | nil =>
          intro i _ pv hpv
          simp only [findChildArr] at hpv
          exact absurd hpv (List.not_mem_nil pv)
        | cons x t2 iht =>
          intro i hidx pv hpv
          simp only [findChildArr] at hpv
          rcases List.mem_append.mp hpv with hm1 | hm2
          · have hx : xs.get? i = some x := by
              have hz := hidx 0
              simpa using hz.symm
            have hxm : x ∈ xs := by
              have := List.get?_mem hx
              exact this
            by_cases hvc : x.isContainer = true
            · have hres2 : resolveParts D (p ++ [encodeInt (i : Int)]) o = .ok x :=
                resolveParts_child_arr D p o xs i x hres hlen hx hvc
              have hwfx : wf x = true := wfList_mem hwfL hxm
              exact ihm x hxm value (p ++ [encodeInt (i : Int)]) subpath hwfx hres2 pv hm1
            · cases x with
              | other b =>
                simp only [findChildNodes] at hm1
                exact absurd hm1 (List.not_mem_nil pv)
              | map l2 => exact absurd rfl hvc
              | arr ys => exact absurd rfl hvc
          · refine iht (i + 1) (fun j => ?_) pv hm2
            have hj := hidx (j + 1)
            rw [List.get?_cons_succ] at hj
            rw [hj]
            congr 1
            omega
      exact inner xs 0 (fun j => by simp) pv h2

/-- Membership in a fold of filters: the element was in the seed list and
passes every filter predicate. -/
theorem mem_foldl_filter {α β : Type} (pred : β → α → Bool) :
    ∀ (l : List β) (init : List α) (x : α),
      x ∈ l.foldl (fun res t => res.filter (pred t)) init →
      x ∈ init ∧ ∀ t ∈ l, pred t x = true := by
  intro l
  induction l with
  | nil =>
    intro init x hx
    exact ⟨hx, by simp⟩
  | cons t l2 ih =>
    intro init x hx
    rw [List.foldl_cons] at hx
    rcases ih _ x hx with ⟨hinit, hall⟩
    rcases List.mem_filter.mp hinit with ⟨hmem, hpred⟩
    refine ⟨hmem, fun s hs => ?_⟩
    rcases List.mem_cons.mp hs with hh | hh
    · subst hh
      exact hpred
    · exact hall s hh

/-! ## Claim C1 -/

/-- C1 (amended): after splitting a JSON Pointer on '/' and unescaping
each segment with ~1 then ~0, a segment matching -?[0-9]+ whose value
fits a signed 64-bit int is encoded as a CBOR integer key; every other
segment — including the bare "-" segment and out-of-range digit strings —
is encoded as a CBOR text-string key. -/
theorem c1_pathFromJSON_segment_encoding (s : Bytes) (h : s.head? = some 0x2f) :
    pathFromJSON s =
      some ((splitOnSlash s.tail).map (fun p =>
        match tokenIntValue? (rfc6901Unescape p) with
        | some v =>
          if -(2 ^ 63) ≤ v ∧ v < 2 ^ 63 then encodeInt v
          else encodeText (rfc6901Unescape p)
        | none => encodeText (rfc6901Unescape p))) := by
  cases s with
  | nil => simp at h
  | cons c rest =>
    have hc : c = 0x2f := by simpa using h
    subst hc
    show some ((splitOnSlash rest).map (fun p => encodeSegment (rfc6901Unescape p))) = _
    refine congrArg some (List.map_congr_left (fun p _ => ?_))
    exact encodeSegment_eq (rfc6901Unescape p)

/-- C1 witness: the pointer "/x/10" yields the text key for "x" and the
integer key 10. -/
theorem c1_pathFromJSON_segment_encoding_witness :
    ([0x2f, 0x78, 0x2f, 0x31, 0x30] : Bytes).head? = some 0x2f ∧
    pathFromJSON [0x2f, 0x78, 0x2f, 0x31, 0x30] =
      some (([[0x78], [0x31, 0x30]] : List Bytes).map (fun p =>
        match tokenIntValue? (rfc6901Unescape p) with
        | some v =>
          if -(2 ^ 63) ≤ v ∧ v < 2 ^ 63 then encodeInt v
          else encodeText (rfc6901Unescape p)
        | none => encodeText (rfc6901Unescape p))) :=
  ⟨rfl, c1_pathFromJSON_segment_encoding [0x2f, 0x78, 0x2f, 0x31, 0x30] rfl⟩

/-- C1 counterexample: the pointer consisting of a slash followed by a
minus sign produces the text-string key "-" (major type 0x60), not a
CBOR integer key, refuting the claim that the "-" segment is encoded as
a CBOR integer key. -/
theorem c1_minus_is_text_key :
    pathFromJSON [0x2f, 0x2d] = some [[0x61, 0x2d]] ∧
    readCBORType [0x61, 0x2d] = 0x60 ∧
    ∀ i : Int, ([0x61, 0x2d] : Bytes) ≠ encodeInt i := by
  refine ⟨by decide, by decide, fun i h => encodeInt_ne_minus i ?_⟩
  rw [minusKey]
  exact h.symm

/-! ## Claim C10 -/

/-- C10: PathFromJSON normalizes numeric segments: any two segments that
start with '-' or a digit and that strconv.Atoi parses to the same native
integer are encoded as the same canonical CBOR integer key, so the
original digit string is not preserved. -/
theorem c10_segment_normalization (t1 t2 : Bytes) (n : Int)
    (h1 : startsIndexLike t1 = true) (h2 : startsIndexLike t2 = true)
    (g1 : goAtoi t1 = some n) (g2 : goAtoi t2 = some n) :
    encodeSegment t1 = encodeInt n ∧ encodeSegment t2 = encodeInt n := by
  constructor
  · rw [encodeSegment, if_pos h1, g1]
  · rw [encodeSegment, if_pos h2, g2]

/-- C10 witness: the segments "007" and "7" produce the same integer key,
as do "-0" and "0". -/
theorem c10_segment_normalization_witness :
    (startsIndexLike [0x30, 0x30, 0x37] = true ∧ goAtoi [0x30, 0x30, 0x37] = some 7 ∧
      startsIndexLike [0x37] = true ∧ goAtoi [0x37] = some 7 ∧
      startsIndexLike [0x2d, 0x30] = true ∧ goAtoi [0x2d, 0x30] = some 0 ∧
      startsIndexLike [0x30] = true ∧ goAtoi [0x30] = some 0) ∧
    (encodeSegment [0x30, 0x30, 0x37] = encodeInt 7 ∧ encodeSegment [0x37] = encodeInt 7) ∧
    (encodeSegment [0x2d, 0x30] = encodeInt 0 ∧ encodeSegment [0x30] = encodeInt 0) :=
  ⟨by decide,
   c10_segment_normalization _ _ 7 (by decide) (by decide) (by decide) (by decide),
   c10_segment_normalization _ _ 0 (by decide) (by decide) (by decide) (by decide)⟩

/-! ## Claim C2 -/

/-- C2 counterexample: an Add operation with an absent value field passes
Operation.Valid, refuting the claim that validation fails with
InvalidOperation for every Add (or Replace) without a value. -/
theorem c2_add_without_value_passes :
    operationValid { op := .add, fromPath := none, path := some [[0x61, 0x61]], value := none }
      = true := rfl

/-- C2 (amended): per-operation validation for Add and Replace checks
only that the from field is absent; an absent value field is accepted
(and is treated as CBOR null during execution). -/
theorem c2_valid_add_replace (x : Operation) (h : x.op = Op.add ∨ x.op = Op.replace) :
    operationValid x = x.fromPath.isNone := by
  rcases h with h | h <;> simp [operationValid, h]

/-- C2 witness. -/
theorem c2_valid_add_replace_witness :
    ((Operation.mk .replace none (some [[0x61, 0x61]]) none).op = Op.add ∨
      (Operation.mk .replace none (some [[0x61, 0x61]]) none).op = Op.replace) ∧
    operationValid (Operation.mk .replace none (some [[0x61, 0x61]]) none) =
      (Operation.mk .replace none (some [[0x61, 0x61]]) none).fromPath.isNone :=
  ⟨Or.inr rfl, c2_valid_add_replace _ (Or.inr rfl)⟩

/-! ## Claim C8 -/

/-- A byte that makes maybeFloat report a possible float: '.', 'e', 'E'. -/
def isFloatChar (c : Nat) : Bool := c = 0x2e || c = 0x65 || c = 0x45

/-- A byte that makes maybeFloat stop with mbf set: 'e' or 'E'. -/
def isExpChar (c : Nat) : Bool := c = 0x65 || c = 0x45

theorem maybeFloatAux_fst (s : Bytes) (b : Bool) :
    (maybeFloatAux s b).1 = (b || s.any isFloatChar) := by
  induction s generalizing b with
  | nil => simp [maybeFloatAux]
  | cons c rest ih =>
    by_cases hc : c = 0x65 ∨ c = 0x45
    · have : isFloatChar c = true := by
        rcases hc with hc | hc <;> simp [isFloatChar, hc]
      simp [maybeFloatAux, hc, this]
    · have h1 : ¬(c = 0x65) := fun h => hc (Or.inl h)
      have h2 : ¬(c = 0x45) := fun h => hc (Or.inr h)
      have hf : isFloatChar c = decide (c = 0x2e) := by
        simp [isFloatChar, h1, h2]
      rw [maybeFloatAux, if_neg hc, ih]
      simp [hf, Bool.or_assoc]

theorem maybeFloatAux_snd (s : Bytes) (b : Bool) :
    (maybeFloatAux s b).2 = s.any isExpChar := by
  induction s generalizing b with
  | nil => simp [maybeFloatAux]
  | cons c rest ih =>
    by_cases hc : c = 0x65 ∨ c = 0x45
    · have : isExpChar c = true := by
        rcases hc with hc | hc <;> simp [isExpChar, hc]
      simp [maybeFloatAux, hc, this]
    · have hf : isExpChar c = false := by
        simp [isExpChar]
        omega
      rw [maybeFloatAux, if_neg hc, ih]
      simp [hf]

/-- A token matching -?[0-9]+ contains no '.', 'e' or 'E'. -/
theorem tokenInt_no_floatChar (s : Bytes) (v : Int) (h : tokenIntValue? s = some v) :
    s.any isFloatChar = false := by
  rw [tokenIntValue?] at h
  split at h
  · next hm =>
    cases s with
    | nil => simp at hm
    | cons c ds =>
      have hc : c = 0x2d := by simpa using hm
      subst hc
      simp only [List.tail_cons] at h
      rw [digitsToNat?] at h
      split at h
      · simp at h
      · split at h
        · next hall =>
          simp only [List.any_cons]
          have h1 : isFloatChar 0x2d = false := by decide
          rw [h1]
          simp only [Bool.false_or]
          rw [List.all_eq_true] at hall
          rw [List.any_eq_false]
          intro x hx
          have := hall x hx
          simp [isDigit] at this
          simp [isFloatChar]
          omega
        · simp at h
  · rw [digitsToNat?] at h
    split at h
    · simp at h
    · split at h
      · next hall =>
        rw [List.all_eq_true] at hall
        rw [List.any_eq_false]
        intro x hx
        have := hall x hx
        simp [isDigit] at this
        simp [isFloatChar]
        omega
      · simp at h

/-- Modelled from the spec: the CBOR images of the Go values produced by
convertNumber under the configured encoder — uint64 and non-negative
int64 become a CBOR positive int, negative int64 a CBOR negative int,
big.Int a CBOR big integer, float64 a CBOR float. -/
inductive CborNumClass
  | posInt (n : Nat)
  | negInt (i : Int)
  | bigInt (i : Int)
  | floatV
  | errorV
deriving DecidableEq

/-- Modelled from the spec: the bridge from the Go result values of
convertNumber to their CBOR classes. -/
def cborClassOf : JNum → CborNumClass
  | .juint n => .posInt n
  | .jint i => if 0 ≤ i then .posInt i.toNat else .negInt i
  | .jbig i => .bigInt i
  | .jfloat => .floatV
  | .jerror => .errorV

/-- The oracle instance used by the concrete counterexample: on "0.0" the
exponent branch is never consulted and strconv.ParseFloat succeeds. -/
def parseFloatOk : FloatOracle := ⟨fun _ => .parseFail, fun _ => true⟩

/-- C8 counterexample: the JSON number "0.0" (bytes 30 2e 30) has the
integer mathematical value 0, representable as unsigned 64-bit, so the
claim requires a CBOR positive int; convertNumber returns a float. -/
theorem c8_zero_point_zero_is_float :
    convertNumber parseFloatOk [0x30, 0x2e, 0x30] = .jfloat ∧
    cborClassOf .jfloat ≠ cborClassOf (.juint 0) := ⟨rfl, by decide⟩

/-- The integer path never yields a float. -/
theorem convertIntPath_ne_float (s : Bytes) : convertIntPath s ≠ .jfloat := by
  rw [convertIntPath]
  split
  · split
    · simp
    · split <;> simp
  · split <;> simp
  · simp

/-- C8 (amended): convertNumber produces a CBOR float only for inputs
containing a dot, an 'e' or an 'E'; on every input matching -?[0-9]+ (an
integer-valued JSON number without fraction or exponent) the result is a
CBOR positive int when the value is representable as unsigned 64-bit, a
CBOR negative int when representable down to -(2^63), and a CBOR big
integer beyond those ranges; an input containing a dot or an exponent is
never a CBOR big integer; and on an input with an exponent whose
big.Float parse yields the integer value i, the result is a CBOR positive
int when 0 <= i < 2^64, a CBOR negative int when -(2^63) <= i < 0, and
otherwise falls through to the float64 path (a float, or an error when
strconv.ParseFloat fails) - not to a big integer. -/
theorem c8_convertNumber_classification (o : FloatOracle) (s : Bytes) :
    (convertNumber o s = .jfloat → s.any isFloatChar = true) ∧
    (∀ v, tokenIntValue? s = some v →
      cborClassOf (convertNumber o s) =
        (if 0 ≤ v ∧ v < 2 ^ 64 then .posInt v.toNat
         else if -(2 ^ 63) ≤ v ∧ v < 0 then .negInt v
         else .bigInt v)) ∧
    (s.any isFloatChar = true → ∀ i, convertNumber o s ≠ .jbig i) ∧
    (s.any isExpChar = true → ∀ i, o.bigFloat s = .intVal i →
      (0 ≤ i ∧ i < 2 ^ 64 → convertNumber o s = .juint i.toNat) ∧
      (-(2 ^ 63) ≤ i ∧ i < 0 → convertNumber o s = .jint i) ∧
      (¬(0 ≤ i ∧ i < 2 ^ 64) → ¬(-(2 ^ 63) ≤ i ∧ i < 2 ^ 63) →
        convertNumber o s = (if o.floatParse s then JNum.jfloat else JNum.jerror))) := by
  refine ⟨?_, ?_, ?_, ?_⟩
  · intro hf
    have hiff : (maybeFloat s).1 = s.any isFloatChar := by
      rw [maybeFloat, maybeFloatAux_fst]
      simp
    by_cases hmf : (maybeFloat s).1 = true
    · rw [hiff] at hmf
      exact hmf
    · exfalso
      have hmf' : (maybeFloat s).1 = false := by
        cases e : (maybeFloat s).1
        · rfl
        · exact absurd e hmf
      rw [convertNumber] at hf
      simp only [hmf', Bool.false_eq_true, if_false] at hf
      split at hf
      · split at hf
        · split at hf
          · simp at hf
          · split at hf
            · simp at hf
            · exact convertIntPath_ne_float s hf
        · exact convertIntPath_ne_float s hf
      · exact convertIntPath_ne_float s hf
  · intro v hv
    have hfc := tokenInt_no_floatChar s v hv
    have hmf : (maybeFloat s).1 = false := by
      rw [maybeFloat, maybeFloatAux_fst, hfc]
      rfl
    have hmbf : (maybeFloat s).2 = false := by
      rw [maybeFloat, maybeFloatAux_snd]
      rw [List.any_eq_false] at hfc ⊢
      intro x hx
      have := hfc x hx
      simp [isFloatChar] at this
      simp [isExpChar]
      omega
    rw [convertNumber]
    simp only [hmbf, hmf, Bool.false_eq_true, if_false]
    rw [convertIntPath]
    rw [tokenIntValue?] at hv
    split at hv
    · next hm =>
      have hneg : (s.head? = some 0x2d) := hm
      cases hd : digitsToNat? s.tail with
      | none => rw [hd] at hv; simp at hv
      | some n =>
        rw [hd] at hv
        simp at hv
        have hvn : v = -(n : Int) := by omega
        have hp : goParseUint64 (List.tail s) =
            (if n < 2 ^ 64 then .ok n else .rangeErr n) := by
          rw [goParseUint64, hd]
        rw [if_pos hneg, hp]
        by_cases h64 : n < 2 ^ 64
        · rw [if_pos h64]
          simp only [hneg, cborClassOf]
          rw [if_neg (by simp [hneg])]
          by_cases h63 : n ≤ 2 ^ 63
          · rw [if_pos h63]
            simp only [cborClassOf]
            by_cases h0 : n = 0
            · subst h0
              rw [if_pos (by omega), if_pos (by constructor <;> omega)]
              simp [hvn]
            · rw [if_neg (by omega), if_neg (by omega)]
              rw [if_pos (by constructor <;> omega), hvn]
          · rw [if_neg h63]
            simp only [cborClassOf]
            rw [if_neg (by omega), if_neg (by omega), hvn]
        · rw [if_neg h64]
          simp only [cborClassOf]
          rw [if_pos hneg]
          rw [if_neg (by omega), if_neg (by omega), hvn]
    · next hm =>
      cases hd : digitsToNat? s with
      | none => rw [hd] at hv; simp at hv
      | some n =>
        rw [hd] at hv
        simp at hv
        have hvn : v = (n : Int) := by omega
        have hs1 : (if s.head? = some 0x2d then s.tail else s) = s := if_neg hm
        have hp : goParseUint64 s = (if n < 2 ^ 64 then .ok n else .rangeErr n) := by
          rw [goParseUint64, hd]
        rw [hs1, hp]
        by_cases h64 : n < 2 ^ 64
        · rw [if_pos h64]
          simp only [cborClassOf]
          rw [if_pos (by simpa using hm)]
          simp only [cborClassOf]
          rw [if_pos (by constructor <;> omega), hvn]
          simp
        · rw [if_neg h64]
          simp only [cborClassOf]
          rw [if_neg hm]
          simp only [cborClassOf]
          rw [if_neg (by omega), if_neg (by omega), hvn]
  · intro hfc i
    have hmf : (maybeFloat s).1 = true := by
      rw [maybeFloat, maybeFloatAux_fst]
      simp [hfc]
    rw [convertNumber]
    simp only [hmf, if_true]
    repeat' split
    all_goals simp
  · intro hexp i hbf
    have hmbf : (maybeFloat s).2 = true := by
      rw [maybeFloat, maybeFloatAux_snd]
      exact hexp
    have hfc : s.any isFloatChar = true := by
      rw [List.any_eq_true] at hexp ⊢
      rcases hexp with ⟨c, hc, hcc⟩
      refine ⟨c, hc, ?_⟩
      simp [isExpChar] at hcc
      simp [isFloatChar]
      omega
    have hmf : (maybeFloat s).1 = true := by
      rw [maybeFloat, maybeFloatAux_fst]
      simp [hfc]
    rw [convertNumber]
    simp only [hmf, hmbf, hbf, if_true]
    refine ⟨?_, ?_, ?_⟩
    · intro hr
      rw [if_pos hr]
    · intro hr
      rw [if_neg (by omega), if_pos (by omega)]
    · intro hr1 hr2
      rw [if_neg hr1, if_neg hr2]

/-- The oracle instance for the exponent-overflow witness: big.Float
parses "2e19" to the integer 20000000000000000000, which overflows both
uint64 and int64, and strconv.ParseFloat succeeds. -/
def overflowOracle : FloatOracle :=
  ⟨fun _ => .intVal 20000000000000000000, fun _ => true⟩

/-- C8 witness: the in-range digit string "18446744073709551615"
(2^64 - 1) maps to a CBOR positive int, and the exponent-bearing
integer-valued "2e19" (bytes 32 65 31 39), overflowing uint64 and int64,
falls through to the float path rather than to a big integer, both
applied through the classification theorem. -/
theorem c8_convertNumber_classification_witness :
    (tokenIntValue? [0x31, 0x38, 0x34, 0x34, 0x36, 0x37, 0x34, 0x34, 0x30, 0x37, 0x33,
        0x37, 0x30, 0x39, 0x35, 0x35, 0x31, 0x36, 0x31, 0x35] = some 18446744073709551615 ∧
     cborClassOf (convertNumber parseFloatOk [0x31, 0x38, 0x34, 0x34, 0x36, 0x37, 0x34,
        0x34, 0x30, 0x37, 0x33, 0x37, 0x30, 0x39, 0x35, 0x35, 0x31, 0x36, 0x31, 0x35]) =
      (if (0 : Int) ≤ 18446744073709551615 ∧ (18446744073709551615 : Int) < 2 ^ 64 then
        .posInt (18446744073709551615 : Int).toNat
       else if -(2 ^ 63) ≤ (18446744073709551615 : Int) ∧ (18446744073709551615 : Int) < 0
         then .negInt 18446744073709551615
       else .bigInt 18446744073709551615)) ∧
    (([0x32, 0x65, 0x31, 0x39] : Bytes).any isExpChar = true ∧
     overflowOracle.bigFloat [0x32, 0x65, 0x31, 0x39] = .intVal 20000000000000000000 ∧
     convertNumber overflowOracle [0x32, 0x65, 0x31, 0x39] =
       (if overflowOracle.floatParse [0x32, 0x65, 0x31, 0x39] then JNum.jfloat
        else JNum.jerror)) :=
  ⟨⟨by decide,
    (c8_convertNumber_classification parseFloatOk _).2.1 18446744073709551615 (by decide)⟩,
   ⟨by decide, rfl,
    ((c8_convertNumber_classification overflowOracle _).2.2.2 (by decide)
        20000000000000000000 rfl).2.2 (by decide) (by decide)⟩⟩

/-! ## Claim C6 -/

/-- C6: within one patch application, a Copy whose source and destination
resolve adds the serialized byte length of the deep-copied source to the
running total; if AccumulatedCopySizeLimit is positive and the new total
exceeds it, the operation fails with the accumulated-copy-size error and
the copy is not added (no document is produced); otherwise the copy is
added and the running total carries the increment. -/
theorem c6_copy_size_limit (root : Val) (fromP path : List RawKey) (acc : Int)
    (o : Options) (v : Val) (key : RawKey) (con : Val)
    (hsrc : getPath root fromP o = .ok v)
    (hkey : path.getLast? = some key)
    (hcon : resolveParts root path.dropLast o = .ok con) :
    (0 < o.accumulatedCopySizeLimit →
      o.accumulatedCopySizeLimit < acc + ((marshalVal v).length : Int) →
      opCopy root fromP path acc o =
        .error (.copySizeExceeded o.accumulatedCopySizeLimit
          (acc + ((marshalVal v).length : Int)))) ∧
    (∀ root', ¬(0 < o.accumulatedCopySizeLimit ∧
        o.accumulatedCopySizeLimit < acc + ((marshalVal v).length : Int)) →
      resolveMut root path.dropLast o (fun c => conAdd c key v o) = .ok root' →
      opCopy root fromP path acc o =
        .ok (root', acc + ((marshalVal v).length : Int))) := by
  constructor
  · intro hpos hex
    rw [opCopy, hsrc]
    simp only [hkey, hcon]
    rw [if_pos ⟨hpos, hex⟩]
  · intro root' hnot hmut
    rw [opCopy, hsrc]
    simp only [hkey, hcon]
    rw [if_neg hnot, hmut]
    rfl

/-- C6 witness: copying a two-byte element into an array under a limit of
1 byte fails with the accumulated-copy-size error carrying total 2. -/
theorem c6_copy_size_limit_witness :
    (getPath (.map [([0x63, 0x66, 0x6f, 0x6f], .arr [.other [0x61, 0x61]])])
        [[0x63, 0x66, 0x6f, 0x6f], [0x00]] ⟨true, 1, false, false⟩ =
      .ok (.other [0x61, 0x61]) ∧
     ([[0x63, 0x66, 0x6f, 0x6f], minusKey] : List RawKey).getLast? = some minusKey ∧
     resolveParts (.map [([0x63, 0x66, 0x6f, 0x6f], .arr [.other [0x61, 0x61]])])
        ([[0x63, 0x66, 0x6f, 0x6f], minusKey] : List RawKey).dropLast
        ⟨true, 1, false, false⟩ =
      .ok (.arr [.other [0x61, 0x61]])) ∧
    opCopy (.map [([0x63, 0x66, 0x6f, 0x6f], .arr [.other [0x61, 0x61]])])
        [[0x63, 0x66, 0x6f, 0x6f], [0x00]] [[0x63, 0x66, 0x6f, 0x6f], minusKey] 0
        ⟨true, 1, false, false⟩ =
      .error (.copySizeExceeded 1 (0 + ((marshalVal (.other [0x61, 0x61])).length : Int))) :=
  ⟨⟨rfl, rfl, rfl⟩,
   (c6_copy_size_limit (.map [([0x63, 0x66, 0x6f, 0x6f], .arr [.other [0x61, 0x61]])])
      [[0x63, 0x66, 0x6f, 0x6f], [0x00]] [[0x63, 0x66, 0x6f, 0x6f], minusKey] 0
      ⟨true, 1, false, false⟩ (.other [0x61, 0x61]) minusKey
      (.arr [.other [0x61, 0x61]]) rfl rfl rfl).1 (by norm_num)
      (by
        have hm : marshalVal (Val.other [0x61, 0x61]) = [0x61, 0x61] := by
          rw [marshalVal]
        rw [hm]
        norm_num)⟩

/-! ## Claim C9 -/

/-- C9: a document whose top-level value is neither a map nor an array (a
scalar, tag or primitive) makes Node.Patch fail before executing any
operation — for every patch, including the empty one — and
ApplyWithOptions on it returns no output document. -/
theorem c9_noncontainer_root (b : Bytes) (ops : List Operation) (o : Options) :
    nodePatch (.other b) ops o = .error .unexpectedNode ∧
    applyWithOptions (.other b) ops o = .error .unexpectedNode := by
  constructor <;> simp [nodePatch, applyWithOptions, Val.isContainer, Except.map]

/-! ## Claim C3 -/

/-- C3: partialArray.add appends on the "-" sentinel; a non-negative
index i succeeds exactly for 0 <= i <= length, inserting at position i
and shifting later elements right; a negative index succeeds exactly when
SupportNegativeIndices is set and |i| <= length+1, resolving to position
length+1-|i|; any other integer index fails with InvalidIndex. -/
theorem c3_partialArray_add (d : List Val) (v : Val) (o : Options) (k : RawKey) (i : Int)
    (hk : toIntKey k = some i) (hkm : k ≠ minusKey) :
    (arrAdd d minusKey v o = .ok (d ++ [v])) ∧
    (0 ≤ i → i ≤ (d.length : Int) → arrAdd d k v o = .ok (insertAt d i.toNat v)) ∧
    (0 ≤ i → (d.length : Int) < i → arrAdd d k v o = .error .invalidIndex) ∧
    (i < 0 → o.supportNegativeIndices = true → i.natAbs ≤ d.length + 1 →
      arrAdd d k v o = .ok (insertAt d (d.length + 1 - i.natAbs) v)) ∧
    (i < 0 → (o.supportNegativeIndices = false ∨ d.length + 1 < i.natAbs) →
      arrAdd d k v o = .error .invalidIndex) := by
  refine ⟨by simp [arrAdd], ?_, ?_, ?_, ?_⟩
  · intro h0 hle
    rw [arrAdd, if_neg hkm, hk]
    simp only
    rw [if_neg (by omega), if_neg (by omega)]
  · intro h0 hgt
    rw [arrAdd, if_neg hkm, hk]
    simp only
    rw [if_pos (by omega)]
  · intro hneg hsni habs
    rw [arrAdd, if_neg hkm, hk]
    simp only
    rw [if_neg (by omega), if_pos (by omega)]
    rw [if_neg (by rw [hsni]; simp; omega)]
    have : (i + ((d.length : Int) + 1)).toNat = d.length + 1 - i.natAbs := by omega
    rw [this]
  · intro hneg hbad
    rw [arrAdd, if_neg hkm, hk]
    simp only
    by_cases hge : i ≥ (d.length : Int) + 1
    · rw [if_pos (by omega)]
    · rw [if_neg (by omega), if_pos (by omega)]
      rw [if_pos ?side]
      case side =>
        rcases hbad with hb | hb
        · rw [hb]
          simp
        · right
          omega

/-- C3 witness. -/
theorem c3_partialArray_add_witness :
    (toIntKey [0x20] = some (-1) ∧ ([0x20] : RawKey) ≠ minusKey) ∧
    arrAdd [nullVal] [0x20] nullVal newOptions =
      .ok (insertAt [nullVal] (1 + 1 - (-1 : Int).natAbs) nullVal) :=
  ⟨⟨by decide, by decide⟩,
   (c3_partialArray_add [nullVal] nullVal newOptions [0x20] (-1) (by decide)
      (by decide)).2.2.2.1 (by decide) rfl (by decide)⟩

/-! ## Claim C4 -/

/-- C4: for a well-formed document D (without EnsurePathExistsOnAdd), a path
whose non-final segments resolve to a map in which the final key k is absent,
and any value v, Add at that path succeeds, Remove at the same path then
succeeds, and the result is structurally equal (Node.Equal) to D. -/
theorem c4_add_remove_cancel (D : Val) (m : List (RawKey × Val))
    (parts : List RawKey) (k : RawKey) (v : Val) (o : Options)
    (hwf : wf D = true)
    (hens : o.ensurePathExistsOnAdd = false)
    (hres : resolveParts D parts o = .ok (.map m))
    (hmiss : lookupKey m k = none) :
    ∃ D1 D2, opAdd D (parts ++ [k]) v o = .ok D1 ∧
      opRemove D1 (parts ++ [k]) o = .ok D2 ∧ valEqual D2 D = true := by
  have hf : conAdd (.map m) k v o = .ok (.map (mapSet m k v)) := rfl
  rcases resolveMut_roundtrip parts D (.map m) (.map (mapSet m k v)) o
      (fun con => conAdd con k v o) hres hf rfl with
    ⟨D1, hmut, _, hres2, hinv⟩
  refine ⟨D1, D, ?_, ?_, valEqual_refl D hwf⟩
  · rw [opAdd, hens]
    simp only [Bool.false_eq_true, if_false, List.getLast?_concat,
      List.dropLast_concat]
    exact hmut
  · rw [opRemove]
    simp only [List.getLast?_concat, List.dropLast_concat, hres2]
    have hrem : conRemove (.map (mapSet m k v)) k o = .ok (.map m) := by
      rw [conRemove, mapRemove, lookupKey_mapSet_self, mapDel_mapSet m k v hmiss]
      rfl
    rw [hrem]
    exact hinv (fun _ => .ok (.map m)) rfl

/-- C4 witness: D = {"a": {}}, path /a/b, v = null. -/
theorem c4_add_remove_cancel_witness :
    (wf (Val.map [(encodeText [0x61], Val.map [])]) = true ∧
     newOptions.ensurePathExistsOnAdd = false ∧
     resolveParts (Val.map [(encodeText [0x61], Val.map [])])
       [encodeText [0x61]] newOptions = .ok (.map []) ∧
     lookupKey [] (encodeText [0x62]) = none) ∧
    ∃ D1 D2,
      opAdd (Val.map [(encodeText [0x61], Val.map [])])
        ([encodeText [0x61]] ++ [encodeText [0x62]]) nullVal newOptions = .ok D1 ∧
      opRemove D1 ([encodeText [0x61]] ++ [encodeText [0x62]]) newOptions = .ok D2 ∧
      valEqual D2 (Val.map [(encodeText [0x61], Val.map [])]) = true := by
  refine ⟨⟨?_, rfl, rfl, rfl⟩,
    c4_add_remove_cancel (Val.map [(encodeText [0x61], Val.map [])]) []
      [encodeText [0x61]] (encodeText [0x62]) nullVal newOptions ?_ rfl rfl rfl⟩
  · rw [wf]
    simp only [List.map_cons, List.map_nil]
    rw [wfEntries, wf, wfEntries]
    simp
  · rw [wf]
    simp only [List.map_cons, List.map_nil]
    rw [wfEntries, wf, wfEntries]
    simp


/-! ## Claim C7 -/

/-- C7 (corrected): for a well-formed document, every pair (p, v) returned
by FindChildren satisfies the assertion rule at v for every predicate in
the list; if p is nonempty then GetChild(D, p) resolves to v itself, but
the pair recorded for the traversal root has the empty path, whose value
is the document itself while GetChild errors on the empty path. -/
theorem c7_findChildren_sound (D : Val) (tests : List TestPV) (o : Options)
    (hwf : wf D = true) :
    ∀ pv ∈ findChildren D tests o,
      (∀ t ∈ tests, assertObject pv.value t.path (valOfOpt t.value) o = true) ∧
      (pv.path = [] → pv.value = D) ∧
      (pv.path ≠ [] → nodeGetChild D pv.path o = .ok pv.value) := by
  intro pv hpv
  cases tests with
  | nil =>
    simp only [findChildren] at hpv
    exact absurd hpv (List.not_mem_nil pv)
  | cons t0 trest =>
    simp only [findChildren] at hpv
    rcases mem_foldl_filter
        (fun t r => assertObject r.value t.path (valOfOpt t.value) o) trest _ pv hpv with
      ⟨hseed, hall⟩
    have hroot : resolveParts D [] o = .ok D := by rw [resolveParts]
    rcases findChildNodes_sound D o D (valOfOpt t0.value) [] t0.path hwf hroot pv hseed with
      ⟨ha0, hempty, hne⟩
    have hDc : D.isContainer = true := by
      cases D with
      | other b =>
        simp only [findChildNodes] at hseed
        exact absurd hseed (List.not_mem_nil pv)
      | map l => rfl
      | arr ys => rfl
    refine ⟨?_, hempty, ?_⟩
    · intro t ht
      rcases List.mem_cons.mp ht with hh | hh
      · subst hh
        exact ha0
      · exact hall t hh
    · intro hp
      rw [nodeGetChild, if_pos hDc]
      exact hne hp

/-- C7 counterexample to the unrestricted claim: on the document
\x7b"b": "q"\x7d with the single predicate (path /b, value "q"), the root
itself is returned with the empty path, but GetChild at the empty path is
ErrMissing rather than the returned value. -/
theorem c7_root_pair_not_addressable :
    (⟨[], Val.map [([0x61, 0x62], Val.other [0x61, 0x71])]⟩ : PV) ∈
      findChildren (Val.map [([0x61, 0x62], Val.other [0x61, 0x71])]) [(⟨[[0x61, 0x62]], some (Val.other [0x61, 0x71])⟩ : TestPV)] newOptions ∧
    nodeGetChild (Val.map [([0x61, 0x62], Val.other [0x61, 0x71])]) [] newOptions = .error .missing := by
  constructor
  · have he : findChildren (Val.map [([0x61, 0x62], Val.other [0x61, 0x71])]) [(⟨[[0x61, 0x62]], some (Val.other [0x61, 0x71])⟩ : TestPV)] newOptions =
        [⟨[], Val.map [([0x61, 0x62], Val.other [0x61, 0x71])]⟩] := by
      simp [findChildren, findChildNodes, findChildMap, assertObject, assertWalk,
        conGet, mapGet, lookupKey, valEqual, Val.isNull, Val.isContainer, valOfOpt,
        nullVal]
    rw [he]
    exact List.mem_singleton.mpr rfl
  · rfl

/-- C7 witness. -/
theorem c7_findChildren_sound_witness :
    (wf (Val.map [([0x61, 0x62], Val.other [0x61, 0x71])]) = true ∧
     (⟨[], Val.map [([0x61, 0x62], Val.other [0x61, 0x71])]⟩ : PV) ∈
       findChildren (Val.map [([0x61, 0x62], Val.other [0x61, 0x71])]) [(⟨[[0x61, 0x62]], some (Val.other [0x61, 0x71])⟩ : TestPV)] newOptions) ∧
    ((∀ t ∈ [(⟨[[0x61, 0x62]], some (Val.other [0x61, 0x71])⟩ : TestPV)],
        assertObject (PV.mk [] (Val.map [([0x61, 0x62], Val.other [0x61, 0x71])])).value t.path (valOfOpt t.value) newOptions = true) ∧
     ((PV.mk [] (Val.map [([0x61, 0x62], Val.other [0x61, 0x71])])).path = [] → (PV.mk [] (Val.map [([0x61, 0x62], Val.other [0x61, 0x71])])).value = Val.map [([0x61, 0x62], Val.other [0x61, 0x71])]) ∧
     ((PV.mk [] (Val.map [([0x61, 0x62], Val.other [0x61, 0x71])])).path ≠ [] →
       nodeGetChild (Val.map [([0x61, 0x62], Val.other [0x61, 0x71])]) (PV.mk [] (Val.map [([0x61, 0x62], Val.other [0x61, 0x71])])).path newOptions =
         .ok (PV.mk [] (Val.map [([0x61, 0x62], Val.other [0x61, 0x71])])).value)) := by
  have hwf : wf (Val.map [([0x61, 0x62], Val.other [0x61, 0x71])]) = true := by
    rw [wf]
    simp only [List.map_cons, List.map_nil]
    rw [wfEntries, wf, wfEntries]
    simp
  have hmem : (⟨[], Val.map [([0x61, 0x62], Val.other [0x61, 0x71])]⟩ : PV) ∈
      findChildren (Val.map [([0x61, 0x62], Val.other [0x61, 0x71])]) [(⟨[[0x61, 0x62]], some (Val.other [0x61, 0x71])⟩ : TestPV)] newOptions := by
    have he : findChildren (Val.map [([0x61, 0x62], Val.other [0x61, 0x71])]) [(⟨[[0x61, 0x62]], some (Val.other [0x61, 0x71])⟩ : TestPV)] newOptions =
        [⟨[], Val.map [([0x61, 0x62], Val.other [0x61, 0x71])]⟩] := by
      simp [findChildren, findChildNodes, findChildMap, assertObject, assertWalk,
        conGet, mapGet, lookupKey, valEqual, Val.isNull, Val.isContainer, valOfOpt,
        nullVal]
    rw [he]
    exact List.mem_singleton.mpr rfl
  exact ⟨⟨hwf, hmem⟩,
    c7_findChildren_sound (Val.map [([0x61, 0x62], Val.other [0x61, 0x71])]) [(⟨[[0x61, 0x62]], some (Val.other [0x61, 0x71])⟩ : TestPV)] newOptions hwf (PV.mk [] (Val.map [([0x61, 0x62], Val.other [0x61, 0x71])])) hmem⟩

/-! ## Representation-order independence (determinism of apply)

A Go `map[RawKey]*Node` has no observable entry order; the association
lists of `Val.map` fix one such order per run.  `ValPerm` relates two
in-memory representations of the same document: equal scalars, pointwise
related arrays, and maps whose entry lists are permutations with equal
keys and related values.  `wfKeys` is the invariant guaranteed by the
configured decoder (DupMapKeyEnforcedAPF): every map in the tree has
pairwise distinct raw keys. -/

mutual

def wfKeys : Val → Bool
  | .other _ => true
  | .arr xs => wfKeysList xs
  | .map l => decide (l.map Prod.fst).Nodup && wfKeysEntries l
termination_by v => sizeOf v

def wfKeysList : List Val → Bool
  | [] => true
  | x :: t => wfKeys x && wfKeysList t
termination_by xs => sizeOf xs

def wfKeysEntries : List (RawKey × Val) → Bool
  | [] => true
  | (_, v) :: t => wfKeys v && wfKeysEntries t
termination_by l => sizeOf l

end

mutual

inductive ValPerm : Val → Val → Prop
  | other (b : Bytes) : ValPerm (.other b) (.other b)
  | arr {xs ys : List Val} : ValPermList xs ys → ValPerm (.arr xs) (.arr ys)
  | map {l1 mid l2 : List (RawKey × Val)} :
      l1.Perm mid → ValPermEntries mid l2 → ValPerm (.map l1) (.map l2)

inductive ValPermList : List Val → List Val → Prop
  | nil : ValPermList [] []
  | cons {x y : Val} {xs ys : List Val} :
      ValPerm x y → ValPermList xs ys → ValPermList (x :: xs) (y :: ys)

inductive ValPermEntries : List (RawKey × Val) → List (RawKey × Val) → Prop
  | nil : ValPermEntries [] []
  | cons {k : RawKey} {v w : Val} {t1 t2 : List (RawKey × Val)} :
      ValPerm v w → ValPermEntries t1 t2 →
      ValPermEntries ((k, v) :: t1) ((k, w) :: t2)

end

/-- Lift a value relation to optional values. -/
def orel (R : Val → Val → Prop) : Option Val → Option Val → Prop
  | none, none => True
  | some a, some b => R a b
  | _, _ => False

/-- Lift a result relation to fallible results: equal errors or related
successes. -/
def erel {α β : Type} (R : α → β → Prop) : Except PErr α → Except PErr β → Prop
  | .error e, .error e2 => e = e2
  | .ok a, .ok b => R a b
  | _, _ => False

/-- Two parses of the same patch operation: identical op code and paths,
related values. -/
def opRel (x y : Operation) : Prop :=
  x.op = y.op ∧ x.fromPath = y.fromPath ∧ x.path = y.path ∧ orel ValPerm x.value y.value

theorem valPermList_refl_of (xs : List Val) (h : ∀ x ∈ xs, ValPerm x x) :
    ValPermList xs xs := by
  induction xs with
  | nil => exact .nil
  | cons x t ih =>
    exact .cons (h x (List.mem_cons_self x t))
      (ih (fun y hy => h y (List.mem_cons_of_mem x hy)))

theorem valPermEntries_refl_of (l : List (RawKey × Val))
    (h : ∀ p ∈ l, ValPerm p.2 p.2) : ValPermEntries l l := by
  induction l with
  | nil => exact .nil
  | cons p t ih =>
    obtain ⟨k, v⟩ := p
    exact .cons (h (k, v) (List.mem_cons_self _ _))
      (ih (fun q hq => h q (List.mem_cons_of_mem _ hq)))

/-- ValPerm is reflexive: a representation is related to itself. -/
theorem valPerm_refl (v : Val) : ValPerm v v := by
  induction v using Val.inductionOn with
  | hother b => exact .other b
  | harr xs ih => exact .arr (valPermList_refl_of xs ih)
  | hmap l ih => exact .map (List.Perm.refl l) (valPermEntries_refl_of l ih)

theorem valPermEntries_keys {m l2 : List (RawKey × Val)} (h : ValPermEntries m l2) :
    m.map Prod.fst = l2.map Prod.fst := by
  induction m generalizing l2 with
  | nil => cases h; rfl
  | cons p t ih =>
    obtain ⟨k, v⟩ := p
    cases h with
    | cons hv ht => simp [ih ht]

theorem valPermEntries_length {m l2 : List (RawKey × Val)}
    (h : ValPermEntries m l2) : m.length = l2.length := by
  have := valPermEntries_keys h
  have h1 : (m.map Prod.fst).length = (l2.map Prod.fst).length := by rw [this]
  simpa using h1

theorem valPermList_length {xs ys : List Val} (h : ValPermList xs ys) :
    xs.length = ys.length := by
  induction xs generalizing ys with
  | nil => cases h; rfl
  | cons x t ih =>
    cases h with
    | cons hv ht => simpa using ih ht

/-- The key multisets of ValPerm-related maps agree. -/
theorem valPerm_map_keys {l1 l2 : List (RawKey × Val)} {mid : List (RawKey × Val)}
    (hp : l1.Perm mid) (he : ValPermEntries mid l2) :
    (l1.map Prod.fst).Perm (l2.map Prod.fst) := by
  have h1 : (l1.map Prod.fst).Perm (mid.map Prod.fst) := hp.map Prod.fst
  rw [valPermEntries_keys he] at h1
  exact h1

theorem wfKeysList_iff (xs : List Val) :
    wfKeysList xs = true ↔ ∀ x ∈ xs, wfKeys x = true := by
  induction xs with
  | nil => simp [wfKeysList]
  | cons x t ih =>
    rw [wfKeysList, Bool.and_eq_true, ih]
    constructor
    · rintro ⟨h1, h2⟩ y hy
      rcases List.mem_cons.mp hy with hh | hh
      · rw [hh]; exact h1
      · exact h2 y hh
    · intro h
      exact ⟨h x (List.mem_cons_self _ _), fun y hy => h y (List.mem_cons_of_mem _ hy)⟩

theorem wfKeysEntries_iff (l : List (RawKey × Val)) :
    wfKeysEntries l = true ↔ ∀ p ∈ l, wfKeys p.2 = true := by
  induction l with
  | nil => simp [wfKeysEntries]
  | cons p t ih =>
    obtain ⟨k, v⟩ := p
    rw [wfKeysEntries, Bool.and_eq_true, ih]
    constructor
    · rintro ⟨h1, h2⟩ q hq
      rcases List.mem_cons.mp hq with hh | hh
      · rw [hh]; exact h1
      · exact h2 q hh
    · intro h
      exact ⟨h (k, v) (List.mem_cons_self _ _), fun q hq => h q (List.mem_cons_of_mem _ hq)⟩

theorem wfKeysList_of_valPermList : ∀ (xs ys : List Val),
    ValPermList xs ys →
    (∀ x ∈ xs, ∀ y, ValPerm x y → wfKeys x = true → wfKeys y = true) →
    (∀ x ∈ xs, wfKeys x = true) →
    ∀ y ∈ ys, wfKeys y = true := by
  intro xs
  induction xs with
  | nil =>
    intro ys h _ _
    cases h
    simp
  | cons x t ih =>
    intro ys h htrans hk
    cases h with
    | cons hv ht =>
      rename_i y ys2
      intro z hz
      rcases List.mem_cons.mp hz with hh | hh
      · rw [hh]
        exact htrans x (List.mem_cons_self _ _) y hv (hk x (List.mem_cons_self _ _))
      · exact ih ys2 ht (fun w hw => htrans w (List.mem_cons_of_mem _ hw))
          (fun w hw => hk w (List.mem_cons_of_mem _ hw)) z hh

theorem wfKeysEntries_of_valPermEntries : ∀ (m l2 : List (RawKey × Val)),
    ValPermEntries m l2 →
    (∀ p ∈ m, ∀ w, ValPerm p.2 w → wfKeys p.2 = true → wfKeys w = true) →
    (∀ p ∈ m, wfKeys p.2 = true) →
    ∀ q ∈ l2, wfKeys q.2 = true := by
  intro m
  induction m with
  | nil =>
    intro l2 h _ _
    cases h
    simp
  | cons p t ih =>
    intro l2 h htrans hk
    obtain ⟨k, v⟩ := p
    cases h with
    | cons hv ht =>
      rename_i w t2
      intro q hq
      rcases List.mem_cons.mp hq with hh | hh
      · rw [hh]
        exact htrans (k, v) (List.mem_cons_self _ _) w hv
          (hk (k, v) (List.mem_cons_self _ _))
      · exact ih t2 ht (fun r hr => htrans r (List.mem_cons_of_mem _ hr))
          (fun r hr => hk r (List.mem_cons_of_mem _ hr)) q hh

/-- wfKeys transports along ValPerm. -/
theorem wfKeys_of_valPerm : ∀ v1 v2 : Val, ValPerm v1 v2 →
    wfKeys v1 = true → wfKeys v2 = true := by
  intro v1
  induction v1 using Val.inductionOn with
  | hother b =>
    intro v2 hp hk
    cases hp
    exact hk
  | harr xs ih =>
    intro v2 hp hk
    cases hp with
    | arr hl =>
      rename_i ys
      rw [wfKeys] at hk ⊢
      rw [wfKeysList_iff] at hk ⊢
      exact wfKeysList_of_valPermList xs ys hl ih hk
  | hmap l ih =>
    intro v2 hp hk
    cases hp with
    | map hperm hent =>
      rename_i mid l2
      rw [wfKeys, Bool.and_eq_true] at hk ⊢
      refine ⟨?_, ?_⟩
      · have hkp := valPerm_map_keys hperm hent
        have h1 : (l.map Prod.fst).Nodup := by simpa using hk.1
        simpa using hkp.nodup h1
      · rw [wfKeysEntries_iff]
        exact wfKeysEntries_of_valPermEntries mid l2 hent
          (fun p hpmem => ih p (hperm.symm.subset hpmem))
          (fun p hpmem => (wfKeysEntries_iff l).mp hk.2 p (hperm.symm.subset hpmem))

/-- Go map lookup is order-independent on duplicate-free maps. -/
theorem lookupKey_perm {l1 l2 : List (RawKey × Val)} (h : l1.Perm l2) (k : RawKey) :
    (l1.map Prod.fst).Nodup → lookupKey l1 k = lookupKey l2 k := by
  induction h with
  | nil => intro _; rfl
  | cons x h ih =>
    intro hnd
    obtain ⟨k2, v⟩ := x
    rw [lookupKey, lookupKey]
    by_cases hk : k2 = k
    · rw [if_pos hk, if_pos hk]
    · rw [if_neg hk, if_neg hk]
      rw [List.map_cons, List.nodup_cons] at hnd
      exact ih hnd.2
  | swap x y t =>
    intro hnd
    obtain ⟨ka, va⟩ := x
    obtain ⟨kb, vb⟩ := y
    have hne : kb ≠ ka := by
      rw [List.map_cons, List.nodup_cons] at hnd
      intro hc
      exact hnd.1 (by rw [hc]; exact List.mem_cons_self _ _)
    simp only [lookupKey]
    by_cases h1 : kb = k
    · have h2 : ¬ka = k := fun hc => hne (h1.trans hc.symm)
      rw [if_pos h1, if_neg h2, if_pos h1]
    · by_cases h2 : ka = k
      · rw [if_neg h1, if_pos h2, if_pos h2]
      · rw [if_neg h1, if_neg h2, if_neg h2, if_neg h1]
  | trans h1 h2 ih1 ih2 =>
    intro hnd
    rw [ih1 hnd, ih2 ((h1.map Prod.fst).nodup hnd)]

/-- Go map assignment is order-independent up to permutation on
duplicate-free maps. -/
theorem mapSet_perm {l1 l2 : List (RawKey × Val)} (h : l1.Perm l2)
    (k : RawKey) (v : Val) :
    (l1.map Prod.fst).Nodup → (mapSet l1 k v).Perm (mapSet l2 k v) := by
  induction h with
  | nil => intro _; exact List.Perm.refl _
  | cons x h ih =>
    intro hnd
    obtain ⟨k2, w⟩ := x
    rw [mapSet, mapSet]
    by_cases hk : k2 = k
    · rw [if_pos hk, if_pos hk]
      exact h.cons _
    · rw [if_neg hk, if_neg hk]
      rw [List.map_cons, List.nodup_cons] at hnd
      exact (ih hnd.2).cons _
  | swap x y t =>
    intro hnd
    obtain ⟨ka, va⟩ := x
    obtain ⟨kb, vb⟩ := y
    have hne : kb ≠ ka := by
      rw [List.map_cons, List.nodup_cons] at hnd
      intro hc
      exact hnd.1 (by rw [hc]; exact List.mem_cons_self _ _)
    simp only [mapSet]
    by_cases h1 : kb = k
    · have h2 : ¬ka = k := fun hc => hne (h1.trans hc.symm)
      rw [if_pos h1, if_neg h2, if_pos h1]
      exact List.Perm.swap _ _ _
    · by_cases h2 : ka = k
      · rw [if_neg h1, if_pos h2, if_pos h2]
        exact List.Perm.swap _ _ _
      · rw [if_neg h1, if_neg h2, if_neg h2, if_neg h1]
        exact List.Perm.swap _ _ _
  | trans h1 h2 ih1 ih2 =>
    intro hnd
    exact (ih1 hnd).trans (ih2 ((h1.map Prod.fst).nodup hnd))

/-- Go map deletion is order-independent up to permutation on
duplicate-free maps. -/
theorem mapDel_perm {l1 l2 : List (RawKey × Val)} (h : l1.Perm l2) (k : RawKey) :
    (l1.map Prod.fst).Nodup → (mapDel l1 k).Perm (mapDel l2 k) := by
  induction h with
  | nil => intro _; exact List.Perm.refl _
  | cons x h ih =>
    intro hnd
    obtain ⟨k2, w⟩ := x
    rw [mapDel, mapDel]
    by_cases hk : k2 = k
    · rw [if_pos hk, if_pos hk]
      exact h
    · rw [if_neg hk, if_neg hk]
      rw [List.map_cons, List.nodup_cons] at hnd
      exact (ih hnd.2).cons _
  | swap x y t =>
    intro hnd
    obtain ⟨ka, va⟩ := x
    obtain ⟨kb, vb⟩ := y
    have hne : kb ≠ ka := by
      rw [List.map_cons, List.nodup_cons] at hnd
      intro hc
      exact hnd.1 (by rw [hc]; exact List.mem_cons_self _ _)
    simp only [mapDel]
    by_cases h1 : kb = k
    · have h2 : ¬ka = k := fun hc => hne (h1.trans hc.symm)
      rw [if_pos h1, if_neg h2, if_pos h1]
    · by_cases h2 : ka = k
      · rw [if_neg h1, if_pos h2, if_pos h2]
      · rw [if_neg h1, if_neg h2, if_neg h2, if_neg h1]
        exact List.Perm.swap _ _ _
  | trans h1 h2 ih1 ih2 =>
    intro hnd
    exact (ih1 hnd).trans (ih2 ((h1.map Prod.fst).nodup hnd))

/-! ## The bytewise-lexical sort is order-independent on distinct keys -/

theorem byteLe_total (a b : Bytes) : byteLe a b = true ∨ byteLe b a = true := by
  induction a generalizing b with
  | nil => left; rw [byteLe]
  | cons x as ih =>
    cases b with
    | nil => right; rw [byteLe]
    | cons y bs =>
      rw [byteLe, byteLe]
      by_cases h1 : x < y
      · left
        rw [if_pos h1]
      · by_cases h2 : y < x
        · right
          rw [if_pos h2]
        · rw [if_neg h1, if_neg h2, if_neg h2, if_neg h1]
          exact ih bs

theorem byteLe_antisymm : ∀ a b : Bytes, byteLe a b = true → byteLe b a = true →
    a = b := by
  intro a
  induction a with
  | nil =>
    intro b h1 h2
    cases b with
    | nil => rfl
    | cons y bs => rw [byteLe] at h2; exact absurd h2 (by simp)
  | cons x as ih =>
    intro b h1 h2
    cases b with
    | nil => rw [byteLe] at h1; exact absurd h1 (by simp)
    | cons y bs =>
      rw [byteLe] at h1 h2
      rcases Nat.lt_trichotomy x y with hxy | hxy | hxy
      · rw [if_neg (by omega), if_pos hxy] at h2
        exact absurd h2 (by simp)
      · rw [if_neg (by omega), if_neg (by omega)] at h1
        rw [if_neg (by omega), if_neg (by omega)] at h2
        rw [hxy, ih bs h1 h2]
      · rw [if_neg (by omega), if_pos hxy] at h1
        exact absurd h1 (by simp)

theorem byteLe_trans : ∀ a b c : Bytes, byteLe a b = true → byteLe b c = true →
    byteLe a c = true := by
  intro a
  induction a with
  | nil => intro b c _ _; rw [byteLe]
  | cons x as ih =>
    intro b c h1 h2
    cases b with
    | nil => rw [byteLe] at h1; exact absurd h1 (by simp)
    | cons y bs =>
      cases c with
      | nil => rw [byteLe] at h2; exact absurd h2 (by simp)
      | cons z cs =>
        rw [byteLe] at h1 h2 ⊢
        rcases Nat.lt_trichotomy x y with hxy | hxy | hxy
        · rcases Nat.lt_trichotomy y z with hyz | hyz | hyz
          · rw [if_pos (by omega)]
          · rw [if_pos (by omega)]
          · rw [if_neg (by omega), if_pos hyz] at h2
            exact absurd h2 (by simp)
        · rcases Nat.lt_trichotomy y z with hyz | hyz | hyz
          · rw [if_pos (by omega)]
          · rw [if_neg (by omega), if_neg (by omega)] at h1
            rw [if_neg (by omega), if_neg (by omega)] at h2
            rw [if_neg (by omega), if_neg (by omega)]
            exact ih bs cs h1 h2
          · rw [if_neg (by omega), if_pos hyz] at h2
            exact absurd h2 (by simp)
        · rw [if_neg (by omega), if_pos hxy] at h1
          exact absurd h1 (by simp)

theorem byteLe_false_of (a b : Bytes) (h : ¬byteLe a b = true) :
    byteLe a b = false := by
  cases hb : byteLe a b
  · rfl
  · exact absurd hb h

/-- Inserting two entries with distinct keys commutes. -/
theorem insortEntry_comm (p q : Bytes × Bytes) (hne : p.1 ≠ q.1) :
    ∀ s : List (Bytes × Bytes),
      insortEntry p (insortEntry q s) = insortEntry q (insortEntry p s) := by
  intro s
  induction s with
  | nil =>
    by_cases hpq : byteLe p.1 q.1 = true
    · have hqp : byteLe q.1 p.1 = false :=
        byteLe_false_of _ _ (fun hc => hne (byteLe_antisymm _ _ hpq hc))
      simp [insortEntry, hpq, hqp]
    · have hqp : byteLe q.1 p.1 = true := by
        rcases byteLe_total p.1 q.1 with hc | hc
        · exact absurd hc hpq
        · exact hc
      have hpq2 : byteLe p.1 q.1 = false := byteLe_false_of _ _ hpq
      simp [insortEntry, hpq2, hqp]
  | cons r t ih =>
    by_cases hpq : byteLe p.1 q.1 = true
    · have hqp : byteLe q.1 p.1 = false :=
        byteLe_false_of _ _ (fun hc => hne (byteLe_antisymm _ _ hpq hc))
      by_cases hqr : byteLe q.1 r.1 = true
      · have hpr : byteLe p.1 r.1 = true := byteLe_trans _ _ _ hpq hqr
        simp [insortEntry, hpq, hqp, hqr, hpr]
      · have hqr2 : byteLe q.1 r.1 = false := byteLe_false_of _ _ hqr
        by_cases hpr : byteLe p.1 r.1 = true
        · simp [insortEntry, hpq, hqp, hqr2, hpr]
        · have hpr2 : byteLe p.1 r.1 = false := byteLe_false_of _ _ hpr
          simp [insortEntry, hpq, hqp, hqr2, hpr2, ih]
    · have hqp : byteLe q.1 p.1 = true := by
        rcases byteLe_total p.1 q.1 with hc | hc
        · exact absurd hc hpq
        · exact hc
      have hpq2 : byteLe p.1 q.1 = false := byteLe_false_of _ _ hpq
      by_cases hpr : byteLe p.1 r.1 = true
      · have hqr : byteLe q.1 r.1 = true := byteLe_trans _ _ _ hqp hpr
        simp [insortEntry, hpq2, hqp, hqr, hpr]
      · have hpr2 : byteLe p.1 r.1 = false := byteLe_false_of _ _ hpr
        by_cases hqr : byteLe q.1 r.1 = true
        · simp [insortEntry, hpq2, hqp, hqr, hpr2]
        · have hqr2 : byteLe q.1 r.1 = false := byteLe_false_of _ _ hqr
          simp [insortEntry, hpq2, hqp, hqr2, hpr2, ih]

/-- Sorting is invariant under permutations of entries with pairwise
distinct keys. -/
theorem sortEntries_perm {p1 p2 : List (Bytes × Bytes)} (h : p1.Perm p2) :
    (p1.map Prod.fst).Nodup → sortEntries p1 = sortEntries p2 := by
  induction h with
  | nil => intro _; rfl
  | cons x h ih =>
    intro hnd
    rw [List.map_cons, List.nodup_cons] at hnd
    rw [sortEntries, sortEntries, ih hnd.2]
  | swap x y t =>
    intro hnd
    have hne : y.1 ≠ x.1 := by
      rw [List.map_cons, List.nodup_cons] at hnd
      intro hc
      exact hnd.1 (by rw [hc]; exact List.mem_cons_self _ _)
    rw [sortEntries, sortEntries, sortEntries, sortEntries]
    exact insortEntry_comm y x hne (sortEntries t)
  | trans h1 h2 ih1 ih2 =>
    intro hnd
    rw [ih1 hnd, ih2 (((h1.map Prod.fst)).nodup hnd)]

/-- Node.MarshalCBOR of map entries is the per-entry map. -/
theorem marshalEntries_eq_map (l : List (RawKey × Val)) :
    marshalEntries l = l.map (fun p => (p.1, marshalVal p.2)) := by
  induction l with
  | nil => rw [marshalEntries]; rfl
  | cons p t ih =>
    obtain ⟨k, v⟩ := p
    rw [marshalEntries, ih]
    rfl

/-! ## Pointwise lemmas for the entry and element relations -/

theorem valPermEntries_lookup {m l2 : List (RawKey × Val)}
    (h : ValPermEntries m l2) (k : RawKey) :
    orel ValPerm (lookupKey m k) (lookupKey l2 k) := by
  induction m generalizing l2 with
  | nil =>
    cases h
    exact trivial
  | cons p t ih =>
    obtain ⟨k2, v⟩ := p
    cases h with
    | cons hv ht =>
      rename_i w t2
      rw [lookupKey, lookupKey]
      by_cases hk : k2 = k
      · rw [if_pos hk, if_pos hk]
        exact hv
      · rw [if_neg hk, if_neg hk]
        exact ih ht

theorem valPermEntries_mapSet {m l2 : List (RawKey × Val)}
    (h : ValPermEntries m l2) (k : RawKey) {v w : Val} (hvw : ValPerm v w) :
    ValPermEntries (mapSet m k v) (mapSet l2 k w) := by
  induction m generalizing l2 with
  | nil =>
    cases h
    rw [mapSet, mapSet]
    exact .cons hvw .nil
  | cons p t ih =>
    obtain ⟨k2, v2⟩ := p
    cases h with
    | cons hv ht =>
      rename_i w2 t2
      rw [mapSet, mapSet]
      by_cases hk : k2 = k
      · rw [if_pos hk, if_pos hk]
        exact .cons hvw ht
      · rw [if_neg hk, if_neg hk]
        exact .cons hv (ih ht)

theorem valPermEntries_mapDel {m l2 : List (RawKey × Val)}
    (h : ValPermEntries m l2) (k : RawKey) :
    ValPermEntries (mapDel m k) (mapDel l2 k) := by
  induction m generalizing l2 with
  | nil =>
    cases h
    rw [mapDel]
    exact .nil
  | cons p t ih =>
    obtain ⟨k2, v2⟩ := p
    cases h with
    | cons hv ht =>
      rename_i w2 t2
      rw [mapDel, mapDel]
      by_cases hk : k2 = k
      · rw [if_pos hk, if_pos hk]
        exact ht
      · rw [if_neg hk, if_neg hk]
        exact .cons hv (ih ht)

theorem valPermList_get {xs ys : List Val} (h : ValPermList xs ys) (i : Nat) :
    orel ValPerm (xs.get? i) (ys.get? i) := by
  induction xs generalizing ys i with
  | nil =>
    cases h
    exact trivial
  | cons x t ih =>
    cases h with
    | cons hv ht =>
      cases i with
      | zero => exact hv
      | succ j => exact ih ht j

theorem valPermList_append {xs ys as bs : List Val} (h1 : ValPermList xs ys)
    (h2 : ValPermList as bs) : ValPermList (xs ++ as) (ys ++ bs) := by
  induction xs generalizing ys with
  | nil =>
    cases h1
    simpa using h2
  | cons x t ih =>
    cases h1 with
    | cons hv ht => exact .cons hv (ih ht)

theorem valPermList_take {xs ys : List Val} (h : ValPermList xs ys) (n : Nat) :
    ValPermList (xs.take n) (ys.take n) := by
  induction xs generalizing ys n with
  | nil =>
    cases h
    simpa using .nil
  | cons x t ih =>
    cases h with
    | cons hv ht =>
      cases n with
      | zero => exact .nil
      | succ m => exact .cons hv (ih ht m)

theorem valPermList_drop {xs ys : List Val} (h : ValPermList xs ys) (n : Nat) :
    ValPermList (xs.drop n) (ys.drop n) := by
  induction xs generalizing ys n with
  | nil =>
    cases h
    simpa using .nil
  | cons x t ih =>
    cases h with
    | cons hv ht =>
      cases n with
      | zero => exact .cons hv ht
      | succ m => exact ih ht m

theorem valPermList_set {xs ys : List Val} (h : ValPermList xs ys) (n : Nat)
    {v w : Val} (hvw : ValPerm v w) : ValPermList (xs.set n v) (ys.set n w) := by
  induction xs generalizing ys n with
  | nil =>
    cases h
    exact .nil
  | cons x t ih =>
    cases h with
    | cons hv ht =>
      cases n with
      | zero => exact .cons hvw ht
      | succ m => exact .cons hv (ih ht m)

theorem valPermList_insertAt {xs ys : List Val} (h : ValPermList xs ys) (n : Nat)
    {v w : Val} (hvw : ValPerm v w) :
    ValPermList (insertAt xs n v) (insertAt ys n w) := by
  rw [insertAt, insertAt]
  exact valPermList_append (valPermList_take h n) (.cons hvw (valPermList_drop h n))

theorem valPermList_removeAt {xs ys : List Val} (h : ValPermList xs ys) (n : Nat) :
    ValPermList (removeAt xs n) (removeAt ys n) := by
  rw [removeAt, removeAt]
  exact valPermList_append (valPermList_take h n) (valPermList_drop h (n + 1))

theorem valPerm_isNull {v1 v2 : Val} (h : ValPerm v1 v2) : v1.isNull = v2.isNull := by
  cases h <;> rfl

theorem valPerm_isContainer {v1 v2 : Val} (h : ValPerm v1 v2) :
    v1.isContainer = v2.isContainer := by
  cases h <;> rfl

theorem lookupKey_mem {l : List (RawKey × Val)} {k : RawKey} {v : Val}
    (h : lookupKey l k = some v) : (k, v) ∈ l := by
  induction l with
  | nil => rw [lookupKey] at h; exact absurd h (by simp)
  | cons p t ih =>
    obtain ⟨k2, v2⟩ := p
    rw [lookupKey] at h
    by_cases hk : k2 = k
    · rw [if_pos hk] at h
      injection h with h
      subst hk
      subst h
      exact List.mem_cons_self _ _
    · rw [if_neg hk] at h
      exact List.mem_cons_of_mem _ (ih h)

theorem valPermEntries_mem_left {m l2 : List (RawKey × Val)}
    (h : ValPermEntries m l2) {p : RawKey × Val} (hp : p ∈ m) :
    ∃ q ∈ l2, q.1 = p.1 ∧ ValPerm p.2 q.2 := by
  induction m generalizing l2 with
  | nil => simp at hp
  | cons r t ih =>
    obtain ⟨k, v⟩ := r
    cases h with
    | cons hv ht =>
      rename_i w t2
      rcases List.mem_cons.mp hp with hh | hh
      · subst hh
        exact ⟨(k, w), List.mem_cons_self _ _, rfl, hv⟩
      · rcases ih ht hh with ⟨q, hq1, hq2, hq3⟩
        exact ⟨q, List.mem_cons_of_mem _ hq1, hq2, hq3⟩

theorem valPermEntries_mem_right {m l2 : List (RawKey × Val)}
    (h : ValPermEntries m l2) {q : RawKey × Val} (hq : q ∈ l2) :
    ∃ p ∈ m, p.1 = q.1 ∧ ValPerm p.2 q.2 := by
  induction m generalizing l2 with
  | nil => cases h; simp at hq
  | cons r t ih =>
    obtain ⟨k, v⟩ := r
    cases h with
    | cons hv ht =>
      rename_i w t2
      rcases List.mem_cons.mp hq with hh | hh
      · subst hh
        exact ⟨(k, v), List.mem_cons_self _ _, rfl, hv⟩
      · rcases ih ht hh with ⟨p, hp1, hp2, hp3⟩
        exact ⟨p, List.mem_cons_of_mem _ hp1, hp2, hp3⟩

/-- Lookup agreement across the two representations of a map with
duplicate-free keys. -/
theorem valPerm_map_lookup {l1 mid l2 : List (RawKey × Val)} (hp : l1.Perm mid)
    (he : ValPermEntries mid l2) (hnd : (l1.map Prod.fst).Nodup) (k : RawKey) :
    orel ValPerm (lookupKey l1 k) (lookupKey l2 k) := by
  rw [lookupKey_perm hp k hnd]
  exact valPermEntries_lookup he k

theorem valEqualEntries_char (l' : List (RawKey × Val)) :
    ∀ t : List (RawKey × Val), valEqualEntries l' t = true ↔
      ∀ p ∈ t, ∃ v', lookupKey l' p.1 = some v' ∧ valEqual p.2 v' = true := by
  intro t
  induction t with
  | nil =>
    rw [valEqualEntries]
    simp
  | cons p r ih =>
    obtain ⟨k, v⟩ := p
    rw [valEqualEntries, Bool.and_eq_true, ih]
    constructor
    · rintro ⟨h1, h2⟩ q hq
      rcases List.mem_cons.mp hq with hh | hh
      · subst hh
        cases hl : lookupKey l' k with
        | none =>
          simp only [hl] at h1
          exact absurd h1 (by simp)
        | some v' =>
          simp only [hl] at h1
          exact ⟨v', rfl, h1⟩
      · exact h2 q hh
    · intro h
      constructor
      · rcases h (k, v) (List.mem_cons_self _ _) with ⟨v', hl, he⟩
        simp only [hl]
        exact he
      · exact fun q hq => h q (List.mem_cons_of_mem _ hq)

theorem valEqualList_of : ∀ (xs ys xs2 ys2 : List Val),
    ValPermList xs xs2 → ValPermList ys ys2 →
    (∀ x ∈ xs, wfKeys x = true) →
    (∀ y ∈ ys, wfKeys y = true) →
    (∀ x ∈ xs, wfKeys x = true → ∀ y1, wfKeys y1 = true → ∀ x2 y2,
      ValPerm x x2 → ValPerm y1 y2 → valEqual x y1 = valEqual x2 y2) →
    valEqualList xs ys = valEqualList xs2 ys2 := by
  intro xs
  induction xs with
  | nil =>
    intro ys xs2 ys2 h1 _ _ _ _
    cases h1
    rw [valEqualList, valEqualList]
  | cons x t ih =>
    intro ys xs2 ys2 h1 h2 hkx hky hIH
    cases h1 with
    | cons hx ht =>
      rename_i x2 t2
      cases ys with
      | nil =>
        cases h2
        rw [valEqualList, valEqualList]
      | cons y r =>
        cases h2 with
        | cons hy hr =>
          rename_i y2 r2
          rw [valEqualList, valEqualList]
          rw [hIH x (List.mem_cons_self _ _) (hkx x (List.mem_cons_self _ _))
            y (hky y (List.mem_cons_self _ _)) x2 y2 hx hy]
          rw [ih r t2 r2 ht hr (fun z hz => hkx z (List.mem_cons_of_mem _ hz))
            (fun z hz => hky z (List.mem_cons_of_mem _ hz))
            (fun z hz => hIH z (List.mem_cons_of_mem _ hz))]

/-- Node.Equal is representation-order independent. -/
theorem valEqual_perm : ∀ n1 : Val, wfKeys n1 = true →
    ∀ y1 : Val, wfKeys y1 = true → ∀ n2 y2 : Val, ValPerm n1 n2 → ValPerm y1 y2 →
    valEqual n1 y1 = valEqual n2 y2 := by
  intro n1
  induction n1 using Val.inductionOn with
  | hother b =>
    intro hkn y1 hky n2 y2 hpn hpo
    cases hpn
    cases hpo with
    | other b2 => rfl
    | arr hl => simp [valEqual, Val.isNull]
    | map hp he => simp [valEqual, Val.isNull]
  | harr xs ih =>
    intro hkn y1 hky n2 y2 hpn hpo
    cases hpn with
    | arr hxl =>
      rename_i xs2
      cases hpo with
      | other b2 => simp [valEqual, Val.isNull]
      | map hp he => simp [valEqual, Val.isNull]
      | arr hyl =>
        rename_i ys ys2
        rw [valEqual, valEqual]
        rw [wfKeys] at hkn hky
        have hlx := valPermList_length hxl
        have hly := valPermList_length hyl
        have hinner := valEqualList_of xs ys xs2 ys2 hxl hyl
          ((wfKeysList_iff xs).mp hkn) ((wfKeysList_iff ys).mp hky)
          (fun z hz => ih z hz)
        rw [hlx, hly, hinner]
        simp [Val.isNull]
  | hmap l ih =>
    intro hkn y1 hky n2 y2 hpn hpo
    cases hpn with
    | map hpl hel =>
      rename_i midn l2
      cases hpo with
      | other b2 => simp [valEqual, Val.isNull]
      | arr hyl => simp [valEqual, Val.isNull]
      | map hpr her =>
        rename_i lr midr lr2
        rw [valEqual, valEqual]
        rw [wfKeys, Bool.and_eq_true] at hkn hky
        have hndy : (lr.map Prod.fst).Nodup := by simpa using hky.1
        have hlen1 : l.length = l2.length := by
          rw [hpl.length_eq, valPermEntries_length hel]
        have hlen2 : lr.length = lr2.length := by
          rw [hpr.length_eq, valPermEntries_length her]
        have hinner : valEqualEntries lr l = valEqualEntries lr2 l2 := by
          rw [Bool.eq_iff_iff, valEqualEntries_char, valEqualEntries_char]
          constructor
          · intro h q hq
            rcases valPermEntries_mem_right hel hq with ⟨p, hpmid, hpq1, hpq2⟩
            have hpl2 : p ∈ l := hpl.symm.subset hpmid
            rcases h p hpl2 with ⟨v1, hlook1, heq1⟩
            have hrel := valPerm_map_lookup hpr her hndy p.1
            rw [hlook1] at hrel
            cases hlook2 : lookupKey lr2 p.1 with
            | none =>
              rw [hlook2] at hrel
              exact absurd hrel (by simp [orel])
            | some w1 =>
              rw [hlook2] at hrel
              have hkp2 : wfKeys p.2 = true :=
                (wfKeysEntries_iff l).mp hkn.2 p hpl2
              have hkv1 : wfKeys v1 = true :=
                (wfKeysEntries_iff lr).mp hky.2 (p.1, v1) (lookupKey_mem hlook1)
              have heqt := ih p hpl2 hkp2 v1 hkv1 q.2 w1 hpq2 hrel
              refine ⟨w1, ?_, ?_⟩
              · rw [← hpq1]
                exact hlook2
              · rw [← heqt]
                exact heq1
          · intro h p hp
            have hpmid : p ∈ midn := hpl.subset hp
            rcases valPermEntries_mem_left hel hpmid with ⟨q, hq2, hq1, hqperm⟩
            rcases h q hq2 with ⟨w1, hlook2, heq2⟩
            have hrel := valPerm_map_lookup hpr her hndy q.1
            rw [hlook2] at hrel
            cases hlook1 : lookupKey lr q.1 with
            | none =>
              rw [hlook1] at hrel
              exact absurd hrel (by simp [orel])
            | some v1 =>
              rw [hlook1] at hrel
              have hkp2 : wfKeys p.2 = true :=
                (wfKeysEntries_iff l).mp hkn.2 p hp
              have hkv1 : wfKeys v1 = true :=
                (wfKeysEntries_iff lr).mp hky.2 (q.1, v1) (lookupKey_mem hlook1)
              have heqt := ih p hp hkp2 v1 hkv1 q.2 w1 hqperm hrel
              refine ⟨v1, ?_, ?_⟩
              · rw [← hq1]
                exact hlook1
              · rw [heqt]
                exact heq2
        rw [hlen1, hlen2, hinner]
        simp [Val.isNull]

theorem marshalEntries_keys (l : List (RawKey × Val)) :
    (marshalEntries l).map Prod.fst = l.map Prod.fst := by
  rw [marshalEntries_eq_map]
  simp

theorem marshalList_of : ∀ xs ys : List Val, ValPermList xs ys →
    (∀ x ∈ xs, ∀ y, ValPerm x y → marshalVal x = marshalVal y) →
    marshalList xs = marshalList ys := by
  intro xs
  induction xs with
  | nil =>
    intro ys h _
    cases h
    rfl
  | cons x t ih =>
    intro ys h hIH
    cases h with
    | cons hv ht =>
      rename_i y t2
      rw [marshalList, marshalList]
      rw [hIH x (List.mem_cons_self _ _) y hv,
        ih t2 ht (fun z hz => hIH z (List.mem_cons_of_mem _ hz))]

theorem marshalEntries_of : ∀ m l2 : List (RawKey × Val), ValPermEntries m l2 →
    (∀ p ∈ m, ∀ w, ValPerm p.2 w → marshalVal p.2 = marshalVal w) →
    marshalEntries m = marshalEntries l2 := by
  intro m
  induction m with
  | nil =>
    intro l2 h _
    cases h
    rfl
  | cons p t ih =>
    intro l2 h hIH
    obtain ⟨k, v⟩ := p
    cases h with
    | cons hv ht =>
      rename_i w t2
      rw [marshalEntries, marshalEntries]
      rw [hIH (k, v) (List.mem_cons_self _ _) w hv,
        ih t2 ht (fun q hq => hIH q (List.mem_cons_of_mem _ hq))]

/-- The configured (key-sorting) encoder produces identical bytes for any
two representation orders of the same document. -/
theorem marshal_valPerm : ∀ v1 : Val, wfKeys v1 = true → ∀ v2 : Val,
    ValPerm v1 v2 → marshalVal v1 = marshalVal v2 := by
  intro v1
  induction v1 using Val.inductionOn with
  | hother b =>
    intro _ v2 hp
    cases hp
    rfl
  | harr xs ih =>
    intro hk v2 hp
    cases hp with
    | arr hl =>
      rename_i ys
      rw [wfKeys] at hk
      rw [marshalVal, marshalVal, valPermList_length hl,
        marshalList_of xs ys hl
          (fun x hx y hxy => ih x hx ((wfKeysList_iff xs).mp hk x hx) y hxy)]
  | hmap l ih =>
    intro hk v2 hp
    cases hp with
    | map hpl hel =>
      rename_i mid l2
      rw [wfKeys, Bool.and_eq_true] at hk
      have hnd : (l.map Prod.fst).Nodup := by simpa using hk.1
      have hlen : l.length = l2.length := by
        rw [hpl.length_eq, valPermEntries_length hel]
      have hperm2 : (marshalEntries l).Perm (marshalEntries mid) := by
        rw [marshalEntries_eq_map, marshalEntries_eq_map]
        exact hpl.map _
      have hmid : marshalEntries mid = marshalEntries l2 :=
        marshalEntries_of mid l2 hel
          (fun p hp w hw => ih p (hpl.symm.subset hp)
            ((wfKeysEntries_iff l).mp hk.2 p (hpl.symm.subset hp)) w hw)
      have hsort : sortEntries (marshalEntries l) = sortEntries (marshalEntries mid) :=
        sortEntries_perm hperm2 (by rw [marshalEntries_keys]; exact hnd)
      rw [marshalVal, marshalVal, hlen, hsort, hmid]

/-! ## Container operations respect the representation relation -/

theorem arrGet_rel {d1 d2 : List Val} (h : ValPermList d1 d2) (k : RawKey)
    (o : Options) : erel ValPerm (arrGet d1 k o) (arrGet d2 k o) := by
  cases htk : toIntKey k with
  | none =>
    simp only [arrGet, htk]
    exact rfl
  | some i0 =>
    simp only [arrGet, htk]
    rw [← valPermList_length h]
    by_cases hneg : i0 < 0
    · by_cases hbad : ¬o.supportNegativeIndices ∨ i0 < -(d1.length : Int)
      · simp only [hneg, hbad, if_true]
        exact rfl
      · simp only [hneg, hbad, if_true, if_false]
        by_cases hge : i0 + (d1.length : Int) ≥ (d1.length : Int)
        · simp only [hge, if_true]
          exact rfl
        · simp only [hge, if_false]
          have hrel := valPermList_get h (i0 + (d1.length : Int)).toNat
          cases hg1 : d1.get? (i0 + (d1.length : Int)).toNat with
          | none =>
            rw [hg1] at hrel
            cases hg2 : d2.get? (i0 + (d1.length : Int)).toNat with
            | none =>
              simp only [hg1, hg2]
              exact rfl
            | some w =>
              rw [hg2] at hrel
              exact absurd hrel (by simp [orel])
          | some v =>
            rw [hg1] at hrel
            cases hg2 : d2.get? (i0 + (d1.length : Int)).toNat with
            | none =>
              rw [hg2] at hrel
              exact absurd hrel (by simp [orel])
            | some w =>
              rw [hg2] at hrel
              simp only [hg1, hg2]
              exact hrel
    · simp only [hneg, if_false]
      by_cases hge : i0 ≥ (d1.length : Int)
      · simp only [hge, if_true]
        exact rfl
      · simp only [hge, if_false]
        have hrel := valPermList_get h i0.toNat
        cases hg1 : d1.get? i0.toNat with
        | none =>
          rw [hg1] at hrel
          cases hg2 : d2.get? i0.toNat with
          | none =>
            simp only [hg1, hg2]
            exact rfl
          | some w =>
            rw [hg2] at hrel
            exact absurd hrel (by simp [orel])
        | some v =>
          rw [hg1] at hrel
          cases hg2 : d2.get? i0.toNat with
          | none =>
            rw [hg2] at hrel
            exact absurd hrel (by simp [orel])
          | some w =>
            rw [hg2] at hrel
            simp only [hg1, hg2]
            exact hrel

theorem arrAdd_rel {d1 d2 : List Val} (h : ValPermList d1 d2) (k : RawKey)
    {v w : Val} (hvw : ValPerm v w) (o : Options) :
    erel (fun a b => ValPermList a b) (arrAdd d1 k v o) (arrAdd d2 k w o) := by
  by_cases hm : k = minusKey
  · simp only [arrAdd, hm, if_pos]
    exact valPermList_append h (.cons hvw .nil)
  · simp only [arrAdd, hm, if_false]
    cases htk : toIntKey k with
    | none =>
      simp only [htk]
      exact rfl
    | some i0 =>
      simp only [htk]
      rw [← valPermList_length h]
      by_cases h1 : i0 ≥ (d1.length : Int) + 1
      · simp only [h1, if_true]
        exact rfl
      · simp only [h1, if_false]
        by_cases h2 : i0 < 0
        · by_cases h3 : ¬o.supportNegativeIndices ∨ i0 < -((d1.length : Int) + 1)
          · simp only [h2, h3, if_true]
            exact rfl
          · simp only [h2, h3, if_true, if_false]
            exact valPermList_insertAt h _ hvw
        · simp only [h2, if_false]
          exact valPermList_insertAt h _ hvw

theorem arrSet_rel {d1 d2 : List Val} (h : ValPermList d1 d2) (k : RawKey)
    {v w : Val} (hvw : ValPerm v w) (o : Options) :
    erel (fun a b => ValPermList a b) (arrSet d1 k v o) (arrSet d2 k w o) := by
  cases htk : toIntKey k with
  | none =>
    simp only [arrSet, htk]
    exact rfl
  | some i0 =>
    simp only [arrSet, htk]
    rw [← valPermList_length h]
    by_cases h1 : i0 < 0
    · by_cases h2 : ¬o.supportNegativeIndices ∨ i0 < -(d1.length : Int)
      · simp only [h1, h2, if_true]
        exact rfl
      · simp only [h1, h2, if_true, if_false]
        exact valPermList_set h _ hvw
    · simp only [h1, if_false]
      by_cases h2 : i0 < (d1.length : Int)
      · simp only [h2, if_true]
        exact valPermList_set h _ hvw
      · simp only [h2, if_false]
        exact rfl

theorem arrRemove_rel {d1 d2 : List Val} (h : ValPermList d1 d2) (k : RawKey)
    (o : Options) :
    erel (fun a b => ValPermList a b) (arrRemove d1 k o) (arrRemove d2 k o) := by
  cases htk : toIntKey k with
  | none =>
    simp only [arrRemove, htk]
    exact rfl
  | some i0 =>
    simp only [arrRemove, htk]
    rw [← valPermList_length h]
    by_cases h1 : i0 ≥ (d1.length : Int)
    · simp only [h1, if_true]
      by_cases h2 : o.allowMissingPathOnRemove
      · simp only [h2, if_true]
        exact h
      · simp only [h2, if_false]
        exact rfl
    · simp only [h1, if_false]
      by_cases h2 : i0 < 0
      · simp only [h2, if_true]
        by_cases h3 : ¬o.supportNegativeIndices
        · simp only [h3, if_true]
          exact rfl
        · simp only [h3, if_false]
          by_cases h4 : i0 < -(d1.length : Int)
          · simp only [h4, if_true]
            by_cases h5 : o.allowMissingPathOnRemove
            · simp only [h5, if_true]
              exact h
            · simp only [h5, if_false]
              exact rfl
          · simp only [h4, if_false]
            exact valPermList_removeAt h _
      · simp only [h2, if_false]
        exact valPermList_removeAt h _

theorem erel_map_arr {x y : Except PErr (List Val)}
    (h : erel (fun a b => ValPermList a b) x y) :
    erel ValPerm (x.map Val.arr) (y.map Val.arr) := by
  cases x with
  | error e =>
    cases y with
    | error e2 =>
      have he : e = e2 := h
      rw [he]
      exact rfl
    | ok b => exact absurd h (by simp [erel])
  | ok a =>
    cases y with
    | error e2 => exact absurd h (by simp [erel])
    | ok b =>
      have hl : ValPermList a b := h
      exact ValPerm.arr hl

theorem conGet_rel {c1 c2 : Val} (hp : ValPerm c1 c2) (hk : wfKeys c1 = true)
    (k : RawKey) (o : Options) : erel ValPerm (conGet c1 k o) (conGet c2 k o) := by
  cases hp with
  | other b =>
    simp only [conGet]
    exact rfl
  | arr hl =>
    simp only [conGet]
    exact arrGet_rel hl k o
  | map hpl hel =>
    rename_i l1 mid l2
    rw [wfKeys, Bool.and_eq_true] at hk
    have hnd : (l1.map Prod.fst).Nodup := by simpa using hk.1
    simp only [conGet, mapGet]
    have hrel := valPerm_map_lookup hpl hel hnd k
    cases hg1 : lookupKey l1 k with
    | none =>
      rw [hg1] at hrel
      cases hg2 : lookupKey l2 k with
      | none =>
        simp only [hg1, hg2]
        exact rfl
      | some w =>
        rw [hg2] at hrel
        exact absurd hrel (by simp [orel])
    | some v =>
      rw [hg1] at hrel
      cases hg2 : lookupKey l2 k with
      | none =>
        rw [hg2] at hrel
        exact absurd hrel (by simp [orel])
      | some w =>
        rw [hg2] at hrel
        simp only [hg1, hg2]
        exact hrel

theorem conAdd_rel {c1 c2 : Val} (hp : ValPerm c1 c2) (hk : wfKeys c1 = true)
    (k : RawKey) {v w : Val} (hvw : ValPerm v w) (o : Options) :
    erel ValPerm (conAdd c1 k v o) (conAdd c2 k w o) := by
  cases hp with
  | other b =>
    simp only [conAdd]
    exact rfl
  | arr hl =>
    simp only [conAdd]
    exact erel_map_arr (arrAdd_rel hl k hvw o)
  | map hpl hel =>
    rename_i l1 mid l2
    rw [wfKeys, Bool.and_eq_true] at hk
    have hnd : (l1.map Prod.fst).Nodup := by simpa using hk.1
    simp only [conAdd]
    exact ValPerm.map (mapSet_perm hpl k v hnd) (valPermEntries_mapSet hel k hvw)

theorem conSet_rel {c1 c2 : Val} (hp : ValPerm c1 c2) (hk : wfKeys c1 = true)
    (k : RawKey) {v w : Val} (hvw : ValPerm v w) (o : Options) :
    erel ValPerm (conSet c1 k v o) (conSet c2 k w o) := by
  cases hp with
  | other b =>
    simp only [conSet]
    exact rfl
  | arr hl =>
    simp only [conSet]
    exact erel_map_arr (arrSet_rel hl k hvw o)
  | map hpl hel =>
    rename_i l1 mid l2
    rw [wfKeys, Bool.and_eq_true] at hk
    have hnd : (l1.map Prod.fst).Nodup := by simpa using hk.1
    simp only [conSet]
    exact ValPerm.map (mapSet_perm hpl k v hnd) (valPermEntries_mapSet hel k hvw)

theorem conSetBack_rel {c1 c2 : Val} (hp : ValPerm c1 c2) (hk : wfKeys c1 = true)
    (k : RawKey) {v w : Val} (hvw : ValPerm v w) (o : Options) :
    erel ValPerm (conSetBack c1 k v o) (conSetBack c2 k w o) := by
  cases hp with
  | other b =>
    simp only [conSetBack]
    exact rfl
  | arr hl =>
    rename_i xs ys
    simp only [conSetBack]
    cases htk : toIntKey k with
    | none =>
      simp only [htk]
      exact rfl
    | some i0 =>
      simp only [htk]
      rw [← valPermList_length hl]
      by_cases h1 : i0 < 0
      · by_cases h2 : ¬o.supportNegativeIndices ∨ i0 < -(xs.length : Int)
        · simp only [h1, h2, if_true]
          exact rfl
        · simp only [h1, h2, if_true, if_false]
          exact ValPerm.arr (valPermList_set hl _ hvw)
      · simp only [h1, if_false]
        exact ValPerm.arr (valPermList_set hl _ hvw)
  | map hpl hel =>
    rename_i l1 mid l2
    rw [wfKeys, Bool.and_eq_true] at hk
    have hnd : (l1.map Prod.fst).Nodup := by simpa using hk.1
    simp only [conSetBack]
    exact ValPerm.map (mapSet_perm hpl k v hnd) (valPermEntries_mapSet hel k hvw)

theorem conRemove_rel {c1 c2 : Val} (hp : ValPerm c1 c2) (hk : wfKeys c1 = true)
    (k : RawKey) (o : Options) :
    erel ValPerm (conRemove c1 k o) (conRemove c2 k o) := by
  cases hp with
  | other b =>
    simp only [conRemove]
    exact rfl
  | arr hl =>
    simp only [conRemove]
    exact erel_map_arr (arrRemove_rel hl k o)
  | map hpl hel =>
    rename_i l1 mid l2
    rw [wfKeys, Bool.and_eq_true] at hk
    have hnd : (l1.map Prod.fst).Nodup := by simpa using hk.1
    simp only [conRemove, mapRemove]
    have hrel := valPerm_map_lookup hpl hel hnd k
    cases hg1 : lookupKey l1 k with
    | none =>
      rw [hg1] at hrel
      cases hg2 : lookupKey l2 k with
      | none =>
        simp only [hg1, hg2]
        by_cases hmiss : o.allowMissingPathOnRemove
        · simp only [hmiss, if_true]
          exact ValPerm.map hpl hel
        · simp only [hmiss, if_false]
          exact rfl
      | some w =>
        rw [hg2] at hrel
        exact absurd hrel (by simp [orel])
    | some v =>
      rw [hg1] at hrel
      cases hg2 : lookupKey l2 k with
      | none =>
        rw [hg2] at hrel
        exact absurd hrel (by simp [orel])
      | some w =>
        simp only [hg1, hg2]
        exact ValPerm.map (mapDel_perm hpl k hnd) (valPermEntries_mapDel hel k)

theorem conLen_eq {c1 c2 : Val} (hp : ValPerm c1 c2) : conLen c1 = conLen c2 := by
  cases hp with
  | other b => rfl
  | arr hl =>
    simp only [conLen]
    exact valPermList_length hl
  | map hpl hel =>
    simp only [conLen]
    rw [hpl.length_eq, valPermEntries_length hel]

/-! ## wfKeys is preserved by the container operations -/

theorem wfKeys_map_iff (l : List (RawKey × Val)) : wfKeys (.map l) = true ↔
    (l.map Prod.fst).Nodup ∧ ∀ p ∈ l, wfKeys p.2 = true := by
  rw [wfKeys, Bool.and_eq_true, wfKeysEntries_iff]
  simp

theorem wfKeys_arr_iff (d : List Val) : wfKeys (.arr d) = true ↔
    ∀ x ∈ d, wfKeys x = true := by
  rw [wfKeys, wfKeysList_iff]

theorem mem_mapSet : ∀ {l : List (RawKey × Val)} {k : RawKey} {v : Val}
    {p : RawKey × Val}, p ∈ mapSet l k v → p ∈ l ∨ p = (k, v) := by
  intro l
  induction l with
  | nil =>
    intro k v p hp
    rw [mapSet] at hp
    right
    simpa using hp
  | cons q t ih =>
    intro k v p hp
    obtain ⟨k2, v2⟩ := q
    rw [mapSet] at hp
    by_cases hk : k2 = k
    · rw [if_pos hk] at hp
      rcases List.mem_cons.mp hp with h1 | h1
      · right
        exact h1
      · left
        exact List.mem_cons_of_mem _ h1
    · rw [if_neg hk] at hp
      rcases List.mem_cons.mp hp with h1 | h1
      · left
        rw [h1]
        exact List.mem_cons_self _ _
      · rcases ih h1 with h2 | h2
        · left
          exact List.mem_cons_of_mem _ h2
        · right
          exact h2

theorem mem_mapDel : ∀ {l : List (RawKey × Val)} {k : RawKey} {p : RawKey × Val},
    p ∈ mapDel l k → p ∈ l := by
  intro l
  induction l with
  | nil =>
    intro k p hp
    rw [mapDel] at hp
    simp at hp
  | cons q t ih =>
    intro k p hp
    obtain ⟨k2, v2⟩ := q
    rw [mapDel] at hp
    by_cases hk : k2 = k
    · rw [if_pos hk] at hp
      exact List.mem_cons_of_mem _ hp
    · rw [if_neg hk] at hp
      rcases List.mem_cons.mp hp with h1 | h1
      · rw [h1]
        exact List.mem_cons_self _ _
      · exact List.mem_cons_of_mem _ (ih h1)

theorem mapSet_keys_nodup : ∀ {l : List (RawKey × Val)} (k : RawKey) (v : Val),
    (l.map Prod.fst).Nodup → ((mapSet l k v).map Prod.fst).Nodup := by
  intro l
  induction l with
  | nil =>
    intro k v _
    simp [mapSet]
  | cons q t ih =>
    intro k v hnd
    obtain ⟨k2, v2⟩ := q
    rw [List.map_cons, List.nodup_cons] at hnd
    rw [mapSet]
    by_cases hk : k2 = k
    · rw [if_pos hk, List.map_cons, List.nodup_cons]
      subst hk
      exact hnd
    · rw [if_neg hk, List.map_cons, List.nodup_cons]
      refine ⟨?_, ih k v hnd.2⟩
      intro hc
      rcases List.mem_map.mp hc with ⟨p, hp, hfst⟩
      rcases mem_mapSet hp with h1 | h1
      · exact hnd.1 (hfst ▸ List.mem_map_of_mem Prod.fst h1)
      · rw [h1] at hfst
        exact hk hfst.symm

theorem mapDel_keys_nodup : ∀ {l : List (RawKey × Val)} (k : RawKey),
    (l.map Prod.fst).Nodup → ((mapDel l k).map Prod.fst).Nodup := by
  intro l
  induction l with
  | nil =>
    intro k _
    simp [mapDel]
  | cons q t ih =>
    intro k hnd
    obtain ⟨k2, v2⟩ := q
    rw [List.map_cons, List.nodup_cons] at hnd
    rw [mapDel]
    by_cases hk : k2 = k
    · rw [if_pos hk]
      exact hnd.2
    · rw [if_neg hk, List.map_cons, List.nodup_cons]
      refine ⟨?_, ih k hnd.2⟩
      intro hc
      rcases List.mem_map.mp hc with ⟨p, hp, hfst⟩
      exact hnd.1 (hfst ▸ List.mem_map_of_mem Prod.fst (mem_mapDel hp))

theorem mem_insertAt {d : List Val} {n : Nat} {v x : Val}
    (h : x ∈ insertAt d n v) : x ∈ d ∨ x = v := by
  rw [insertAt] at h
  rcases List.mem_append.mp h with h1 | h1
  · exact Or.inl (List.take_subset n d h1)
  · rcases List.mem_cons.mp h1 with h2 | h2
    · exact Or.inr h2
    · exact Or.inl (List.drop_subset n d h2)

theorem mem_removeAt {d : List Val} {n : Nat} {x : Val}
    (h : x ∈ removeAt d n) : x ∈ d := by
  rw [removeAt] at h
  rcases List.mem_append.mp h with h1 | h1
  · exact List.take_subset n d h1
  · exact List.drop_subset (n + 1) d h1

theorem mem_of_set {d : List Val} {n : Nat} {v x : Val}
    (h : x ∈ d.set n v) : x ∈ d ∨ x = v := by
  induction d generalizing n with
  | nil => simp at h
  | cons y t ih =>
    cases n with
    | zero =>
      rw [List.set_cons_zero] at h
      rcases List.mem_cons.mp h with h1 | h1
      · exact Or.inr h1
      · exact Or.inl (List.mem_cons_of_mem _ h1)
    | succ m =>
      rw [List.set_cons_succ] at h
      rcases List.mem_cons.mp h with h1 | h1
      · rw [h1]
        exact Or.inl (List.mem_cons_self _ _)
      · rcases ih h1 with h2 | h2
        · exact Or.inl (List.mem_cons_of_mem _ h2)
        · exact Or.inr h2

theorem arrGet_mem {d : List Val} {k : RawKey} {o : Options} {v : Val}
    (h : arrGet d k o = .ok v) : v ∈ d := by
  cases htk : toIntKey k with
  | none => simp [arrGet, htk] at h
  | some i0 =>
    simp only [arrGet, htk] at h
    split at h
    · exact absurd h (by simp)
    · split at h
      · exact absurd h (by simp)
      · split at h
        · rename_i v2 heq
          injection h with h
          subst h
          exact List.get?_mem heq
        · exact absurd h (by simp)

theorem arrAdd_mem {d d' : List Val} {k : RawKey} {v : Val} {o : Options}
    (h : arrAdd d k v o = .ok d') : ∀ x ∈ d', x ∈ d ∨ x = v := by
  rw [arrAdd] at h
  by_cases hm : k = minusKey
  · rw [if_pos hm] at h
    injection h with h
    subst h
    intro x hx
    rcases List.mem_append.mp hx with h1 | h1
    · exact Or.inl h1
    · right
      simpa using h1
  · rw [if_neg hm] at h
    cases htk : toIntKey k with
    | none => simp [htk] at h
    | some i0 =>
      simp only [htk] at h
      split at h
      · exact absurd h (by simp)
      · split at h
        · split at h
          · exact absurd h (by simp)
          · injection h with h
            subst h
            intro x hx
            exact mem_insertAt hx
        · injection h with h
          subst h
          intro x hx
          exact mem_insertAt hx

theorem arrSet_mem {d d' : List Val} {k : RawKey} {v : Val} {o : Options}
    (h : arrSet d k v o = .ok d') : ∀ x ∈ d', x ∈ d ∨ x = v := by
  rw [arrSet] at h
  cases htk : toIntKey k with
  | none => simp [htk] at h
  | some i0 =>
    simp only [htk] at h
    split at h
    · split at h
      · exact absurd h (by simp)
      · injection h with h
        subst h
        intro x hx
        exact mem_of_set hx
    · split at h
      · injection h with h
        subst h
        intro x hx
        exact mem_of_set hx
      · exact absurd h (by simp)

theorem arrRemove_mem {d d' : List Val} {k : RawKey} {o : Options}
    (h : arrRemove d k o = .ok d') : ∀ x ∈ d', x ∈ d := by
  rw [arrRemove] at h
  cases htk : toIntKey k with
  | none => simp [htk] at h
  | some i0 =>
    simp only [htk] at h
    split at h
    · split at h
      · injection h with h
        subst h
        exact fun x hx => hx
      · exact absurd h (by simp)
    · split at h
      · split at h
        · exact absurd h (by simp)
        · split at h
          · split at h
            · injection h with h
              subst h
              exact fun x hx => hx
            · exact absurd h (by simp)
          · injection h with h
            subst h
            exact fun x hx => mem_removeAt hx
      · injection h with h
        subst h
        exact fun x hx => mem_removeAt hx

theorem conSetBack_arr_shape {d : List Val} {k : RawKey} {v c' : Val} {o : Options}
    (h : conSetBack (.arr d) k v o = .ok c') :
    ∃ d', c' = .arr d' ∧ ∀ x ∈ d', x ∈ d ∨ x = v := by
  simp only [conSetBack] at h
  cases htk : toIntKey k with
  | none => simp [htk] at h
  | some i0 =>
    simp only [htk] at h
    split at h
    · split at h
      · exact absurd h (by simp)
      · injection h with h
        exact ⟨_, h.symm, fun x hx => mem_of_set hx⟩
    · injection h with h
      exact ⟨_, h.symm, fun x hx => mem_of_set hx⟩

theorem wfKeys_conGet {c : Val} {k : RawKey} {o : Options} {v : Val}
    (hk : wfKeys c = true) (h : conGet c k o = .ok v) : wfKeys v = true := by
  cases c with
  | other b => simp [conGet] at h
  | map l =>
    simp only [conGet, mapGet] at h
    cases hg : lookupKey l k with
    | none =>
      simp only [hg] at h
      exact absurd h (by simp)
    | some w =>
      simp only [hg] at h
      injection h with h
      rw [← h]
      exact ((wfKeys_map_iff l).mp hk).2 (k, w) (lookupKey_mem hg)
  | arr d =>
    exact (wfKeys_arr_iff d).mp hk v (arrGet_mem h)

theorem wfKeys_conAdd {c v c' : Val} {k : RawKey} {o : Options}
    (hk : wfKeys c = true) (hv : wfKeys v = true)
    (h : conAdd c k v o = .ok c') : wfKeys c' = true := by
  cases c with
  | other b => simp [conAdd] at h
  | map l =>
    simp only [conAdd] at h
    injection h with h
    subst h
    rw [wfKeys_map_iff]
    rcases (wfKeys_map_iff l).mp hk with ⟨hnd, hvals⟩
    refine ⟨mapSet_keys_nodup k v hnd, fun p hp => ?_⟩
    rcases mem_mapSet hp with h1 | h1
    · exact hvals p h1
    · rw [h1]
      exact hv
  | arr d =>
    simp only [conAdd] at h
    cases ha : arrAdd d k v o with
    | error e =>
      rw [ha] at h
      exact absurd h (by simp [Except.map])
    | ok d' =>
      rw [ha] at h
      simp only [Except.map] at h
      injection h with h
      subst h
      rw [wfKeys_arr_iff]
      intro x hx
      rcases arrAdd_mem ha x hx with h1 | h1
      · exact (wfKeys_arr_iff d).mp hk x h1
      · rw [h1]
        exact hv

theorem wfKeys_conSet {c v c' : Val} {k : RawKey} {o : Options}
    (hk : wfKeys c = true) (hv : wfKeys v = true)
    (h : conSet c k v o = .ok c') : wfKeys c' = true := by
  cases c with
  | other b => simp [conSet] at h
  | map l =>
    simp only [conSet] at h
    injection h with h
    subst h
    rw [wfKeys_map_iff]
    rcases (wfKeys_map_iff l).mp hk with ⟨hnd, hvals⟩
    refine ⟨mapSet_keys_nodup k v hnd, fun p hp => ?_⟩
    rcases mem_mapSet hp with h1 | h1
    · exact hvals p h1
    · rw [h1]
      exact hv
  | arr d =>
    simp only [conSet] at h
    cases ha : arrSet d k v o with
    | error e =>
      rw [ha] at h
      exact absurd h (by simp [Except.map])
    | ok d' =>
      rw [ha] at h
      simp only [Except.map] at h
      injection h with h
      subst h
      rw [wfKeys_arr_iff]
      intro x hx
      rcases arrSet_mem ha x hx with h1 | h1
      · exact (wfKeys_arr_iff d).mp hk x h1
      · rw [h1]
        exact hv

theorem wfKeys_conSetBack {c v c' : Val} {k : RawKey} {o : Options}
    (hk : wfKeys c = true) (hv : wfKeys v = true)
    (h : conSetBack c k v o = .ok c') : wfKeys c' = true := by
  cases c with
  | other b => simp [conSetBack] at h
  | map l =>
    simp only [conSetBack] at h
    injection h with h
    subst h
    rw [wfKeys_map_iff]
    rcases (wfKeys_map_iff l).mp hk with ⟨hnd, hvals⟩
    refine ⟨mapSet_keys_nodup k v hnd, fun p hp => ?_⟩
    rcases mem_mapSet hp with h1 | h1
    · exact hvals p h1
    · rw [h1]
      exact hv
  | arr d =>
    rcases conSetBack_arr_shape h with ⟨d', hshape, hmem⟩
    subst hshape
    rw [wfKeys_arr_iff]
    intro x hx
    rcases hmem x hx with h1 | h1
    · exact (wfKeys_arr_iff d).mp hk x h1
    · rw [h1]
      exact hv

theorem wfKeys_conRemove {c c' : Val} {k : RawKey} {o : Options}
    (hk : wfKeys c = true) (h : conRemove c k o = .ok c') : wfKeys c' = true := by
  cases c with
  | other b => simp [conRemove] at h
  | map l =>
    simp only [conRemove, mapRemove] at h
    rcases (wfKeys_map_iff l).mp hk with ⟨hnd, hvals⟩
    cases hg : lookupKey l k with
    | none =>
      simp only [hg] at h
      split at h
      · simp only [Except.map] at h
        injection h with h
        subst h
        exact hk
      · exact absurd h (by simp [Except.map])
    | some w =>
      simp only [hg, Except.map] at h
      injection h with h
      subst h
      rw [wfKeys_map_iff]
      exact ⟨mapDel_keys_nodup k hnd, fun p hp => hvals p (mem_mapDel hp)⟩
  | arr d =>
    simp only [conRemove] at h
    cases ha : arrRemove d k o with
    | error e =>
      rw [ha] at h
      exact absurd h (by simp [Except.map])
    | ok d' =>
      rw [ha] at h
      simp only [Except.map] at h
      injection h with h
      subst h
      rw [wfKeys_arr_iff]
      exact fun x hx => (wfKeys_arr_iff d).mp hk x (arrRemove_mem ha x hx)

/-! ## The walk respects the representation relation -/

theorem resolveParts_rel : ∀ (parts : List RawKey) {c1 c2 : Val}, ValPerm c1 c2 →
    wfKeys c1 = true → ∀ o : Options,
    erel ValPerm (resolveParts c1 parts o) (resolveParts c2 parts o) := by
  intro parts
  induction parts with
  | nil =>
    intro c1 c2 hp hk o
    simp only [resolveParts]
    exact hp
  | cons k rest ih =>
    intro c1 c2 hp hk o
    simp only [resolveParts]
    have hget := conGet_rel hp hk k o
    cases hg1 : conGet c1 k o with
    | error e =>
      rw [hg1] at hget
      cases hg2 : conGet c2 k o with
      | error e2 =>
        simp only [hg1, hg2]
        exact rfl
      | ok w =>
        rw [hg2] at hget
        exact absurd hget (by simp [erel])
    | ok v =>
      rw [hg1] at hget
      cases hg2 : conGet c2 k o with
      | error e2 =>
        rw [hg2] at hget
        exact absurd hget (by simp [erel])
      | ok w =>
        rw [hg2] at hget
        simp only [hg1, hg2]
        have hvw : ValPerm v w := hget
        rw [← valPerm_isContainer hvw]
        by_cases hc : v.isContainer = true
        · simp only [hc, if_true]
          exact ih hvw (wfKeys_conGet hk hg1) o
        · simp only [hc, if_false]
          exact rfl

theorem wfKeys_resolveParts : ∀ (parts : List RawKey) {c v : Val} {o : Options},
    wfKeys c = true → resolveParts c parts o = .ok v → wfKeys v = true := by
  intro parts
  induction parts with
  | nil =>
    intro c v o hk h
    rw [resolveParts] at h
    injection h with h
    rw [← h]
    exact hk
  | cons k rest ih =>
    intro c v o hk h
    rw [resolveParts] at h
    cases hg : conGet c k o with
    | error e =>
      simp only [hg] at h
      exact absurd h (by simp)
    | ok child =>
      simp only [hg] at h
      by_cases hc : child.isContainer = true
      · rw [if_pos hc] at h
        exact ih (wfKeys_conGet hk hg) h
      · rw [if_neg hc] at h
        exact absurd h (by simp)

theorem getPath_rel (path : List RawKey) {c1 c2 : Val} (hp : ValPerm c1 c2)
    (hk : wfKeys c1 = true) (o : Options) :
    erel ValPerm (getPath c1 path o) (getPath c2 path o) := by
  simp only [getPath]
  cases hl : path.getLast? with
  | none =>
    simp only [hl]
    exact rfl
  | some key =>
    simp only [hl]
    have hres := resolveParts_rel path.dropLast hp hk o
    cases hr1 : resolveParts c1 path.dropLast o with
    | error e =>
      rw [hr1] at hres
      cases hr2 : resolveParts c2 path.dropLast o with
      | error e2 =>
        rw [hr2] at hres
        simp only [hr1, hr2]
        exact hres
      | ok w =>
        rw [hr2] at hres
        exact absurd hres (by simp [erel])
    | ok v =>
      rw [hr1] at hres
      cases hr2 : resolveParts c2 path.dropLast o with
      | error e2 =>
        rw [hr2] at hres
        exact absurd hres (by simp [erel])
      | ok w =>
        rw [hr2] at hres
        simp only [hr1, hr2]
        exact conGet_rel hres (wfKeys_resolveParts path.dropLast hk hr1) key o

theorem wfKeys_getPath {path : List RawKey} {c v : Val} {o : Options}
    (hk : wfKeys c = true) (h : getPath c path o = .ok v) : wfKeys v = true := by
  rw [getPath] at h
  cases hl : path.getLast? with
  | none =>
    simp only [hl] at h
    exact absurd h (by simp)
  | some key =>
    simp only [hl] at h
    cases hr : resolveParts c path.dropLast o with
    | error e =>
      simp only [hr] at h
      exact absurd h (by simp)
    | ok con =>
      simp only [hr] at h
      exact wfKeys_conGet (wfKeys_resolveParts path.dropLast hk hr) h

theorem resolveMut_rel : ∀ (parts : List RawKey) {c1 c2 : Val}, ValPerm c1 c2 →
    wfKeys c1 = true → ∀ (o : Options) (f1 f2 : Val → Except PErr Val),
    (∀ a b : Val, ValPerm a b → wfKeys a = true → erel ValPerm (f1 a) (f2 b)) →
    erel ValPerm (resolveMut c1 parts o f1) (resolveMut c2 parts o f2) := by
  intro parts
  induction parts with
  | nil =>
    intro c1 c2 hp hk o f1 f2 hf
    simp only [resolveMut]
    exact hf c1 c2 hp hk
  | cons k rest ih =>
    intro c1 c2 hp hk o f1 f2 hf
    simp only [resolveMut]
    have hget := conGet_rel hp hk k o
    cases hg1 : conGet c1 k o with
    | error e =>
      rw [hg1] at hget
      cases hg2 : conGet c2 k o with
      | error e2 =>
        simp only [hg1, hg2]
        exact rfl
      | ok w =>
        rw [hg2] at hget
        exact absurd hget (by simp [erel])
    | ok v =>
      rw [hg1] at hget
      cases hg2 : conGet c2 k o with
      | error e2 =>
        rw [hg2] at hget
        exact absurd hget (by simp [erel])
      | ok w =>
        rw [hg2] at hget
        simp only [hg1, hg2]
        have hvw : ValPerm v w := hget
        rw [← valPerm_isContainer hvw]
        by_cases hc : v.isContainer = true
        · simp only [hc, if_true]
          have hrec := ih hvw (wfKeys_conGet hk hg1) o f1 f2 hf
          cases hm1 : resolveMut v rest o f1 with
          | error e =>
            rw [hm1] at hrec
            cases hm2 : resolveMut w rest o f2 with
            | error e2 =>
              rw [hm2] at hrec
              simp only [hm1, hm2]
              exact hrec
            | ok w2 =>
              rw [hm2] at hrec
              exact absurd hrec (by simp [erel])
          | ok v2 =>
            rw [hm1] at hrec
            cases hm2 : resolveMut w rest o f2 with
            | error e2 =>
              rw [hm2] at hrec
              exact absurd hrec (by simp [erel])
            | ok w2 =>
              rw [hm2] at hrec
              simp only [hm1, hm2]
              exact conSetBack_rel hp hk k hrec o
        · simp only [hc, if_false]
          exact rfl

theorem wfKeys_resolveMut : ∀ (parts : List RawKey) {c c' : Val} {o : Options}
    {f : Val → Except PErr Val},
    (∀ a b : Val, wfKeys a = true → f a = .ok b → wfKeys b = true) →
    wfKeys c = true → resolveMut c parts o f = .ok c' → wfKeys c' = true := by
  intro parts
  induction parts with
  | nil =>
    intro c c' o f hf hk h
    rw [resolveMut] at h
    exact hf c c' hk h
  | cons k rest ih =>
    intro c c' o f hf hk h
    rw [resolveMut] at h
    cases hg : conGet c k o with
    | error e =>
      simp only [hg] at h
      exact absurd h (by simp)
    | ok child =>
      simp only [hg] at h
      by_cases hc : child.isContainer = true
      · rw [if_pos hc] at h
        cases hm : resolveMut child rest o f with
        | error e =>
          simp only [hm] at h
          exact absurd h (by simp)
        | ok child2 =>
          simp only [hm] at h
          exact wfKeys_conSetBack hk (ih hf (wfKeys_conGet hk hg) hm) h
      · rw [if_neg hc] at h
        exact absurd h (by simp)

theorem wfKeys_nullVal : wfKeys nullVal = true := by
  rw [nullVal, wfKeys]

theorem valPermList_refl (xs : List Val) : ValPermList xs xs :=
  valPermList_refl_of xs (fun x _ => valPerm_refl x)

theorem wfKeys_replicate (n : Nat) :
    wfKeys (.arr (List.replicate n nullVal)) = true := by
  rw [wfKeys_arr_iff]
  intro x hx
  rw [List.eq_of_mem_replicate hx]
  exact wfKeys_nullVal

theorem padArray_rel {c1 c2 : Val} (hp : ValPerm c1 c2) (k : RawKey) :
    erel ValPerm (padArray c1 k) (padArray c2 k) := by
  cases hp with
  | other b =>
    simp only [padArray]
    exact ValPerm.other b
  | map hpl hel =>
    simp only [padArray]
    exact ValPerm.map hpl hel
  | arr hl =>
    rename_i xs ys
    simp only [padArray]
    by_cases hik : isIndexKeyB k = true
    · simp only [hik, if_true]
      cases htk : toIntKey k with
      | none => exact rfl
      | some ai =>
        simp only [htk]
        rw [← valPermList_length hl]
        by_cases hge : (ai : Int) ≥ (xs.length : Int) + 1
        · simp only [hge, if_true]
          exact ValPerm.arr (valPermList_append hl (valPermList_refl _))
        · simp only [hge, if_false]
          exact ValPerm.arr hl
    · simp only [hik, if_false]
      exact ValPerm.arr hl

theorem wfKeys_padArray {c c' : Val} {k : RawKey} (hk : wfKeys c = true)
    (h : padArray c k = .ok c') : wfKeys c' = true := by
  cases c with
  | other b =>
    simp only [padArray] at h
    injection h with h
    rw [← h]
    exact hk
  | map l =>
    simp only [padArray] at h
    injection h with h
    rw [← h]
    exact hk
  | arr d =>
    rw [padArray] at h
    by_cases hik : isIndexKeyB k = true
    · rw [if_pos hik] at h
      cases htk : toIntKey k with
      | none =>
        simp only [htk] at h
        exact absurd h (by simp)
      | some ai =>
        simp only [htk] at h
        by_cases hge : (ai : Int) ≥ (d.length : Int) + 1
        · rw [if_pos hge] at h
          injection h with h
          rw [← h]
          rw [wfKeys_arr_iff]
          intro x hx
          rcases List.mem_append.mp hx with h1 | h1
          · exact (wfKeys_arr_iff d).mp hk x h1
          · rw [List.eq_of_mem_replicate h1]
            exact wfKeys_nullVal
        · rw [if_neg hge] at h
          injection h with h
          rw [← h]
          exact hk
    · rw [if_neg hik] at h
      injection h with h
      rw [← h]
      exact hk

theorem ensureAux_rel : ∀ (path : List RawKey) {c1 c2 : Val}, ValPerm c1 c2 →
    wfKeys c1 = true → ∀ o : Options,
    erel ValPerm (ensureAux c1 path o) (ensureAux c2 path o) := by
  intro path
  induction path with
  | nil =>
    intro c1 c2 hp hk o
    simp only [ensureAux]
    exact hp
  | cons k tail ih =>
    intro c1 c2 hp hk o
    cases tail with
    | nil =>
      simp only [ensureAux]
      exact hp
    | cons k2 rest =>
      simp only [ensureAux]
      have hget := conGet_rel hp hk k o
      cases hg1 : conGet c1 k o with
      | error e =>
        rw [hg1] at hget
        cases hg2 : conGet c2 k o with
        | ok w =>
          rw [hg2] at hget
          exact absurd hget (by simp [erel])
        | error e2 =>
          simp only [hg1, hg2]
          have hpad := padArray_rel hp k
          cases hp1 : padArray c1 k with
          | error ep =>
            rw [hp1] at hpad
            cases hp2 : padArray c2 k with
            | error ep2 =>
              rw [hp2] at hpad
              simp only [hp1, hp2]
              exact hpad
            | ok w2 =>
              rw [hp2] at hpad
              exact absurd hpad (by simp [erel])
          | ok doc1 =>
            rw [hp1] at hpad
            cases hp2 : padArray c2 k with
            | error ep2 =>
              rw [hp2] at hpad
              exact absurd hpad (by simp [erel])
            | ok doc2 =>
              rw [hp2] at hpad
              simp only [hp1, hp2]
              have hkd1 : wfKeys doc1 = true := wfKeys_padArray hk hp1
              by_cases hik : isIndexKeyB k2 = true
              · simp only [hik, if_true]
                cases htk : toIntKey k2 with
                | none => exact rfl
                | some ai =>
                  simp only [htk]
                  cases hidx : (if ai < 0 then
                      if ¬o.supportNegativeIndices then
                        (Except.error PErr.invalidIndex : Except PErr Nat)
                      else if ai < -1 then Except.error PErr.invalidIndex
                      else Except.ok 0
                    else Except.ok ai.toNat) with
                  | error e3 =>
                    simp only [hidx]
                    exact rfl
                  | ok n =>
                    simp only [hidx]
                    cases hch : ensureAux (.arr (List.replicate n nullVal))
                        (k2 :: rest) o with
                    | error e4 =>
                      simp only [hch]
                      exact rfl
                    | ok child =>
                      simp only [hch]
                      exact conAdd_rel hpad hkd1 k (valPerm_refl child) o
              · simp only [hik, if_false]
                cases hch : ensureAux (.map []) (k2 :: rest) o with
                | error e4 =>
                  simp only [hch]
                  exact rfl
                | ok child =>
                  simp only [hch]
                  exact conAdd_rel hpad hkd1 k (valPerm_refl child) o
      | ok target =>
        rw [hg1] at hget
        cases hg2 : conGet c2 k o with
        | error e2 =>
          rw [hg2] at hget
          exact absurd hget (by simp [erel])
        | ok target2 =>
          rw [hg2] at hget
          simp only [hg1, hg2]
          have htv : ValPerm target target2 := hget
          rw [← valPerm_isContainer htv]
          by_cases hc : target.isContainer = true
          · simp only [hc, if_true]
            have hrec := ih htv (wfKeys_conGet hk hg1) o
            cases he1 : ensureAux target (k2 :: rest) o with
            | error e3 =>
              rw [he1] at hrec
              cases he2 : ensureAux target2 (k2 :: rest) o with
              | error e4 =>
                rw [he2] at hrec
                simp only [he1, he2]
                exact hrec
              | ok w2 =>
                rw [he2] at hrec
                exact absurd hrec (by simp [erel])
            | ok t1 =>
              rw [he1] at hrec
              cases he2 : ensureAux target2 (k2 :: rest) o with
              | error e4 =>
                rw [he2] at hrec
                exact absurd hrec (by simp [erel])
              | ok t2 =>
                rw [he2] at hrec
                simp only [he1, he2]
                exact conSetBack_rel hp hk k hrec o
          · simp only [hc, if_false]
            exact rfl

theorem wfKeys_ensureAux : ∀ (path : List RawKey) {c c' : Val} {o : Options},
    wfKeys c = true → ensureAux c path o = .ok c' → wfKeys c' = true := by
  intro path
  induction path with
  | nil =>
    intro c c' o hk h
    rw [ensureAux] at h
    injection h with h
    rw [← h]
    exact hk
  | cons k tail ih =>
    intro c c' o hk h
    cases tail with
    | nil =>
      rw [ensureAux] at h
      injection h with h
      rw [← h]
      exact hk
    | cons k2 rest =>
      rw [ensureAux] at h
      cases hg : conGet c k o with
      | ok target =>
        simp only [hg] at h
        by_cases hc : target.isContainer = true
        · rw [if_pos hc] at h
          cases he : ensureAux target (k2 :: rest) o with
          | error e3 =>
            simp only [he] at h
            exact absurd h (by simp)
          | ok t1 =>
            simp only [he] at h
            exact wfKeys_conSetBack hk (ih (wfKeys_conGet hk hg) he) h
        · rw [if_neg hc] at h
          exact absurd h (by simp)
      | error e =>
        simp only [hg] at h
        cases hpd : padArray c k with
        | error ep =>
          simp only [hpd] at h
          exact absurd h (by simp)
        | ok doc1 =>
          simp only [hpd] at h
          have hkd1 : wfKeys doc1 = true := wfKeys_padArray hk hpd
          by_cases hik : isIndexKeyB k2 = true
          · rw [if_pos hik] at h
            cases htk : toIntKey k2 with
            | none =>
              simp only [htk] at h
              exact absurd h (by simp)
            | some ai =>
              simp only [htk] at h
              split at h
              · exact absurd h (by simp)
              · rename_i n hn
                cases hch : ensureAux (.arr (List.replicate n nullVal))
                    (k2 :: rest) o with
                | error e4 =>
                  simp only [hch] at h
                  exact absurd h (by simp)
                | ok child =>
                  simp only [hch] at h
                  exact wfKeys_conAdd hkd1 (ih (wfKeys_replicate _) hch) h
          · rw [if_neg hik] at h
            cases hch : ensureAux (.map []) (k2 :: rest) o with
            | error e4 =>
              simp only [hch] at h
              exact absurd h (by simp)
            | ok child =>
              simp only [hch] at h
              have hkm : wfKeys (.map ([] : List (RawKey × Val))) = true := by
                rw [wfKeys_map_iff]
                simp
              exact wfKeys_conAdd hkd1 (ih hkm hch) h

/-! ## The operations respect the representation relation -/

theorem valOfOpt_rel {vo1 vo2 : Option Val} (h : orel ValPerm vo1 vo2) :
    ValPerm (valOfOpt vo1) (valOfOpt vo2) := by
  cases vo1 with
  | none =>
    cases vo2 with
    | none => exact valPerm_refl _
    | some w => exact absurd h (by simp [orel])
  | some v =>
    cases vo2 with
    | none => exact absurd h (by simp [orel])
    | some w => exact h

theorem optIsNull_rel {vo1 vo2 : Option Val} (h : orel ValPerm vo1 vo2) :
    optIsNull vo1 = optIsNull vo2 := by
  cases vo1 with
  | none =>
    cases vo2 with
    | none => rfl
    | some w => exact absurd h (by simp [orel])
  | some v =>
    cases vo2 with
    | none => exact absurd h (by simp [orel])
    | some w =>
      simp only [optIsNull]
      exact valPerm_isNull h

theorem orel_isNone {vo1 vo2 : Option Val} (h : orel ValPerm vo1 vo2) :
    vo1.isNone = vo2.isNone := by
  cases vo1 with
  | none =>
    cases vo2 with
    | none => rfl
    | some w => exact absurd h (by simp [orel])
  | some v =>
    cases vo2 with
    | none => exact absurd h (by simp [orel])
    | some w => rfl

theorem wfKeys_valOfOpt {vo : Option Val}
    (h : ∀ v, vo = some v → wfKeys v = true) : wfKeys (valOfOpt vo) = true := by
  cases vo with
  | none => exact wfKeys_nullVal
  | some v => exact h v rfl

theorem opAdd_rel {r1 r2 : Val} (hp : ValPerm r1 r2) (hk : wfKeys r1 = true)
    (path : List RawKey) {v w : Val} (hvw : ValPerm v w) (o : Options) :
    erel ValPerm (opAdd r1 path v o) (opAdd r2 path w o) := by
  have hrun : ∀ a b : Val, ValPerm a b → wfKeys a = true →
      erel ValPerm
        (match path.getLast? with
         | none => .error .missing
         | some key => resolveMut a path.dropLast o (fun con => conAdd con key v o))
        (match path.getLast? with
         | none => .error .missing
         | some key => resolveMut b path.dropLast o (fun con => conAdd con key w o)) := by
    intro a b hab hka
    cases hl : path.getLast? with
    | none => exact rfl
    | some key =>
      exact resolveMut_rel path.dropLast hab hka o _ _
        (fun x y hxy hkx => conAdd_rel hxy hkx key hvw o)
  simp only [opAdd]
  by_cases hens : o.ensurePathExistsOnAdd = true
  · simp only [hens, if_true]
    have hea := ensureAux_rel path hp hk o
    cases he1 : ensureAux r1 path o with
    | error e =>
      rw [he1] at hea
      cases he2 : ensureAux r2 path o with
      | error e2 =>
        rw [he2] at hea
        simp only [he1, he2]
        exact hea
      | ok b =>
        rw [he2] at hea
        exact absurd hea (by simp [erel])
    | ok a =>
      rw [he1] at hea
      cases he2 : ensureAux r2 path o with
      | error e2 =>
        rw [he2] at hea
        exact absurd hea (by simp [erel])
      | ok b =>
        rw [he2] at hea
        simp only [he1, he2]
        exact hrun a b hea (wfKeys_ensureAux path hk he1)
  · simp only [hens, if_false]
    exact hrun r1 r2 hp hk

theorem wfKeys_opAdd {r r' v : Val} {path : List RawKey} {o : Options}
    (hk : wfKeys r = true) (hkv : wfKeys v = true)
    (h : opAdd r path v o = .ok r') : wfKeys r' = true := by
  have hrun : ∀ a : Val, wfKeys a = true →
      (match path.getLast? with
       | none => (.error .missing : Except PErr Val)
       | some key => resolveMut a path.dropLast o (fun con => conAdd con key v o)) =
        .ok r' → wfKeys r' = true := by
    intro a hka hh
    cases hl : path.getLast? with
    | none =>
      simp only [hl] at hh
      exact absurd hh (by simp)
    | some key =>
      simp only [hl] at hh
      exact wfKeys_resolveMut path.dropLast
        (fun x y hkx hxy => wfKeys_conAdd hkx hkv hxy) hka hh
  rw [opAdd] at h
  by_cases hens : o.ensurePathExistsOnAdd = true
  · rw [if_pos hens] at h
    cases he : ensureAux r path o with
    | error e =>
      simp only [he] at h
      exact absurd h (by simp)
    | ok a =>
      simp only [he] at h
      exact hrun a (wfKeys_ensureAux path hk he) h
  · rw [if_neg hens] at h
    exact hrun r hk h

theorem opRemove_rel {r1 r2 : Val} (hp : ValPerm r1 r2) (hk : wfKeys r1 = true)
    (path : List RawKey) (o : Options) :
    erel ValPerm (opRemove r1 path o) (opRemove r2 path o) := by
  simp only [opRemove]
  cases hl : path.getLast? with
  | none =>
    by_cases hmiss : o.allowMissingPathOnRemove = true
    · simp only [hmiss, if_true]
      exact hp
    · simp only [hmiss, if_false]
      exact rfl
  | some key =>
    have hres := resolveParts_rel path.dropLast hp hk o
    cases hr1 : resolveParts r1 path.dropLast o with
    | error e =>
      rw [hr1] at hres
      cases hr2 : resolveParts r2 path.dropLast o with
      | error e2 =>
        simp only [hr1, hr2]
        by_cases hmiss : o.allowMissingPathOnRemove = true
        · simp only [hmiss, if_true]
          exact hp
        · simp only [hmiss, if_false]
          exact rfl
      | ok w =>
        rw [hr2] at hres
        exact absurd hres (by simp [erel])
    | ok con1 =>
      rw [hr1] at hres
      cases hr2 : resolveParts r2 path.dropLast o with
      | error e2 =>
        rw [hr2] at hres
        exact absurd hres (by simp [erel])
      | ok con2 =>
        rw [hr2] at hres
        simp only [hr1, hr2]
        have hkc1 : wfKeys con1 = true := wfKeys_resolveParts path.dropLast hk hr1
        have hrem := conRemove_rel hres hkc1 key o
        cases hc1 : conRemove con1 key o with
        | error e =>
          rw [hc1] at hrem
          cases hc2 : conRemove con2 key o with
          | error e2 =>
            rw [hc2] at hrem
            simp only [hc1, hc2]
            exact hrem
          | ok w =>
            rw [hc2] at hrem
            exact absurd hrem (by simp [erel])
        | ok con1r =>
          rw [hc1] at hrem
          cases hc2 : conRemove con2 key o with
          | error e2 =>
            rw [hc2] at hrem
            exact absurd hrem (by simp [erel])
          | ok con2r =>
            rw [hc2] at hrem
            simp only [hc1, hc2]
            rw [writeBack, writeBack]
            exact resolveMut_rel path.dropLast hp hk o _ _
              (fun x y hxy hkx => hrem)

theorem wfKeys_opRemove {r r' : Val} {path : List RawKey} {o : Options}
    (hk : wfKeys r = true) (h : opRemove r path o = .ok r') : wfKeys r' = true := by
  rw [opRemove] at h
  cases hl : path.getLast? with
  | none =>
    simp only [hl] at h
    split at h
    · injection h with h
      rw [← h]
      exact hk
    · exact absurd h (by simp)
  | some key =>
    simp only [hl] at h
    cases hr : resolveParts r path.dropLast o with
    | error e =>
      simp only [hr] at h
      split at h
      · injection h with h
        rw [← h]
        exact hk
      · exact absurd h (by simp)
    | ok con =>
      simp only [hr] at h
      cases hc : conRemove con key o with
      | error e =>
        simp only [hc] at h
        exact absurd h (by simp)
      | ok con' =>
        simp only [hc] at h
        rw [writeBack] at h
        have hkc : wfKeys con' = true :=
          wfKeys_conRemove (wfKeys_resolveParts path.dropLast hk hr) hc
        refine wfKeys_resolveMut path.dropLast ?_ hk h
        intro x y _ hxy
        injection hxy with hxy
        rw [← hxy]
        exact hkc

theorem opReplace_rel {r1 r2 : Val} (hp : ValPerm r1 r2) (hk : wfKeys r1 = true)
    (path : List RawKey) {vo1 vo2 : Option Val} (hvo : orel ValPerm vo1 vo2)
    (o : Options) :
    erel ValPerm (opReplace r1 path vo1 o) (opReplace r2 path vo2 o) := by
  simp only [opReplace]
  by_cases hemp : path.isEmpty = true
  · simp only [hemp, if_true]
    have hvv := valOfOpt_rel hvo
    generalize hA : valOfOpt vo1 = A at hvv ⊢
    generalize hB : valOfOpt vo2 = B at hvv ⊢
    cases hvv with
    | other b => exact rfl
    | arr hl => exact ValPerm.arr hl
    | map hpl hel => exact ValPerm.map hpl hel
  · simp only [hemp, if_false]
    cases hl : path.getLast? with
    | none => exact rfl
    | some key =>
      refine resolveMut_rel path.dropLast hp hk o _ _ ?_
      intro x y hxy hkx
      have hg := conGet_rel hxy hkx key o
      cases hg1 : conGet x key o with
      | error e =>
        rw [hg1] at hg
        cases hg2 : conGet y key o with
        | error e2 =>
          simp only [hg1, hg2]
          exact rfl
        | ok w =>
          rw [hg2] at hg
          exact absurd hg (by simp [erel])
      | ok v1 =>
        rw [hg1] at hg
        cases hg2 : conGet y key o with
        | error e2 =>
          rw [hg2] at hg
          exact absurd hg (by simp [erel])
        | ok w1 =>
          simp only [hg1, hg2]
          exact conSet_rel hxy hkx key (valOfOpt_rel hvo) o

theorem wfKeys_opReplace {r r' : Val} {path : List RawKey} {vo : Option Val}
    {o : Options} (hk : wfKeys r = true) (hkv : wfKeys (valOfOpt vo) = true)
    (h : opReplace r path vo o = .ok r') : wfKeys r' = true := by
  rw [opReplace] at h
  by_cases hemp : path.isEmpty = true
  · rw [if_pos hemp] at h
    cases hvv : valOfOpt vo with
    | other b =>
      simp only [hvv] at h
      exact absurd h (by simp)
    | map l =>
      simp only [hvv] at h
      injection h with h
      rw [← h, ← hvv]
      exact hkv
    | arr d =>
      simp only [hvv] at h
      injection h with h
      rw [← h, ← hvv]
      exact hkv
  · rw [if_neg hemp] at h
    cases hl : path.getLast? with
    | none =>
      simp only [hl] at h
      exact absurd h (by simp)
    | some key =>
      simp only [hl] at h
      refine wfKeys_resolveMut path.dropLast ?_ hk h
      intro x y hkx hxy
      cases hg : conGet x key o with
      | error e =>
        simp only [hg] at hxy
        exact absurd hxy (by simp)
      | ok v1 =>
        simp only [hg] at hxy
        exact wfKeys_conSet hkx hkv hxy

theorem opMove_rel {r1 r2 : Val} (hp : ValPerm r1 r2) (hk : wfKeys r1 = true)
    (fromP path : List RawKey) (o : Options) :
    erel ValPerm (opMove r1 fromP path o) (opMove r2 fromP path o) := by
  simp only [opMove]
  have hgp := getPath_rel fromP hp hk o
  cases hv1 : getPath r1 fromP o with
  | error e =>
    rw [hv1] at hgp
    cases hv2 : getPath r2 fromP o with
    | error e2 =>
      rw [hv2] at hgp
      simp only [hv1, hv2]
      exact hgp
    | ok w =>
      rw [hv2] at hgp
      exact absurd hgp (by simp [erel])
  | ok v =>
    rw [hv1] at hgp
    cases hv2 : getPath r2 fromP o with
    | error e2 =>
      rw [hv2] at hgp
      exact absurd hgp (by simp [erel])
    | ok w =>
      rw [hv2] at hgp
      simp only [hv1, hv2]
      cases hfl : fromP.getLast? with
      | none => exact rfl
      | some fkey =>
        have hrem := resolveMut_rel fromP.dropLast hp hk o _ _
          (fun x y hxy hkx => conRemove_rel hxy hkx fkey o)
        cases hm1 : resolveMut r1 fromP.dropLast o (fun con => conRemove con fkey o) with
        | error e =>
          rw [hm1] at hrem
          cases hm2 : resolveMut r2 fromP.dropLast o
              (fun con => conRemove con fkey o) with
          | error e2 =>
            rw [hm2] at hrem
            simp only [hm1, hm2]
            exact hrem
          | ok b2 =>
            rw [hm2] at hrem
            exact absurd hrem (by simp [erel])
        | ok root1 =>
          rw [hm1] at hrem
          cases hm2 : resolveMut r2 fromP.dropLast o
              (fun con => conRemove con fkey o) with
          | error e2 =>
            rw [hm2] at hrem
            exact absurd hrem (by simp [erel])
          | ok root2 =>
            rw [hm2] at hrem
            simp only [hm1, hm2]
            cases hpl : path.getLast? with
            | none => exact rfl
            | some key =>
              have hkr1 : wfKeys root1 = true :=
                wfKeys_resolveMut fromP.dropLast
                  (fun x y hkx hxy => wfKeys_conRemove hkx hxy) hk hm1
              exact resolveMut_rel path.dropLast hrem hkr1 o _ _
                (fun x y hxy hkx => conAdd_rel hxy hkx key hgp o)

theorem wfKeys_opMove {r r' : Val} {fromP path : List RawKey} {o : Options}
    (hk : wfKeys r = true) (h : opMove r fromP path o = .ok r') :
    wfKeys r' = true := by
  rw [opMove] at h
  cases hv : getPath r fromP o with
  | error e =>
    simp only [hv] at h
    exact absurd h (by simp)
  | ok v =>
    simp only [hv] at h
    cases hfl : fromP.getLast? with
    | none =>
      simp only [hfl] at h
      exact absurd h (by simp)
    | some fkey =>
      simp only [hfl] at h
      cases hm : resolveMut r fromP.dropLast o (fun con => conRemove con fkey o) with
      | error e =>
        simp only [hm] at h
        exact absurd h (by simp)
      | ok root1 =>
        simp only [hm] at h
        cases hpl : path.getLast? with
        | none =>
          simp only [hpl] at h
          exact absurd h (by simp)
        | some key =>
          simp only [hpl] at h
          have hkr1 : wfKeys root1 = true :=
            wfKeys_resolveMut fromP.dropLast
              (fun x y hkx hxy => wfKeys_conRemove hkx hxy) hk hm
          have hkv : wfKeys v = true := wfKeys_getPath hk hv
          exact wfKeys_resolveMut path.dropLast
            (fun x y hkx hxy => wfKeys_conAdd hkx hkv hxy) hkr1 h

theorem opTest_rel {r1 r2 : Val} (hp : ValPerm r1 r2) (hk : wfKeys r1 = true)
    (path : List RawKey) {vo1 vo2 : Option Val} (hvo : orel ValPerm vo1 vo2)
    (hkvo : wfKeys (valOfOpt vo1) = true) (o : Options) :
    erel (fun _ _ => True) (opTest r1 path vo1 o) (opTest r2 path vo2 o) := by
  simp only [opTest]
  by_cases hemp : path.isEmpty = true
  · simp only [hemp, if_true]
    rw [valEqual_perm r1 hk (valOfOpt vo1) hkvo r2 (valOfOpt vo2) hp
      (valOfOpt_rel hvo)]
    by_cases he : valEqual r2 (valOfOpt vo2) = true
    · simp only [he, if_true]
      exact trivial
    · simp only [he, if_false]
      exact rfl
  · simp only [hemp, if_false]
    cases hl : path.getLast? with
    | none => exact rfl
    | some key =>
      have hres := resolveParts_rel path.dropLast hp hk o
      cases hr1 : resolveParts r1 path.dropLast o with
      | error e =>
        rw [hr1] at hres
        cases hr2 : resolveParts r2 path.dropLast o with
        | error e2 =>
          simp only [hr1, hr2]
          exact rfl
        | ok w =>
          rw [hr2] at hres
          exact absurd hres (by simp [erel])
      | ok con1 =>
        rw [hr1] at hres
        cases hr2 : resolveParts r2 path.dropLast o with
        | error e2 =>
          rw [hr2] at hres
          exact absurd hres (by simp [erel])
        | ok con2 =>
          rw [hr2] at hres
          simp only [hr1, hr2]
          have hkc1 : wfKeys con1 = true :=
            wfKeys_resolveParts path.dropLast hk hr1
          have hget := conGet_rel hres hkc1 key o
          cases hg1 : conGet con1 key o with
          | error e =>
            rw [hg1] at hget
            cases hg2 : conGet con2 key o with
            | ok w =>
              rw [hg2] at hget
              exact absurd hget (by simp [erel])
            | error e2 =>
              rw [hg2] at hget
              have he : e = e2 := hget
              subst he
              cases e with
              | missing =>
                rw [optIsNull_rel hvo]
                by_cases hn : optIsNull vo2 = true
                · simp [hn, erel]
                · simp [hn, erel]
              | invalidIndex => exact rfl
              | keyErr => exact rfl
              | unexpectedNode => exact rfl
              | impossibleCase => exact rfl
              | invalidOperation => exact rfl
              | testFailed => exact rfl
              | panicked => exact rfl
              | copySizeExceeded a b => exact rfl
          | ok v1 =>
            rw [hg1] at hget
            cases hg2 : conGet con2 key o with
            | error e2 =>
              rw [hg2] at hget
              exact absurd hget (by simp [erel])
            | ok v2 =>
              rw [hg2] at hget
              have hkv1 : wfKeys v1 = true := wfKeys_conGet hkc1 hg1
              have hnull := valPerm_isNull hget
              by_cases hn : v1.isNull = true
              · have hn2 : v2.isNull = true := by rw [← hnull]; exact hn
                rw [optIsNull_rel hvo]
                by_cases ho2 : optIsNull vo2 = true
                · simp [hn, hn2, ho2, erel]
                · simp [hn, hn2, ho2, erel]
              · have hn2 : v2.isNull = false := by
                  rw [← hnull]
                  cases hb : v1.isNull
                  · rfl
                  · exact absurd hb hn
                cases vo1 with
                | none =>
                  cases vo2 with
                  | none => simp [hn, hn2, erel]
                  | some w2 => exact absurd hvo (by simp [orel])
                | some w1 =>
                  cases vo2 with
                  | none => exact absurd hvo (by simp [orel])
                  | some w2 =>
                    have hw : ValPerm w1 w2 := hvo
                    have heq := valEqual_perm v1 hkv1 w1 hkvo v2 w2 hget hw
                    by_cases he2 : valEqual v2 w2 = true
                    · have he1 : valEqual v1 w1 = true := by
                        rw [heq]
                        exact he2
                      simp [hn, hn2, he1, he2, erel]
                    · have he1 : valEqual v1 w1 = false := by
                        rw [heq]
                        cases hb : valEqual v2 w2
                        · rfl
                        · exact absurd hb he2
                      simp [hn, hn2, he1, he2, erel]

theorem opCopy_rel {r1 r2 : Val} (hp : ValPerm r1 r2) (hk : wfKeys r1 = true)
    (fromP path : List RawKey) (acc : Int) (o : Options) :
    erel (fun a b => ValPerm a.1 b.1 ∧ a.2 = b.2)
      (opCopy r1 fromP path acc o) (opCopy r2 fromP path acc o) := by
  simp only [opCopy]
  have hgp := getPath_rel fromP hp hk o
  cases hv1 : getPath r1 fromP o with
  | error e =>
    rw [hv1] at hgp
    cases hv2 : getPath r2 fromP o with
    | error e2 =>
      rw [hv2] at hgp
      simp only [hv1, hv2]
      exact hgp
    | ok w =>
      rw [hv2] at hgp
      exact absurd hgp (by simp [erel])
  | ok v =>
    rw [hv1] at hgp
    cases hv2 : getPath r2 fromP o with
    | error e2 =>
      rw [hv2] at hgp
      exact absurd hgp (by simp [erel])
    | ok w =>
      rw [hv2] at hgp
      simp only [hv1, hv2]
      cases hpl : path.getLast? with
      | none => exact rfl
      | some key =>
        have hres := resolveParts_rel path.dropLast hp hk o
        cases hr1 : resolveParts r1 path.dropLast o with
        | error e =>
          rw [hr1] at hres
          cases hr2 : resolveParts r2 path.dropLast o with
          | error e2 =>
            simp only [hr1, hr2]
            exact rfl
          | ok c2 =>
            rw [hr2] at hres
            exact absurd hres (by simp [erel])
        | ok c1 =>
          rw [hr1] at hres
          cases hr2 : resolveParts r2 path.dropLast o with
          | error e2 =>
            rw [hr2] at hres
            exact absurd hres (by simp [erel])
          | ok c2 =>
            simp only [hr1, hr2]
            have hsz : marshalVal v = marshalVal w :=
              marshal_valPerm v (wfKeys_getPath hk hv1) w hgp
            rw [← hsz]
            by_cases hlim : o.accumulatedCopySizeLimit > 0 ∧
                acc + ((marshalVal v).length : Int) > o.accumulatedCopySizeLimit
            · simp only [hlim, if_true]
              exact rfl
            · simp only [hlim, if_false]
              have hmut := resolveMut_rel path.dropLast hp hk o _ _
                (fun x y hxy hkx => conAdd_rel hxy hkx key hgp o)
              cases hm1 : resolveMut r1 path.dropLast o
                  (fun con => conAdd con key v o) with
              | error e =>
                rw [hm1] at hmut
                cases hm2 : resolveMut r2 path.dropLast o
                    (fun con => conAdd con key w o) with
                | error e2 =>
                  rw [hm2] at hmut
                  simp only [hm1, hm2, Except.map]
                  exact hmut
                | ok b2 =>
                  rw [hm2] at hmut
                  exact absurd hmut (by simp [erel])
              | ok a1 =>
                rw [hm1] at hmut
                cases hm2 : resolveMut r2 path.dropLast o
                    (fun con => conAdd con key w o) with
                | error e2 =>
                  rw [hm2] at hmut
                  exact absurd hmut (by simp [erel])
                | ok b2 =>
                  rw [hm2] at hmut
                  simp only [hm1, hm2, Except.map]
                  exact ⟨hmut, rfl⟩

theorem wfKeys_opCopy {r : Val} {fromP path : List RawKey} {acc : Int}
    {o : Options} {ra : Val × Int} (hk : wfKeys r = true)
    (h : opCopy r fromP path acc o = .ok ra) : wfKeys ra.1 = true := by
  rw [opCopy] at h
  cases hv : getPath r fromP o with
  | error e =>
    simp only [hv] at h
    exact absurd h (by simp)
  | ok v =>
    simp only [hv] at h
    cases hpl : path.getLast? with
    | none =>
      simp only [hpl] at h
      exact absurd h (by simp)
    | some key =>
      simp only [hpl] at h
      cases hr : resolveParts r path.dropLast o with
      | error e =>
        simp only [hr] at h
        exact absurd h (by simp)
      | ok con =>
        simp only [hr] at h
        split at h
        · exact absurd h (by simp)
        · cases hm : resolveMut r path.dropLast o
              (fun con => conAdd con key v o) with
          | error e =>
            rw [hm] at h
            exact absurd h (by simp [Except.map])
          | ok a1 =>
            rw [hm] at h
            simp only [Except.map] at h
            injection h with h
            rw [← h]
            exact wfKeys_resolveMut path.dropLast
              (fun x y hkx hxy => wfKeys_conAdd hkx (wfKeys_getPath hk hv) hxy)
              hk hm

theorem erel_map_pair {x y : Except PErr Val} (acc : Int) (h : erel ValPerm x y) :
    erel (fun a b => ValPerm a.1 b.1 ∧ a.2 = b.2)
      (x.map (fun r => (r, acc))) (y.map (fun r => (r, acc))) := by
  cases x with
  | error e =>
    cases y with
    | error e2 =>
      have he : e = e2 := h
      rw [he]
      exact rfl
    | ok b => exact absurd h (by simp [erel])
  | ok a =>
    cases y with
    | error e2 => exact absurd h (by simp [erel])
    | ok b => exact ⟨h, rfl⟩

/-- One validated operation respects the representation relation. -/
theorem applyOp_rel {r1 r2 : Val} (hp : ValPerm r1 r2) (hk : wfKeys r1 = true)
    {x1 x2 : Operation} (hx : opRel x1 x2)
    (hkx : ∀ v, x1.value = some v → wfKeys v = true) (acc : Int) (o : Options) :
    erel (fun a b => ValPerm a.1 b.1 ∧ a.2 = b.2)
      (applyOp r1 x1 acc o) (applyOp r2 x2 acc o) := by
  obtain ⟨hop, hfrom, hpath, hval⟩ := hx
  simp only [applyOp]
  rw [← hop, ← hfrom, ← hpath]
  cases ho : x1.op with
  | reserved => exact rfl
  | add =>
    exact erel_map_pair acc
      (opAdd_rel hp hk _ (valOfOpt_rel hval) o)
  | remove =>
    exact erel_map_pair acc (opRemove_rel hp hk _ o)
  | replace =>
    exact erel_map_pair acc (opReplace_rel hp hk _ hval o)
  | move =>
    exact erel_map_pair acc (opMove_rel hp hk _ _ o)
  | copy =>
    exact opCopy_rel hp hk _ _ acc o
  | test =>
    have ht := opTest_rel hp hk (x1.path.getD []) hval
      (wfKeys_valOfOpt hkx) o
    cases ht1 : opTest r1 (x1.path.getD []) x1.value o with
    | error e =>
      rw [ht1] at ht
      cases ht2 : opTest r2 (x1.path.getD []) x2.value o with
      | error e2 =>
        have he : e = e2 := by rw [ht2] at ht; exact ht
        rw [he]
        exact rfl
      | ok u =>
        rw [ht2] at ht
        exact absurd ht (by simp [erel])
    | ok u =>
      rw [ht1] at ht
      cases ht2 : opTest r2 (x1.path.getD []) x2.value o with
      | error e2 =>
        rw [ht2] at ht
        exact absurd ht (by simp [erel])
      | ok u2 =>
        exact ⟨hp, rfl⟩

theorem wfKeys_applyOp {r : Val} {x : Operation} {acc : Int} {o : Options}
    {ra : Val × Int} (hk : wfKeys r = true)
    (hkx : ∀ v, x.value = some v → wfKeys v = true)
    (h : applyOp r x acc o = .ok ra) : wfKeys ra.1 = true := by
  rw [applyOp] at h
  cases ho : x.op with
  | reserved =>
    simp only [ho] at h
    exact absurd h (by simp)
  | add =>
    simp only [ho] at h
    cases ha : opAdd r (x.path.getD []) (valOfOpt x.value) o with
    | error e =>
      rw [ha] at h
      exact absurd h (by simp [Except.map])
    | ok r2 =>
      rw [ha] at h
      simp only [Except.map] at h
      injection h with h
      rw [← h]
      exact wfKeys_opAdd hk (wfKeys_valOfOpt hkx) ha
  | remove =>
    simp only [ho] at h
    cases ha : opRemove r (x.path.getD []) o with
    | error e =>
      rw [ha] at h
      exact absurd h (by simp [Except.map])
    | ok r2 =>
      rw [ha] at h
      simp only [Except.map] at h
      injection h with h
      rw [← h]
      exact wfKeys_opRemove hk ha
  | replace =>
    simp only [ho] at h
    cases ha : opReplace r (x.path.getD []) x.value o with
    | error e =>
      rw [ha] at h
      exact absurd h (by simp [Except.map])
    | ok r2 =>
      rw [ha] at h
      simp only [Except.map] at h
      injection h with h
      rw [← h]
      exact wfKeys_opReplace hk (wfKeys_valOfOpt hkx) ha
  | move =>
    simp only [ho] at h
    cases ha : opMove r (x.fromPath.getD []) (x.path.getD []) o with
    | error e =>
      rw [ha] at h
      exact absurd h (by simp [Except.map])
    | ok r2 =>
      rw [ha] at h
      simp only [Except.map] at h
      injection h with h
      rw [← h]
      exact wfKeys_opMove hk ha
  | copy =>
    simp only [ho] at h
    exact wfKeys_opCopy hk h
  | test =>
    simp only [ho] at h
    cases ha : opTest r (x.path.getD []) x.value o with
    | error e =>
      rw [ha] at h
      exact absurd h (by simp [Except.map])
    | ok u =>
      rw [ha] at h
      simp only [Except.map] at h
      injection h with h
      rw [← h]
      exact hk

theorem operationValid_rel {x1 x2 : Operation} (hx : opRel x1 x2) :
    operationValid x1 = operationValid x2 := by
  obtain ⟨hop, hfrom, hpath, hval⟩ := hx
  rw [operationValid, operationValid, ← hop, ← hfrom, ← hpath, ← orel_isNone hval]

theorem applyOps_rel : ∀ (ops1 ops2 : List Operation), List.Forall₂ opRel ops1 ops2 →
    (∀ x ∈ ops1, ∀ v, x.value = some v → wfKeys v = true) →
    ∀ {r1 r2 : Val}, ValPerm r1 r2 → wfKeys r1 = true → ∀ (acc : Int) (o : Options),
    erel ValPerm (applyOps r1 ops1 acc o) (applyOps r2 ops2 acc o) := by
  intro ops1
  induction ops1 with
  | nil =>
    intro ops2 hf _ r1 r2 hp hk acc o
    cases hf
    simp only [applyOps]
    exact hp
  | cons x1 t1 ih =>
    intro ops2 hf hkops r1 r2 hp hk acc o
    cases hf with
    | cons hx ht =>
      rename_i x2 t2
      simp only [applyOps]
      rw [← operationValid_rel hx]
      by_cases hv : operationValid x1 = true
      · simp only [hv, if_true]
        have happ := applyOp_rel hp hk hx
          (hkops x1 (List.mem_cons_self _ _)) acc o
        cases ha1 : applyOp r1 x1 acc o with
        | error e =>
          rw [ha1] at happ
          cases ha2 : applyOp r2 x2 acc o with
          | error e2 =>
            have he : e = e2 := by rw [ha2] at happ; exact happ
            rw [he]
            exact rfl
          | ok rb =>
            rw [ha2] at happ
            exact absurd happ (by simp [erel])
        | ok ra1 =>
          rw [ha1] at happ
          cases ha2 : applyOp r2 x2 acc o with
          | error e2 =>
            rw [ha2] at happ
            exact absurd happ (by simp [erel])
          | ok ra2 =>
            rw [ha2] at happ
            obtain ⟨hperm2, hacc2⟩ := happ
            show erel ValPerm (applyOps ra1.1 t1 ra1.2 o) (applyOps ra2.1 t2 ra2.2 o)
            rw [← hacc2]
            exact ih t2 ht (fun y hy => hkops y (List.mem_cons_of_mem _ hy))
              hperm2 (wfKeys_applyOp hk (hkops x1 (List.mem_cons_self _ _)) ha1)
              ra1.2 o
      · simp only [hv, if_false]
        exact rfl

theorem wfKeys_applyOps : ∀ (ops : List Operation) {r r' : Val} {acc : Int}
    {o : Options},
    (∀ x ∈ ops, ∀ v, x.value = some v → wfKeys v = true) →
    wfKeys r = true → applyOps r ops acc o = .ok r' → wfKeys r' = true := by
  intro ops
  induction ops with
  | nil =>
    intro r r' acc o _ hk h
    rw [applyOps] at h
    injection h with h
    rw [← h]
    exact hk
  | cons x t ih =>
    intro r r' acc o hkops hk h
    rw [applyOps] at h
    by_cases hv : operationValid x = true
    · rw [if_pos hv] at h
      cases ha : applyOp r x acc o with
      | error e =>
        simp only [ha] at h
        exact absurd h (by simp)
      | ok ra =>
        simp only [ha] at h
        exact ih (fun y hy => hkops y (List.mem_cons_of_mem _ hy))
          (wfKeys_applyOp hk (hkops x (List.mem_cons_self _ _)) ha) h
    · rw [if_neg hv] at h
      exact absurd h (by simp)

theorem nodePatch_rel {r1 r2 : Val} (hp : ValPerm r1 r2) (hk : wfKeys r1 = true)
    (ops1 ops2 : List Operation) (hops : List.Forall₂ opRel ops1 ops2)
    (hkops : ∀ x ∈ ops1, ∀ v, x.value = some v → wfKeys v = true) (o : Options) :
    erel ValPerm (nodePatch r1 ops1 o) (nodePatch r2 ops2 o) := by
  rw [nodePatch, nodePatch, ← valPerm_isContainer hp]
  by_cases hc : r1.isContainer = true
  · simp only [hc, if_true]
    exact applyOps_rel ops1 ops2 hops hkops hp hk 0 o
  · simp only [hc, if_false]
    exact rfl

/-! ## Claim C5 -/

/-- C5: patch application is deterministic.  The unspecified iteration
and layout order of Go's in-memory maps is modelled by the association
list order of `Val.map`; two runs on the same document and patch bytes
decode to ValPerm-related documents and opRel-related operation lists
with duplicate-free map keys (the decoder enforces DupMapKeyEnforcedAPF).
Any two such runs of ApplyWithOptions return identical results:
byte-identical marshalled documents on success (the configured encoder
sorts map entries bytewise-lexically by encoded key) and identical
errors on failure. -/
theorem c5_apply_deterministic (D1 D2 : Val) (ops1 ops2 : List Operation)
    (o : Options) (hk : wfKeys D1 = true)
    (hkops : ∀ x ∈ ops1, ∀ v, x.value = some v → wfKeys v = true)
    (hD : ValPerm D1 D2) (hops : List.Forall₂ opRel ops1 ops2) :
    applyWithOptions D1 ops1 o = applyWithOptions D2 ops2 o := by
  rw [applyWithOptions, applyWithOptions]
  have hnp := nodePatch_rel hD hk ops1 ops2 hops hkops o
  cases h1 : nodePatch D1 ops1 o with
  | error e =>
    rw [h1] at hnp
    cases h2 : nodePatch D2 ops2 o with
    | error e2 =>
      have he : e = e2 := by
        rw [h2] at hnp
        exact hnp
      rw [he]
    | ok b =>
      rw [h2] at hnp
      exact absurd hnp (by simp [erel])
  | ok r1 =>
    rw [h1] at hnp
    cases h2 : nodePatch D2 ops2 o with
    | error e2 =>
      rw [h2] at hnp
      exact absurd hnp (by simp [erel])
    | ok r2 =>
      rw [h2] at hnp
      have hkr1 : wfKeys r1 = true := by
        rw [nodePatch] at h1
        by_cases hc : D1.isContainer = true
        · rw [if_pos hc] at h1
          exact wfKeys_applyOps ops1 hkops hk h1
        · rw [if_neg hc] at h1
          exact absurd h1 (by simp)
      simp only [Except.map]
      rw [marshal_valPerm r1 hkr1 r2 hnp]

/-- C5 witness: the two representation orders of \x7b"a": 1, "b": 2\x7d,
patched with a single add of "c", marshal to the same bytes. -/
theorem c5_apply_deterministic_witness :
    (wfKeys (Val.map [([0x61, 0x61], Val.other [0x01]), ([0x61, 0x62], Val.other [0x02])]) = true ∧
     ValPerm (Val.map [([0x61, 0x61], Val.other [0x01]), ([0x61, 0x62], Val.other [0x02])]) (Val.map [([0x61, 0x62], Val.other [0x02]), ([0x61, 0x61], Val.other [0x01])]) ∧
     List.Forall₂ opRel ([Operation.mk .add none (some [[0x61, 0x63]]) (some (Val.other [0x03]))]) ([Operation.mk .add none (some [[0x61, 0x63]]) (some (Val.other [0x03]))]) ∧
     (∀ x ∈ ([Operation.mk .add none (some [[0x61, 0x63]]) (some (Val.other [0x03]))]), ∀ v, x.value = some v → wfKeys v = true)) ∧
    applyWithOptions (Val.map [([0x61, 0x61], Val.other [0x01]), ([0x61, 0x62], Val.other [0x02])]) ([Operation.mk .add none (some [[0x61, 0x63]]) (some (Val.other [0x03]))]) newOptions =
      applyWithOptions (Val.map [([0x61, 0x62], Val.other [0x02]), ([0x61, 0x61], Val.other [0x01])]) ([Operation.mk .add none (some [[0x61, 0x63]]) (some (Val.other [0x03]))]) newOptions := by
  have hk : wfKeys (Val.map [([0x61, 0x61], Val.other [0x01]), ([0x61, 0x62], Val.other [0x02])]) = true := by
    rw [wfKeys]
    simp only [List.map_cons, List.map_nil]
    rw [wfKeysEntries, wfKeys, wfKeysEntries, wfKeys, wfKeysEntries]
    simp
  have hD : ValPerm (Val.map [([0x61, 0x61], Val.other [0x01]), ([0x61, 0x62], Val.other [0x02])]) (Val.map [([0x61, 0x62], Val.other [0x02]), ([0x61, 0x61], Val.other [0x01])]) :=
    ValPerm.map (List.Perm.swap _ _ _)
      (valPermEntries_refl_of _ (fun p _ => valPerm_refl p.2))
  have hops : List.Forall₂ opRel ([Operation.mk .add none (some [[0x61, 0x63]]) (some (Val.other [0x03]))]) ([Operation.mk .add none (some [[0x61, 0x63]]) (some (Val.other [0x03]))]) :=
    .cons ⟨rfl, rfl, rfl, valPerm_refl _⟩ .nil
  have hkops : ∀ x ∈ ([Operation.mk .add none (some [[0x61, 0x63]]) (some (Val.other [0x03]))]), ∀ v, x.value = some v → wfKeys v = true := by
    intro x hx v hv
    rw [List.mem_singleton] at hx
    subst hx
    injection hv with hv
    rw [← hv, wfKeys]
  exact ⟨⟨hk, hD, hops, hkops⟩,
    c5_apply_deterministic _ _ _ _ newOptions hk hkops hD hops⟩

end CborPatch
